import Mathlib

/-!
# Working Memory Toolkit: the working-memory controller

A shallow embedding of `WorkingMemory.cpp` (the TD-learning controller that
chooses the contents of a bounded working memory) together with the facts of
its specification that can be settled on it.

Conventions of the embedding.

* `double` values are elements of an arbitrary linearly ordered field `α`
  (exact arithmetic); every definition is computable and can be run at `α := ℚ`.
  The value the C library returns for `sqrt(2)` is the explicit argument
  `sqrt2` of the two functions that use it.
* `vector<T>` is `List T`.  Reading or writing past the end of a vector is
  undefined behaviour in the source; the embedding reports it as `none`.
* The random engine `re` is replaced by the values drawn from it: the uniform
  real draw `u` of the epsilon-soft test and the list `draws` of the integer
  draws of the random selection, consumed from the front.
* The HRR engine and the critic network are used through their interfaces
  only; they are fields of the controller state, as in the source.
-/

set_option autoImplicit false
set_option linter.unusedSectionVars false

namespace WMtk

/-- The type `HRR` of `hrr/hrrengine.h`: `typedef vector<double> HRR;`. -/
abbrev HRR (α : Type) := List α

/-- Modelled from the spec: the interface of `CriticNetwork` (its header and
implementation are not among the sources).  The controller reads the scalar
hyper-parameters `alpha`, `discount`, `lambda`, `epsilon` and calls
`V(vector, weights)`, `TDError(reward, value, previousValue)` and the
two-argument overload `TDError(reward, previousValue)` (here `TDErrorGoal`);
the three functions are left uninterpreted. -/
structure CriticNetwork (α : Type) where
  alpha : α
  discount : α
  lambda : α
  epsilon : α
  V : HRR α → HRR α → α
  TDError : α → α → α → α
  TDErrorGoal : α → α → α

/-- Modelled from the spec: the part of `HRREngine` the controller calls
(`hrrengine.cpp` is not among the sources; `hrr/hrrengine.h` only declares
the members).  A concept name always resolves to the same vector, so `query`
is a function of the name; `convolveHRRs`, `dot`, `unpackSimple` and
`explode` are left uninterpreted. -/
structure HRREngine (α : Type) where
  query : String → HRR α
  convolveHRRs : HRR α → HRR α → HRR α
  dot : HRR α → HRR α → α
  unpackSimple : String → List String
  explode : String → Char → List String

/-- Modelled from the spec: `operator+` on `HRR` (`hrr/hrrOperators.h` is not
among the sources), the "element-wise sum of same-length vectors". -/
def addHRR {α : Type} [LinearOrderedField α] (a b : HRR α) : HRR α :=
  List.zipWith (fun x y => x + y) a b

/-- The data members of `class WorkingMemory` that the controller code reads
or writes (the random engine `re` is replaced by its draws, see above). -/
structure WorkingMemory (α : Type) where
  critic : CriticNetwork α
  hrrengine : HRREngine α
  workingMemoryChunks : List String
  vectorSize : Nat
  state : String
  currentChunkValue : α
  previousReward : α
  previousValue : α
  previousQValue : α
  previousStateWorkingMemory : HRR α
  previousStateWorkingMemoryAction : HRR α
  eligibilityTrace : List α
  actionEligibilityTrace : List α
  weights : List α
  actionWeights : List α
  permutation : List Nat

/-- Collects a list of optional values: `none` as soon as one is missing. -/
def allSome {β : Type} : List (Option β) → Option (List β)
  | [] => some []
  | none :: _ => none
  | some b :: rest => (allSome rest).map (fun bs => b :: bs)

/-- The loop `for (int x = 0; x < n; x++) a[x] = f(a[x], b[x]);` run for `n`
indices from the front of `a` and `b`; `none` when either vector has fewer
than `n` entries. -/
def updateEach {α : Type} (f : α → α → α) : Nat → List α → List α → Option (List α)
  | 0, a, _ => some a
  | n + 1, u :: a, v :: b => (updateEach f n a b).map (fun r => f u v :: r)
  | _ + 1, _, _ => none

/-- The algorithm `std::sort` on a range of strings. -/
def sortStrings (l : List String) : List String :=
  l.insertionSort (fun a b => a ≤ b)

/-- The algorithm `std::set_union(first1, last1, first2, last2, out)`: the
sequence of values it writes to `out`. -/
def set_union : List String → List String → List String
  | [], l2 => l2
  | a :: l1, [] => a :: l1
  | a :: l1, b :: l2 =>
    if b < a then b :: set_union (a :: l1) l2
    else if a < b then a :: set_union l1 (b :: l2)
    else a :: set_union l1 l2
termination_by l1 l2 => l1.length + l2.length

/-- The steps `i2 = last; while (!(*--i2 < *i)) ; iter_swap(i, i2);` of
`std::prev_permutation`.  The range `[i1, last)` is given back to front and
`a` is `*i`; the result is the value that moves to `i` and the range, still
back to front, after the swap. -/
def swapWithLastSmaller (a : Bool) : List Bool → Bool × List Bool
  | [] => (a, [])
  | x :: rest =>
    if x < a then (x, a :: rest)
    else ((swapWithLastSmaller a rest).1, x :: (swapWithLastSmaller a rest).2)

/-- The loop of `std::prev_permutation` on a `vector<bool>`, scanning from
the back.  The first argument holds the elements in front of `i1` in reverse
order (so its head is `*--i`), the second the range `[i1, last)`.  When
`*i1 < *i` the last element of `[i1, last)` smaller than `*i` is swapped with
`*i` and `[i1, last)` is reversed; when the front is reached the whole range
is reversed. -/
def prevPermLoop : List Bool → List Bool → Bool × List Bool
  | [], suf => (false, suf.reverse)
  | a :: pre, [] => prevPermLoop pre [a]
  | a :: pre, s :: suf =>
    if s < a then
      (true, pre.reverse ++ (swapWithLastSmaller a (s :: suf).reverse).1 ::
        (swapWithLastSmaller a (s :: suf).reverse).2)
    else prevPermLoop pre (a :: s :: suf)

/-- The algorithm `std::prev_permutation(v.begin(), v.end())`: whether a
previous permutation exists, and the contents of `v` afterwards (when none
exists the range is reversed, as the library does). -/
def prev_permutation (v : List Bool) : Bool × List Bool :=
  prevPermLoop v.reverse []

namespace WorkingMemory

variable {α : Type} [LinearOrderedField α]

/-- Source function `WorkingMemory::permute` (lines 796-805): a zero-initialised vector of
`vectorSize` entries whose entries `1 .. vectorSize-1` are
`original[permutation[i]]`; entry `0` is not assigned by the loop. -/
def permute (wm : WorkingMemory α) (original : HRR α) : Option (HRR α) :=
  allSome ((List.range wm.vectorSize).map (fun i =>
    if i = 0 then some 0
    else (wm.permutation[i]?).bind (fun p => original[p]?)))

/-- Source function `WorkingMemory::stateRepresentation` (lines 650-660). -/
def stateRepresentation (wm : WorkingMemory α) : Option (HRR α) :=
  match wm.hrrengine.explode wm.state '+' with
  | [] => none
  | c :: rest =>
    some (rest.foldl (fun acc name => addHRR acc (wm.hrrengine.query name))
      (wm.hrrengine.query c))

/-- Source function `WorkingMemory::stateAndWorkingMemoryRepresentation` (lines 663-679). -/
def stateAndWorkingMemoryRepresentation (wm : WorkingMemory α) : Option (HRR α) :=
  match wm.workingMemoryChunks with
  | [] => none
  | c :: rest =>
    let representation := rest.foldl
      (fun acc name => wm.hrrengine.convolveHRRs acc (wm.hrrengine.query name))
      (wm.hrrengine.query c)
    (if wm.hrrengine.dot (wm.hrrengine.query "I") representation ≠ 1
      then wm.permute representation else some representation).bind fun representation =>
    wm.stateRepresentation.map fun st => wm.hrrengine.convolveHRRs representation st

/-- Source function `WorkingMemory::findValueOfContents` (lines 725-742). -/
def findValueOfContents (wm : WorkingMemory α) (contents : List String) : Option α :=
  match contents with
  | [] => none
  | c :: rest =>
    let representation := rest.foldl
      (fun acc name => wm.hrrengine.convolveHRRs acc (wm.hrrengine.query name))
      (wm.hrrengine.query c)
    (if wm.hrrengine.dot (wm.hrrengine.query "I") representation ≠ 1
      then wm.permute representation else some representation).bind fun representation =>
    wm.stateRepresentation.map fun st =>
      wm.critic.V (wm.hrrengine.convolveHRRs representation st) wm.weights

/-- One iteration of the loop of `findMostValuableAction` (lines 754-762) on
the triple `(action, actionHRR, bestValue)`. -/
def actionStep (wm : WorkingMemory α) (stateWMRepresentation : HRR α)
    (best : String × HRR α × α) (a : String) : String × HRR α × α :=
  let actionRepresentation :=
    wm.hrrengine.convolveHRRs (wm.hrrengine.query a) stateWMRepresentation
  let val := wm.critic.V actionRepresentation wm.actionWeights
  if val > best.2.2 then (a, actionRepresentation, val) else best

/-- Source function `WorkingMemory::findMostValuableAction` (lines 746-766): `action` and
`actionHRR` start default-constructed (empty), `bestValue` starts at `-999`. -/
def findMostValuableAction (wm : WorkingMemory α) (possibleActions : List String) :
    Option (String × HRR α) :=
  wm.stateAndWorkingMemoryRepresentation.map fun stateWMRepresentation =>
    let best := possibleActions.foldl (wm.actionStep stateWMRepresentation) ("", [], -999)
    (best.1, best.2.1)

/-- Source function `WorkingMemory::getCandidateChunksFromState` (lines 534-563).  Before each
`set_union` the output vector is resized to the sum of the two sizes; the
entries behind the ones `set_union` writes keep what the resize left there. -/
def getCandidateChunksFromState (wm : WorkingMemory α) : List String :=
  let stateConceptNames := (wm.hrrengine.explode wm.state '+').filter (fun s => s ≠ "I")
  stateConceptNames.foldl (fun candidateChunks c =>
    let candidates := candidateChunks
    let unpackedConcepts := wm.hrrengine.unpackSimple c
    let resized := candidateChunks ++ List.replicate unpackedConcepts.length ""
    let written := set_union candidates unpackedConcepts
    written ++ resized.drop written.length) []

/-- The loop of `chooseRandomWorkingMemoryContents` (lines 568-586) from slot
`i` on, for `count` more slots: the working memory, the remaining candidates
and the remaining draws. -/
def chooseRandomLoop : Nat → Nat → List String → List String → List Int →
    Option (List String × List Int)
  | 0, _, chunks, _, draws => some (chunks, draws)
  | count + 1, i, chunks, candidates, draws =>
    if candidates.length = 0 then
      chooseRandomLoop count (i + 1) (chunks.set i "I") candidates draws
    else
      match draws with
      | [] => none
      | chunk :: draws =>
        if chunk > 0 then
          match candidates[chunk.toNat]? with
          | none => none
          | some c =>
            let chunks := chunks.set i c
            let chunks := sortStrings (chunks.take i) ++ chunks.drop i
            chooseRandomLoop count (i + 1) chunks (candidates.eraseIdx chunk.toNat) draws
        else
          chooseRandomLoop count (i + 1) (chunks.set i "I") [] draws

/-- Source function `WorkingMemory::chooseRandomWorkingMemoryContents` (lines 566-587); also
returns the draws it did not consume. -/
def chooseRandomWorkingMemoryContents (wm : WorkingMemory α) (candidates : List String)
    (draws : List Int) : Option (WorkingMemory α × List Int) :=
  (chooseRandomLoop wm.workingMemoryChunks.length 0 wm.workingMemoryChunks candidates draws).map
    fun r => ({ wm with workingMemoryChunks := r.1 }, r.2)

/-- The loop `for (int i = 0; i < n; ++i) if (v[i]) combination[fill++] =
candidateChunks[i];` (lines 608-613), started with the given `fill`. -/
def fillCombination : List Bool → List String → Nat → List String → Option (List String)
  | b :: v, c :: candidateChunks, fill, combination =>
    if b then
      if fill < combination.length then
        fillCombination v candidateChunks (fill + 1) (combination.set fill c)
      else none
    else fillCombination v candidateChunks fill combination
  | _, _, _, combination => some combination

/-- The `do { ... } while (prev_permutation(v.begin(), v.end()))` loop of
`findMostValuableChunks` (lines 607-622) on the controller and the local
`combination`.  The first argument bounds the number of iterations. -/
def combinationLoop (candidateChunks : List String) :
    Nat → List Bool → WorkingMemory α × List String → Option (WorkingMemory α × List String)
  | 0, _, _ => none
  | fuel + 1, v, (wm, combination) =>
    (fillCombination v candidateChunks 0 combination).bind fun combination =>
    (wm.findValueOfContents combination).bind fun valueOfContents =>
    let wm := if valueOfContents > wm.currentChunkValue then
        { wm with workingMemoryChunks := combination, currentChunkValue := valueOfContents }
      else wm
    match prev_permutation v with
    | (true, v) => combinationLoop candidateChunks fuel v (wm, combination)
    | (false, _) => some (wm, combination)

/-- The loop `for (int x = 1; x <= r; x++)` of `findMostValuableChunks`
(lines 603-623) from `x` on, for `count` more sizes.  Each size starts from
the vector `v` of `n` flags whose first `x` are set; a vector of `n` flags
has at most `2 ^ n` arrangements, which bounds the inner loop. -/
def sizeLoop (candidateChunks : List String) :
    Nat → Nat → WorkingMemory α × List String → Option (WorkingMemory α × List String)
  | 0, _, st => some st
  | count + 1, x, st =>
    let n := candidateChunks.length
    let v := List.replicate x true ++ List.replicate (n - x) false
    (combinationLoop candidateChunks (2 ^ n) v st).bind fun st =>
    sizeLoop candidateChunks count (x + 1) st

/-- Source function `WorkingMemory::findMostValuableChunks` (lines 590-626). -/
def findMostValuableChunks (wm : WorkingMemory α) (candidateChunks : List String) :
    Option (WorkingMemory α) :=
  let n := candidateChunks.length
  let r := if wm.workingMemoryChunks.length > n then n else wm.workingMemoryChunks.length
  let combination := List.replicate wm.workingMemoryChunks.length "I"
  let wm := { wm with workingMemoryChunks := combination }
  (wm.findValueOfContents combination).bind fun value =>
  let wm := { wm with currentChunkValue := value }
  (sizeLoop candidateChunks r 1 (wm, combination)).map fun st => st.1

/-- Lines 269-315 of `initializeEpisode`: value of the chosen contents, action
choice, bookkeeping for the next call, clearing of both traces. -/
def initializeEpisodeFinish (wm : WorkingMemory α) (possibleActions : List String)
    (reward : α) : Option (String × WorkingMemory α) :=
  wm.stateAndWorkingMemoryRepresentation.bind fun representation =>
  let value := wm.critic.V representation wm.weights
  (wm.findMostValuableAction possibleActions).map fun action =>
  let qValue := wm.critic.V action.2 wm.actionWeights
  (action.1,
    { wm with
      previousStateWorkingMemory := representation
      previousValue := value
      previousReward := reward
      previousStateWorkingMemoryAction := action.2
      previousQValue := qValue
      eligibilityTrace := List.replicate wm.eligibilityTrace.length 0
      actionEligibilityTrace := List.replicate wm.actionEligibilityTrace.length 0 })

/-- Lines 250-267 of `initializeEpisode`: the state is stored, working memory
is cleared, the candidates are derived and sorted, and the contents are
chosen at random when the uniform draw `u` is below `epsilon`, by the
exhaustive search otherwise. -/
def initializeEpisodeSelect (wm : WorkingMemory α) (state : String) (u : α)
    (draws : List Int) : Option (WorkingMemory α) :=
  let wm := { wm with state := state }
  let wm := { wm with
    workingMemoryChunks := List.replicate wm.workingMemoryChunks.length "I" }
  let candidateChunks := sortStrings wm.getCandidateChunksFromState
  if u < wm.critic.epsilon then
    (wm.chooseRandomWorkingMemoryContents candidateChunks draws).map (fun r => r.1)
  else wm.findMostValuableChunks candidateChunks

/-- Source function `WorkingMemory::initializeEpisode` (lines 244-316). -/
def initializeEpisode (wm : WorkingMemory α) (state : String) (possibleActions : List String)
    (reward : α) (u : α) (draws : List Int) : Option (String × WorkingMemory α) :=
  (wm.initializeEpisodeSelect state u draws).bind fun wm =>
  wm.initializeEpisodeFinish possibleActions reward

/-- The two trace loops shared by `step` (lines 341-353) and `absorbReward`
(lines 450-462): `trace[x] *= lambda; trace[x] += previous[x] / sqrt(2)`. -/
def updateTraces (sqrt2 : α) (wm : WorkingMemory α) : Option (WorkingMemory α) :=
  (updateEach (fun e p => e * wm.critic.lambda + p / sqrt2) wm.vectorSize
    wm.eligibilityTrace wm.previousStateWorkingMemory).bind fun trace =>
  (updateEach (fun e p => e * wm.critic.lambda + p / sqrt2) wm.vectorSize
    wm.actionEligibilityTrace wm.previousStateWorkingMemoryAction).map fun actionTrace =>
  { wm with eligibilityTrace := trace, actionEligibilityTrace := actionTrace }

/-- Lines 359-371 of `step`: the new state is stored and the candidate list is
built from it and from the chunks currently in working memory. -/
def stepCandidates (wm : WorkingMemory α) : List String :=
  let candidateChunks := wm.getCandidateChunksFromState
  let candidateChunks := wm.workingMemoryChunks.foldl (fun candidateChunks chunk =>
    if chunk ≠ "I" ∧ chunk ∉ candidateChunks then candidateChunks ++ [chunk]
    else candidateChunks) candidateChunks
  sortStrings candidateChunks

/-- Lines 382-441 of `step`: value of the chosen contents, action choice, the
two TD updates and the bookkeeping for the next call. -/
def stepFinish (wm : WorkingMemory α) (possibleActions : List String) (reward : α) :
    Option (String × WorkingMemory α) :=
  wm.stateAndWorkingMemoryRepresentation.bind fun representation =>
  let value := wm.critic.V representation wm.weights
  (wm.findMostValuableAction possibleActions).bind fun action =>
  let qValue := wm.critic.V action.2 wm.actionWeights
  let error := wm.critic.TDError wm.previousReward value wm.previousValue
  (updateEach (fun w e => w + wm.critic.alpha * error * e) wm.vectorSize
    wm.weights wm.eligibilityTrace).bind fun weights =>
  let error := wm.critic.TDError wm.previousReward qValue wm.previousQValue
  (updateEach (fun w e => w + wm.critic.alpha * error * e) wm.vectorSize
    wm.actionWeights wm.actionEligibilityTrace).map fun actionWeights =>
  (action.1,
    { wm with
      weights := weights
      actionWeights := actionWeights
      previousStateWorkingMemory := representation
      previousValue := value
      previousReward := reward
      previousStateWorkingMemoryAction := action.2
      previousQValue := qValue })

/-- Lines 341-380 of `step`: both traces are updated, the state is stored, the
candidates are built and sorted, and the contents are chosen at random when
the uniform draw `u` is below `epsilon`, by the exhaustive search otherwise. -/
def stepSelect (sqrt2 : α) (wm : WorkingMemory α) (state : String) (u : α)
    (draws : List Int) : Option (WorkingMemory α) :=
  (updateTraces sqrt2 wm).bind fun wm =>
  let wm := { wm with state := state }
  let candidateChunks := wm.stepCandidates
  if u < wm.critic.epsilon then
    (wm.chooseRandomWorkingMemoryContents candidateChunks draws).map (fun r => r.1)
  else wm.findMostValuableChunks candidateChunks

/-- Source function `WorkingMemory::step` (lines 335-441). -/
def step (sqrt2 : α) (wm : WorkingMemory α) (state : String) (possibleActions : List String)
    (reward : α) (u : α) (draws : List Int) : Option (String × WorkingMemory α) :=
  (stepSelect sqrt2 wm state u draws).bind fun wm =>
  wm.stepFinish possibleActions reward

/-- Source function `WorkingMemory::absorbReward` (lines 444-487). -/
def absorbReward (sqrt2 : α) (wm : WorkingMemory α) (reward : α) : Option (WorkingMemory α) :=
  (updateTraces sqrt2 wm).bind fun wm =>
  let error := wm.critic.TDErrorGoal reward wm.previousValue
  (updateEach (fun w e => w + wm.critic.alpha * error * e) wm.vectorSize
    wm.weights wm.eligibilityTrace).bind fun weights =>
  let error := wm.critic.TDErrorGoal reward wm.previousQValue
  (updateEach (fun w e => w + wm.critic.alpha * error * e) wm.vectorSize
    wm.actionWeights wm.actionEligibilityTrace).map fun actionWeights =>
  { wm with weights := weights, actionWeights := actionWeights }

/-- Source function `WorkingMemory::WorkingMemory`, the initializing
constructor (lines 100-143).  The critic and the engine are given with their
functions; `draw i` is the `i`-th value drawn from `re` for the weights and
`shuffle` the effect of `std::shuffle` with that engine.  The slots are
default-constructed strings, the two "previous" vectors are empty, and the
members the constructor does not assign (`previousQValue`,
`currentChunkValue`) hold the value `indeterminate`. -/
def construct (critic : CriticNetwork α) (hrrengine : HRREngine α)
    (learningRate discount lambda epsilon : α) (vectorSize numberOfChunks : Nat)
    (draw : Nat → α) (shuffle : List Nat → List Nat) (indeterminate : α) : WorkingMemory α where
  critic := { critic with
    alpha := learningRate, discount := discount, lambda := lambda, epsilon := epsilon }
  hrrengine := hrrengine
  workingMemoryChunks := List.replicate numberOfChunks ""
  vectorSize := vectorSize
  state := ""
  currentChunkValue := indeterminate
  previousReward := 0
  previousValue := 0
  previousQValue := indeterminate
  previousStateWorkingMemory := []
  previousStateWorkingMemoryAction := []
  eligibilityTrace := List.replicate vectorSize 0
  actionEligibilityTrace := List.replicate vectorSize 0
  weights := (List.range vectorSize).map draw
  actionWeights := (List.range vectorSize).map (fun i => draw (vectorSize + i))
  permutation := shuffle (List.range vectorSize)

/-- Source function `WorkingMemory::queryWorkingMemory()` (lines 490-499). -/
def queryWorkingMemory (wm : WorkingMemory α) : List String :=
  wm.workingMemoryChunks.foldl (fun chunkNames chunk => chunkNames ++ [chunk]) []

/-- Source function `WorkingMemory::queryWorkingMemory(int atIndex)` (lines
502-504). -/
def queryWorkingMemoryAt (wm : WorkingMemory α) (atIndex : Nat) : Option String :=
  wm.workingMemoryChunks[atIndex]?

/-- The loop of `inversePermute` (lines 812-814) from index `i` on, for
`count` more indices: `originalHRR[permutation[i]] = permuted[i]`. -/
def inversePermuteLoop (wm : WorkingMemory α) (permuted : HRR α) :
    Nat → Nat → HRR α → Option (HRR α)
  | 0, _, originalHRR => some originalHRR
  | count + 1, i, originalHRR =>
    match wm.permutation[i]?, permuted[i]? with
    | some p, some x =>
      if p < originalHRR.length then
        inversePermuteLoop wm permuted count (i + 1) (originalHRR.set p x)
      else none
    | _, _ => none

/-- Source function `WorkingMemory::inversePermute` (lines 808-817): the loop
runs over the indices `1 .. vectorSize-1` on a zero-initialised vector. -/
def inversePermute (wm : WorkingMemory α) (permuted : HRR α) : Option (HRR α) :=
  inversePermuteLoop wm permuted (wm.vectorSize - 1) 1 (List.replicate wm.vectorSize 0)

/-- The loop `for (int i = 0; i < n; i++) target[i] = source[i];` on a target
resized to `n` entries: the first `n` entries of `source`, `none` when
`source` has fewer. -/
def copyEntries {β : Type} (n : Nat) (source : List β) : Option (List β) :=
  allSome ((List.range n).map fun i => source[i]?)

/-- Source function `WorkingMemory::operator=` (lines 191-232) on the target
object `target`.  The chunks of `rhs` are pushed onto the target's vector as
it is, the four learned vectors and the permutation are resized to
`rhs.vectorSize` and copied entry by entry, and the members the function
does not mention (`state`, `currentChunkValue`, `previousQValue` and the two
"previous" vectors) keep the target's values. -/
def assign (target rhs : WorkingMemory α) : Option (WorkingMemory α) :=
  let workingMemoryChunks := rhs.workingMemoryChunks.foldl
    (fun chunks chunk => chunks ++ [chunk]) target.workingMemoryChunks
  (copyEntries rhs.vectorSize rhs.eligibilityTrace).bind fun eligibilityTrace =>
  (copyEntries rhs.vectorSize rhs.actionEligibilityTrace).bind fun actionEligibilityTrace =>
  (copyEntries rhs.vectorSize rhs.weights).bind fun weights =>
  (copyEntries rhs.vectorSize rhs.actionWeights).bind fun actionWeights =>
  (copyEntries rhs.vectorSize rhs.permutation).map fun permutation =>
  { target with
    critic := rhs.critic
    hrrengine := rhs.hrrengine
    workingMemoryChunks := workingMemoryChunks
    vectorSize := rhs.vectorSize
    previousReward := rhs.previousReward
    previousValue := rhs.previousValue
    eligibilityTrace := eligibilityTrace
    actionEligibilityTrace := actionEligibilityTrace
    weights := weights
    actionWeights := actionWeights
    permutation := permutation }

/-- Source function `WorkingMemory::WorkingMemory(const WorkingMemory&)`, the
copy constructor (lines 146-185): the statements of `operator=` on an object
whose members are default-initialised, so that the vectors and the state
text start empty and the scalars it does not assign hold the value
`indeterminate`. -/
def copyConstruct (rhs : WorkingMemory α) (indeterminate : α) : Option (WorkingMemory α) :=
  assign
    { rhs with
      workingMemoryChunks := []
      state := ""
      currentChunkValue := indeterminate
      previousQValue := indeterminate
      previousStateWorkingMemory := []
      previousStateWorkingMemoryAction := [] }
    rhs

/-- Source function `WorkingMemory::clearWeights` (lines 507-510):
`fill(weights.begin(), weights.end(), 0.0)`. -/
def clearWeights (wm : WorkingMemory α) : WorkingMemory α :=
  { wm with weights := List.replicate wm.weights.length 0 }

/-- The loop `for (int i = 0; i < vectorSize; i++) weights[i] =
distribution(re);` of both overloads of `resetWeights` from index `i` on,
for `count` more indices; `draw i` is the value drawn for index `i`. -/
def resetWeightsLoop (draw : Nat → α) : Nat → Nat → List α → Option (List α)
  | 0, _, weights => some weights
  | count + 1, i, weights =>
    if i < weights.length then resetWeightsLoop draw count (i + 1) (weights.set i (draw i))
    else none

/-- Source functions `WorkingMemory::resetWeights()` and
`WorkingMemory::resetWeights(double lower, double upper)` (lines 512-526);
the two differ in the range of the distribution only, which is the range of
the values `draw` takes. -/
def resetWeights (wm : WorkingMemory α) (draw : Nat → α) : Option (WorkingMemory α) :=
  (resetWeightsLoop draw wm.vectorSize 0 wm.weights).map fun weights =>
    { wm with weights := weights }

end WorkingMemory

/-! ## Predicates and definitions used to state the properties -/

section Statements

variable {α : Type} [LinearOrderedField α]

/-- The contract section 6 of the specification documents for the critic:
`TDError(reward, value, previousValue)` is
`reward + discount*value - previousValue` and the terminal form
`TDError(reward, previousValue)` is `reward - previousValue`. -/
structure CriticContract (c : CriticNetwork α) : Prop where
  tdError : ∀ reward value previousValue,
    c.TDError reward value previousValue = reward + c.discount * value - previousValue
  tdErrorGoal : ∀ reward previousValue, c.TDErrorGoal reward previousValue = reward - previousValue

/-- The four learned vectors have `vectorSize` entries, as the constructor
leaves them. -/
structure Sized (wm : WorkingMemory α) : Prop where
  weights_len : wm.weights.length = wm.vectorSize
  actionWeights_len : wm.actionWeights.length = wm.vectorSize
  trace_len : wm.eligibilityTrace.length = wm.vectorSize
  actionTrace_len : wm.actionEligibilityTrace.length = wm.vectorSize

/-- An episode has been initialised: the two stored "previous" vectors have
an entry for every index below `vectorSize`. -/
structure EpisodeInitialised (wm : WorkingMemory α) : Prop where
  previous_len : wm.vectorSize ≤ wm.previousStateWorkingMemory.length
  previousAction_len : wm.vectorSize ≤ wm.previousStateWorkingMemoryAction.length

/-- The controller is as the constructor builds it around an engine that is
configured for its vector size: at least one slot, learned vectors and
permutation of `vectorSize` entries, permutation entries below `vectorSize`,
and an engine whose vectors all have `vectorSize` entries. -/
structure WellFormed (wm : WorkingMemory α) : Prop where
  slots : wm.workingMemoryChunks ≠ []
  sized : Sized wm
  perm_len : wm.permutation.length = wm.vectorSize
  perm_lt : ∀ p ∈ wm.permutation, p < wm.vectorSize
  query_len : ∀ s, (wm.hrrengine.query s).length = wm.vectorSize
  conv_len : ∀ a b : HRR α, a.length = wm.vectorSize → b.length = wm.vectorSize →
    (wm.hrrengine.convolveHRRs a b).length = wm.vectorSize

/-- The controller `wm1` is `wm` up to the working-memory contents and
`currentChunkValue`, and has as many slots. -/
def SameExceptMemory (wm wm1 : WorkingMemory α) : Prop :=
  ∃ (chunks : List String) (value : α),
    wm1 = { wm with workingMemoryChunks := chunks, currentChunkValue := value } ∧
    chunks.length = wm.workingMemoryChunks.length

/-- The trace "`lambda * previous_trace + previous_vector / sqrt(2)`",
entry by entry. -/
def decayedTrace (lambda sqrt2 : α) (trace previous : List α) : List α :=
  List.zipWith (fun e p => lambda * e + p / sqrt2) trace previous

/-- The update "`weights += alpha * error * eligibilityTrace`", entry by
entry. -/
def tdUpdate (alpha error : α) (weights trace : List α) : List α :=
  List.zipWith (fun w e => w + alpha * error * e) weights trace

/-- The vectors of `n` flags with exactly `k` flags set, in the order
`std::prev_permutation` runs through them: a vector with a flag set at an
earlier position comes first. -/
def flagVectors : Nat → Nat → List (List Bool)
  | 0, 0 => [[]]
  | 0, _ + 1 => []
  | n + 1, 0 => (flagVectors n 0).map (fun v => false :: v)
  | n + 1, k + 1 =>
    (flagVectors n k).map (fun v => true :: v) ++
      (flagVectors n (k + 1)).map (fun v => false :: v)

/-- The candidates whose flag is set, in candidate order. -/
def chosen : List Bool → List String → List String
  | b :: v, c :: candidates => if b then c :: chosen v candidates else chosen v candidates
  | _, _ => []

/-- The sub-sequences of `k` entries of a list, in lexicographic order of the
positions they take their entries from. -/
def combinations : Nat → List String → List (List String)
  | 0, _ => [[]]
  | _ + 1, [] => []
  | k + 1, c :: candidates =>
    (combinations k candidates).map (fun l => c :: l) ++ combinations (k + 1) candidates

/-- A selection placed in the first slots of a working memory of `N` slots,
the remaining slots holding `"I"`. -/
def padded (N : Nat) (selection : List String) : List String :=
  selection ++ List.replicate (N - selection.length) "I"

/-- The configurations of sizes `x, x + 1, ...` (`count` sizes), by increasing
size and within one size in lexicographic order of the candidate positions. -/
def configurationsFrom (N : Nat) (candidates : List String) : Nat → Nat → List (List String)
  | 0, _ => []
  | count + 1, x =>
    (combinations x candidates).map (padded N) ++
      configurationsFrom N candidates count (x + 1)

/-- The enumeration order of the exhaustive search over `N` slots: the
all-empty configuration first, then the selections of sizes
`1 .. min N n` among the `n` candidates. -/
def enumeration (N : Nat) (candidates : List String) : List (List String) :=
  List.replicate N "I" :: configurationsFrom N candidates (min N candidates.length) 1

/-- One comparison of a running maximum: the pair `(x, f x)` replaces the
current best when `f x` is strictly greater than the best value. -/
def pick {ι β : Type} [LinearOrder β] (f : ι → β) (best : ι × β) (x : ι) : ι × β :=
  if f x > best.2 then (x, f x) else best

/-- The controller `wm` with the given working-memory contents and
`currentChunkValue`. -/
def withMemory {α : Type} (wm : WorkingMemory α) (best : List String × α) : WorkingMemory α :=
  { wm with workingMemoryChunks := best.1, currentChunkValue := best.2 }

/-- The score `findValueOfContents` gives a configuration (`0` where it gives
none). -/
def score {α : Type} [LinearOrderedField α] (wm : WorkingMemory α) (contents : List String) : α :=
  (wm.findValueOfContents contents).getD 0

/-- The action value `V(convolve(query(a), stateWM), actionWeights)` of an
action name for a given state+WM representation. -/
def actionValue {α : Type} (wm : WorkingMemory α) (stateWM : HRR α) (a : String) : α :=
  wm.critic.V (wm.hrrengine.convolveHRRs (wm.hrrengine.query a) stateWM) wm.actionWeights

/-- The controller after lines 250-254 of `initializeEpisode`: the state is
stored and every working-memory slot is set to `"I"`. -/
def cleared {α : Type} (wm : WorkingMemory α) (state : String) : WorkingMemory α :=
  { wm with
    state := state
    workingMemoryChunks := List.replicate wm.workingMemoryChunks.length "I" }

/-- The controller after line 360 of `step`: the state is stored. -/
def withState {α : Type} (wm : WorkingMemory α) (state : String) : WorkingMemory α :=
  { wm with state := state }

/-- The draws suit a random selection over `slots` slots from a pool of
`remaining` candidates: as long as the pool is not empty there is a next
draw, it lies in `[-1, remaining - 1]`, and after a positive draw the rest
suits the remaining slots and the pool without the drawn candidate (after a
draw `<= 0` the pool is emptied and no draw is made any more). -/
def validDraws : Nat → Nat → List Int → Bool
  | 0, _, _ => true
  | _ + 1, 0, _ => true
  | _ + 1, _ + 1, [] => false
  | slots + 1, remaining + 1, d :: draws =>
    decide (-1 ≤ d) && decide (d ≤ remaining) &&
      (if 0 < d then validDraws slots remaining draws else true)

/-- The shape of a controller with `N` working-memory slots and vector size
`n`: exactly `N` slots, and both weight vectors and both eligibility traces
of exactly `n` entries. -/
structure Shape (N n : Nat) (wm : WorkingMemory α) : Prop where
  slots : wm.workingMemoryChunks.length = N
  size : wm.vectorSize = n
  weights_len : wm.weights.length = n
  actionWeights_len : wm.actionWeights.length = n
  trace_len : wm.eligibilityTrace.length = n
  actionTrace_len : wm.actionEligibilityTrace.length = n

/-- The convolved product of the vectors of the contents `c :: rest`, as the
first loop of `stateAndWorkingMemoryRepresentation` and of
`findValueOfContents` builds it. -/
def contentsProduct (wm : WorkingMemory α) (c : String) (rest : List String) : HRR α :=
  rest.foldl (fun acc name => wm.hrrengine.convolveHRRs acc (wm.hrrengine.query name))
    (wm.hrrengine.query c)

end Statements

/-! ## A concrete controller

A small instance over `ℚ` (two-entry vectors, circular convolution, dot
product as value function) on which the definitions can be evaluated. -/

section Demo

/-- Circular convolution of two vectors of the same length. -/
def circularConvolution (a b : List ℚ) : List ℚ :=
  (List.range a.length).map fun k =>
    ((List.range a.length).map fun j =>
      a.getD j 0 * b.getD ((k + a.length - j) % a.length) 0).sum

/-- Inner product of two vectors. -/
def dotProduct (a b : List ℚ) : ℚ :=
  (List.zipWith (fun x y => x * y) a b).sum

/-- Splits a string at a delimiter, token by token as `getline` does. -/
def explodeChars (delimiter : Char) : List Char → List Char → List String
  | [], [] => []
  | [], token => [String.mk token.reverse]
  | c :: cs, token =>
    if c = delimiter then String.mk token.reverse :: explodeChars delimiter cs []
    else explodeChars delimiter cs (c :: token)

/-- Vectors of the concrete engine: `"I"` is the identity of circular
convolution. -/
def demoQuery (name : String) : HRR ℚ :=
  if name = "I" then [1, 0]
  else if name = "a" then [0, 1]
  else if name = "b" then [2, 1]
  else if name = "c" then [1, -1]
  else [1, 1]

/-- A concrete engine for two-entry vectors. -/
def demoEngine : HRREngine ℚ where
  query := demoQuery
  convolveHRRs := circularConvolution
  dot := dotProduct
  unpackSimple := fun name => [name]
  explode := fun str delimiter => explodeChars delimiter str.toList []

/-- A concrete critic: greedy (`epsilon = 0`), value function the inner
product with the weights, TD errors as section 6 of the specification
documents them. -/
def demoCritic : CriticNetwork ℚ where
  alpha := 1
  discount := 1
  lambda := 1 / 2
  epsilon := 0
  V := dotProduct
  TDError := fun reward value previousValue => reward + 1 * value - previousValue
  TDErrorGoal := fun reward previousValue => reward - previousValue

/-- A rational stand-in for `sqrt(2)`. -/
def demoSqrt2 : ℚ := 577 / 408

/-- A concrete controller with two slots in the middle of an episode. -/
def demo : WorkingMemory ℚ where
  critic := demoCritic
  hrrengine := demoEngine
  workingMemoryChunks := ["I", "I"]
  vectorSize := 2
  state := "s"
  currentChunkValue := 0
  previousReward := 1
  previousValue := 2
  previousQValue := 3
  previousStateWorkingMemory := [1, 1]
  previousStateWorkingMemoryAction := [2, 0]
  eligibilityTrace := [1, 0]
  actionEligibilityTrace := [0, 1]
  weights := [1, 2]
  actionWeights := [3, 1]
  permutation := [1, 0]

/-- A controller as the constructor leaves it (two slots, two-entry vectors):
working-memory slots default-constructed, traces zero, small weights, no
previous vectors yet. -/
def demoFresh : WorkingMemory ℚ where
  critic := demoCritic
  hrrengine := demoEngine
  workingMemoryChunks := ["", ""]
  vectorSize := 2
  state := ""
  currentChunkValue := 0
  previousReward := 0
  previousValue := 0
  previousQValue := 0
  previousStateWorkingMemory := []
  previousStateWorkingMemoryAction := []
  eligibilityTrace := [0, 0]
  actionEligibilityTrace := [0, 0]
  weights := [1 / 100, -1 / 100]
  actionWeights := [1 / 200, 1 / 100]
  permutation := [1, 0]

/-- The controller `demo` after learning has driven its action weights far
below zero. -/
def demoLearned : WorkingMemory ℚ :=
  { demo with actionWeights := [-1000, 0] }

/-- The values the concrete constructor call draws for the weights. -/
def demoDraw (i : Nat) : ℚ :=
  if i = 0 then 1 / 100 else if i = 1 then -1 / 100 else if i = 2 then 1 / 200 else 1 / 100

/-- A constructor call: two slots, two-entry vectors, the shuffle swapping the
two indices. -/
def demoConstructed : WorkingMemory ℚ :=
  WorkingMemory.construct demoCritic demoEngine 1 1 (1 / 2) 0 2 2 demoDraw List.reverse 0

/-- The constructor call of `demoConstructed` with `epsilon = 1`, so that the
selection is always random. -/
def demoExploring : WorkingMemory ℚ :=
  WorkingMemory.construct demoCritic demoEngine 1 1 (1 / 2) 1 2 2 demoDraw List.reverse 0

end Demo

/-! ## Auxiliary facts about the loops -/

section Lemmas

variable {α : Type} [LinearOrderedField α]

theorem updateEach_eq_zipWith {β : Type} (f : β → β → β) :
    ∀ (n : Nat) (a b : List β), a.length = n → n ≤ b.length →
      updateEach f n a b = some (List.zipWith f a b)
  | 0, a, b, ha, _ => by
    have : a = [] := List.length_eq_zero.mp ha
    subst this
    simp [updateEach]
  | n + 1, [], _, ha, _ => by simp at ha
  | n + 1, _ :: _, [], _, hb => by simp at hb
  | n + 1, u :: a, v :: b, ha, hb => by
    have ha1 : a.length = n := by simpa using ha
    have hb1 : n ≤ b.length := by simpa using hb
    simp [updateEach, updateEach_eq_zipWith f n a b ha1 hb1]

theorem allSome_map_eq_some {β γ : Type} (g : β → Option γ) :
    ∀ (l : List β), (∀ x ∈ l, (g x).isSome) →
      ∃ r, allSome (l.map g) = some r ∧ r.length = l.length
  | [], _ => ⟨[], rfl, rfl⟩
  | x :: l, h => by
    obtain ⟨r, hr, hlen⟩ := allSome_map_eq_some g l (fun y hy => h y (List.mem_cons_of_mem _ hy))
    have hx := h x (List.mem_cons_self _ _)
    obtain ⟨y, hy⟩ := Option.isSome_iff_exists.mp hx
    refine ⟨y :: r, ?_, by simp [hlen]⟩
    simp [allSome, hy, hr]

theorem permute_eq_some (wm : WorkingMemory α) (hl : wm.permutation.length = wm.vectorSize)
    (hp : ∀ p ∈ wm.permutation, p < wm.vectorSize) (original : HRR α)
    (ho : original.length = wm.vectorSize) :
    ∃ r, wm.permute original = some r ∧ r.length = wm.vectorSize := by
  obtain ⟨r, hr, hlen⟩ := allSome_map_eq_some
    (fun i => if i = 0 then some (0 : α)
      else (wm.permutation[i]?).bind (fun p => original[p]?))
    (List.range wm.vectorSize) (by
      intro i hi
      have hi : i < wm.vectorSize := List.mem_range.mp hi
      by_cases h0 : i = 0
      · simp [h0]
      · have hi2 : i < wm.permutation.length := by omega
        have hmem : wm.permutation[i] ∈ wm.permutation := List.getElem_mem _
        have hlt : wm.permutation[i] < original.length := by
          rw [ho]; exact hp _ hmem
        simp [h0, List.getElem?_eq_getElem hi2, List.getElem?_eq_getElem hlt])
  exact ⟨r, hr, by simpa using hlen⟩

theorem foldl_convolve_length (wm : WorkingMemory α)
    (hq : ∀ s, (wm.hrrengine.query s).length = wm.vectorSize)
    (hc : ∀ a b : HRR α, a.length = wm.vectorSize → b.length = wm.vectorSize →
      (wm.hrrengine.convolveHRRs a b).length = wm.vectorSize) :
    ∀ (rest : List String) (acc : HRR α), acc.length = wm.vectorSize →
      (rest.foldl (fun acc name => wm.hrrengine.convolveHRRs acc (wm.hrrengine.query name))
        acc).length = wm.vectorSize
  | [], _, h => h
  | x :: rest, acc, h => by
    simpa using foldl_convolve_length wm hq hc rest _ (hc acc _ h (hq x))

theorem stateRepresentation_eq_some (wm : WorkingMemory α)
    (hs : wm.hrrengine.explode wm.state '+' ≠ []) :
    ∃ st, wm.stateRepresentation = some st := by
  unfold WorkingMemory.stateRepresentation
  cases h : wm.hrrengine.explode wm.state '+' with
  | nil => exact absurd h hs
  | cons c rest => exact ⟨_, rfl⟩

theorem findValueOfContents_eq_some (wm : WorkingMemory α) (hwf : WellFormed wm)
    (hs : wm.hrrengine.explode wm.state '+' ≠ []) (contents : List String)
    (hc : contents ≠ []) : ∃ v, wm.findValueOfContents contents = some v := by
  obtain ⟨st, hst⟩ := stateRepresentation_eq_some wm hs
  cases contents with
  | nil => exact absurd rfl hc
  | cons c rest =>
    have hlen := foldl_convolve_length wm hwf.query_len hwf.conv_len rest _ (hwf.query_len c)
    obtain ⟨r, hr, -⟩ := permute_eq_some wm hwf.perm_len hwf.perm_lt _ hlen
    simp only [WorkingMemory.findValueOfContents, hst]
    split_ifs
    · simp [hr]
    · simp

theorem stateAndWorkingMemoryRepresentation_eq_some (wm : WorkingMemory α)
    (hwf : WellFormed wm) (hs : wm.hrrengine.explode wm.state '+' ≠ []) :
    ∃ v, wm.stateAndWorkingMemoryRepresentation = some v := by
  obtain ⟨st, hst⟩ := stateRepresentation_eq_some wm hs
  have hslots := hwf.slots
  unfold WorkingMemory.stateAndWorkingMemoryRepresentation
  cases hch : wm.workingMemoryChunks with
  | nil => exact absurd hch hslots
  | cons c rest =>
    have hlen := foldl_convolve_length wm hwf.query_len hwf.conv_len rest _ (hwf.query_len c)
    obtain ⟨r, hr, -⟩ := permute_eq_some wm hwf.perm_len hwf.perm_lt _ hlen
    simp only [hst]
    split_ifs
    · simp [hr]
    · simp

theorem SameExceptMemory.refl (wm : WorkingMemory α) : SameExceptMemory wm wm :=
  ⟨_, _, rfl, rfl⟩

theorem fillCombination_length :
    ∀ (v : List Bool) (cand : List String) (fill : Nat) (comb r : List String),
      WorkingMemory.fillCombination v cand fill comb = some r → r.length = comb.length
  | [], _, _, _, _, h => by simp [WorkingMemory.fillCombination] at h; simp [← h]
  | _ :: _, [], _, _, _, h => by simp [WorkingMemory.fillCombination] at h; simp [← h]
  | b :: v, c :: cand, fill, comb, r, h => by
    cases b with
    | true =>
      by_cases hf : fill < comb.length
      · simp only [WorkingMemory.fillCombination, hf, if_true] at h
        simpa using fillCombination_length v cand _ _ r h
      · simp [WorkingMemory.fillCombination, hf] at h
    | false =>
      simp only [WorkingMemory.fillCombination] at h
      exact fillCombination_length v cand _ _ r h

theorem combinationLoop_frame (wm : WorkingMemory α) (cand : List String) :
    ∀ (fuel : Nat) (v : List Bool) (st st' : WorkingMemory α × List String),
      WorkingMemory.combinationLoop cand fuel v st = some st' →
      SameExceptMemory wm st.1 → st.2.length = wm.workingMemoryChunks.length →
      SameExceptMemory wm st'.1 ∧ st'.2.length = wm.workingMemoryChunks.length
  | 0, _, _, _, h, _, _ => by simp [WorkingMemory.combinationLoop] at h
  | fuel + 1, v, (w, comb), st', h, hf, hl => by
    simp only [WorkingMemory.combinationLoop, Option.bind_eq_some] at h
    obtain ⟨comb1, hfill, val, hval, h⟩ := h
    have hl1 : comb1.length = wm.workingMemoryChunks.length := by
      rw [fillCombination_length _ _ _ _ _ hfill]; exact hl
    have hf1 : SameExceptMemory wm
        (if val > w.currentChunkValue then
          { w with workingMemoryChunks := comb1, currentChunkValue := val } else w) := by
      obtain ⟨c0, v0, rfl, hc0⟩ := hf
      split_ifs
      · exact ⟨comb1, val, rfl, hl1⟩
      · exact ⟨c0, v0, rfl, hc0⟩
    cases hpp : prev_permutation v with
    | mk b v1 =>
      cases b with
      | true =>
        simp only [hpp] at h
        exact combinationLoop_frame wm cand fuel v1 _ st' h hf1 hl1
      | false =>
        simp only [hpp, Option.some.injEq] at h
        subst h
        exact ⟨hf1, hl1⟩

theorem sizeLoop_frame (wm : WorkingMemory α) (cand : List String) :
    ∀ (count x : Nat) (st st' : WorkingMemory α × List String),
      WorkingMemory.sizeLoop cand count x st = some st' →
      SameExceptMemory wm st.1 → st.2.length = wm.workingMemoryChunks.length →
      SameExceptMemory wm st'.1 ∧ st'.2.length = wm.workingMemoryChunks.length
  | 0, _, st, st', h, hf, hl => by
    simp only [WorkingMemory.sizeLoop, Option.some.injEq] at h
    subst h
    exact ⟨hf, hl⟩
  | count + 1, x, st, st', h, hf, hl => by
    simp only [WorkingMemory.sizeLoop, Option.bind_eq_some] at h
    obtain ⟨st1, h1, h2⟩ := h
    obtain ⟨hf1, hl1⟩ := combinationLoop_frame wm cand _ _ st st1 h1 hf hl
    exact sizeLoop_frame wm cand count (x + 1) st1 st' h2 hf1 hl1

theorem findMostValuableChunks_frame (wm wm1 : WorkingMemory α) (cand : List String)
    (h : wm.findMostValuableChunks cand = some wm1) : SameExceptMemory wm wm1 := by
  simp only [WorkingMemory.findMostValuableChunks, Option.bind_eq_some,
    Option.map_eq_some'] at h
  obtain ⟨val, -, st, hst, rfl⟩ := h
  exact (sizeLoop_frame wm cand _ _ _ st hst ⟨_, _, rfl, by simp⟩ (by simp)).1

theorem sortStrings_length (l : List String) : (sortStrings l).length = l.length := by
  simp [sortStrings]

theorem chooseRandomLoop_length :
    ∀ (count i : Nat) (chunks cands : List String) (draws : List Int)
      (r : List String × List Int),
      WorkingMemory.chooseRandomLoop count i chunks cands draws = some r →
      r.1.length = chunks.length
  | 0, _, _, _, _, r, h => by
    simp only [WorkingMemory.chooseRandomLoop, Option.some.injEq] at h
    subst h; rfl
  | count + 1, i, chunks, cands, draws, r, h => by
    unfold WorkingMemory.chooseRandomLoop at h
    split_ifs at h with h0
    · simpa using chooseRandomLoop_length count _ _ _ _ r h
    · cases draws with
      | nil => simp at h
      | cons chunk draws =>
        simp only at h
        split_ifs at h with hpos
        · cases hc : cands[chunk.toNat]? with
          | none => simp [hc] at h
          | some c =>
            simp only [hc] at h
            have := chooseRandomLoop_length count _ _ _ _ r h
            rw [this]
            simp only [List.length_append, sortStrings_length, List.length_take,
              List.length_drop, List.length_set]
            omega
        · simpa using chooseRandomLoop_length count _ _ _ _ r h

theorem chooseRandom_frame (wm : WorkingMemory α) (cand : List String) (draws : List Int)
    (r : WorkingMemory α × List Int)
    (h : wm.chooseRandomWorkingMemoryContents cand draws = some r) :
    SameExceptMemory wm r.1 := by
  simp only [WorkingMemory.chooseRandomWorkingMemoryContents, Option.map_eq_some'] at h
  obtain ⟨q, hq, rfl⟩ := h
  exact ⟨q.1, wm.currentChunkValue, rfl, chooseRandomLoop_length _ _ _ _ _ q hq⟩

end Lemmas

/-! ## Auxiliary facts about the two halves of `step` and about `absorbReward` -/

section UpdateLemmas

open WorkingMemory

variable {α : Type} [LinearOrderedField α]

theorem updateEach_some_le {β : Type} (f : β → β → β) :
    ∀ (n : Nat) (a b r : List β), updateEach f n a b = some r → n ≤ b.length
  | 0, _, _, _, _ => Nat.zero_le _
  | n + 1, [], _, _, h => by simp [updateEach] at h
  | n + 1, _ :: _, [], _, h => by simp [updateEach] at h
  | n + 1, u :: a, v :: b, r, h => by
    simp only [updateEach, Option.map_eq_some'] at h
    obtain ⟨r1, h1, -⟩ := h
    have := updateEach_some_le f n a b r1 h1
    simp only [List.length_cons]
    omega

theorem updateTraces_eq (sqrt2 : α) (wm : WorkingMemory α) (hs : Sized wm)
    (hi : EpisodeInitialised wm) :
    updateTraces sqrt2 wm = some { wm with
      eligibilityTrace := decayedTrace wm.critic.lambda sqrt2 wm.eligibilityTrace
        wm.previousStateWorkingMemory
      actionEligibilityTrace := decayedTrace wm.critic.lambda sqrt2 wm.actionEligibilityTrace
        wm.previousStateWorkingMemoryAction } := by
  have hfun : (fun e p : α => e * wm.critic.lambda + p / sqrt2) =
      (fun e p => wm.critic.lambda * e + p / sqrt2) := by
    funext e p; rw [mul_comm]
  simp only [updateTraces, updateEach_eq_zipWith _ _ _ _ hs.trace_len hi.previous_len,
    updateEach_eq_zipWith _ _ _ _ hs.actionTrace_len hi.previousAction_len, decayedTrace,
    Option.some_bind, Option.map_some', hfun]

theorem updateTraces_initialised (sqrt2 : α) (wm wm0 : WorkingMemory α)
    (h : updateTraces sqrt2 wm = some wm0) : EpisodeInitialised wm := by
  simp only [updateTraces, Option.bind_eq_some, Option.map_eq_some'] at h
  obtain ⟨t, ht, t2, ht2, -⟩ := h
  exact ⟨updateEach_some_le _ _ _ _ _ ht, updateEach_some_le _ _ _ _ _ ht2⟩

theorem decayedTrace_length (lambda sqrt2 : α) (trace previous : List α)
    (h : trace.length ≤ previous.length) :
    (decayedTrace lambda sqrt2 trace previous).length = trace.length := by
  simp [decayedTrace, h]

theorem absorbReward_eq (sqrt2 : α) (wm : WorkingMemory α) (reward : α) (hs : Sized wm)
    (hi : EpisodeInitialised wm) :
    absorbReward sqrt2 wm reward = some { wm with
      eligibilityTrace := decayedTrace wm.critic.lambda sqrt2 wm.eligibilityTrace
        wm.previousStateWorkingMemory
      actionEligibilityTrace := decayedTrace wm.critic.lambda sqrt2 wm.actionEligibilityTrace
        wm.previousStateWorkingMemoryAction
      weights := tdUpdate wm.critic.alpha (wm.critic.TDErrorGoal reward wm.previousValue)
        wm.weights
        (decayedTrace wm.critic.lambda sqrt2 wm.eligibilityTrace wm.previousStateWorkingMemory)
      actionWeights := tdUpdate wm.critic.alpha
        (wm.critic.TDErrorGoal reward wm.previousQValue) wm.actionWeights
        (decayedTrace wm.critic.lambda sqrt2 wm.actionEligibilityTrace
          wm.previousStateWorkingMemoryAction) } := by
  have h1 : (decayedTrace wm.critic.lambda sqrt2 wm.eligibilityTrace
      wm.previousStateWorkingMemory).length = wm.vectorSize := by
    rw [decayedTrace_length _ _ _ _ (by rw [hs.trace_len]; exact hi.previous_len), hs.trace_len]
  have h2 : (decayedTrace wm.critic.lambda sqrt2 wm.actionEligibilityTrace
      wm.previousStateWorkingMemoryAction).length = wm.vectorSize := by
    rw [decayedTrace_length _ _ _ _ (by rw [hs.actionTrace_len]; exact hi.previousAction_len),
      hs.actionTrace_len]
  simp only [absorbReward, updateTraces_eq sqrt2 wm hs hi, Option.some_bind,
    updateEach_eq_zipWith _ _ _ _ hs.weights_len (le_of_eq h1.symm),
    updateEach_eq_zipWith _ _ _ _ hs.actionWeights_len (le_of_eq h2.symm),
    Option.map_some', tdUpdate]


theorem WellFormed.of_same {wm wm1 : WorkingMemory α} (hwf : WellFormed wm)
    (h : SameExceptMemory wm wm1) : WellFormed wm1 := by
  obtain ⟨chunks, value, rfl, hlen⟩ := h
  refine ⟨?_, ⟨hwf.sized.weights_len, hwf.sized.actionWeights_len, hwf.sized.trace_len,
    hwf.sized.actionTrace_len⟩, hwf.perm_len, hwf.perm_lt, hwf.query_len, hwf.conv_len⟩
  intro h0
  have h1 : chunks = [] := h0
  rw [h1] at hlen
  exact hwf.slots (List.length_eq_zero.mp hlen.symm)

theorem findMostValuableAction_eq_some (wm : WorkingMemory α) (hwf : WellFormed wm)
    (hs : wm.hrrengine.explode wm.state '+' ≠ []) (actions : List String) :
    ∃ rep, wm.stateAndWorkingMemoryRepresentation = some rep ∧
      wm.findMostValuableAction actions =
        some (((actions.foldl (wm.actionStep rep) ("", [], -999)).1),
          ((actions.foldl (wm.actionStep rep) ("", [], -999)).2.1)) := by
  obtain ⟨rep, hrep⟩ := stateAndWorkingMemoryRepresentation_eq_some wm hwf hs
  exact ⟨rep, hrep, by simp [findMostValuableAction, hrep]⟩

theorem stepFinish_eq (wm : WorkingMemory α) (hwf : WellFormed wm)
    (hs : wm.hrrengine.explode wm.state '+' ≠ []) (actions : List String) (reward : α) :
    ∃ rep act, wm.stateAndWorkingMemoryRepresentation = some rep ∧
      wm.findMostValuableAction actions = some act ∧
      wm.stepFinish actions reward = some (act.1, { wm with
        weights := tdUpdate wm.critic.alpha
          (wm.critic.TDError wm.previousReward (wm.critic.V rep wm.weights) wm.previousValue)
          wm.weights wm.eligibilityTrace
        actionWeights := tdUpdate wm.critic.alpha
          (wm.critic.TDError wm.previousReward (wm.critic.V act.2 wm.actionWeights)
            wm.previousQValue) wm.actionWeights wm.actionEligibilityTrace
        previousStateWorkingMemory := rep
        previousValue := wm.critic.V rep wm.weights
        previousReward := reward
        previousStateWorkingMemoryAction := act.2
        previousQValue := wm.critic.V act.2 wm.actionWeights }) := by
  obtain ⟨rep, hrep, hact⟩ := findMostValuableAction_eq_some wm hwf hs actions
  refine ⟨rep, _, hrep, hact, ?_⟩
  simp only [stepFinish, hrep, hact, Option.some_bind,
    updateEach_eq_zipWith _ _ _ _ hwf.sized.weights_len (le_of_eq hwf.sized.trace_len.symm),
    updateEach_eq_zipWith _ _ _ _ hwf.sized.actionWeights_len
      (le_of_eq hwf.sized.actionTrace_len.symm),
    Option.map_some', tdUpdate]

theorem stepSelect_shape (sqrt2 : α) (wm wm1 : WorkingMemory α) (state : String) (u : α)
    (draws : List Int) (hs : Sized wm) (h : stepSelect sqrt2 wm state u draws = some wm1) :
    EpisodeInitialised wm ∧ SameExceptMemory { wm with
      state := state
      eligibilityTrace := decayedTrace wm.critic.lambda sqrt2 wm.eligibilityTrace
        wm.previousStateWorkingMemory
      actionEligibilityTrace := decayedTrace wm.critic.lambda sqrt2 wm.actionEligibilityTrace
        wm.previousStateWorkingMemoryAction } wm1 := by
  cases htr : updateTraces sqrt2 wm with
  | none => simp [stepSelect, htr] at h
  | some wm0 =>
    have hi := updateTraces_initialised sqrt2 wm wm0 htr
    refine ⟨hi, ?_⟩
    rw [updateTraces_eq sqrt2 wm hs hi] at htr
    simp only [stepSelect, updateTraces_eq sqrt2 wm hs hi, Option.some_bind] at h
    split_ifs at h
    · simp only [Option.map_eq_some'] at h
      obtain ⟨r, hr, rfl⟩ := h
      exact chooseRandom_frame _ _ _ r hr
    · exact findMostValuableChunks_frame _ _ _ h


theorem step_eq_stepFinish (sqrt2 : α) (wm wm1 : WorkingMemory α) (state : String)
    (possibleActions : List String) (reward u : α) (draws : List Int)
    (h : stepSelect sqrt2 wm state u draws = some wm1) :
    step sqrt2 wm state possibleActions reward u draws =
      wm1.stepFinish possibleActions reward := by
  simp only [step, h, Option.some_bind]

end UpdateLemmas


/-! ## Auxiliary facts about `prev_permutation` and the exhaustive search -/

section SearchLemmas

open WorkingMemory

variable {α : Type} [LinearOrderedField α]

theorem prevPermLoop_false (pre suf : List Bool) :
    prevPermLoop (false :: pre) suf = prevPermLoop pre (false :: suf) := by
  cases suf with
  | nil => simp [prevPermLoop]
  | cons s suf => simp [prevPermLoop]

theorem prevPermLoop_true_nil (pre : List Bool) :
    prevPermLoop (true :: pre) [] = prevPermLoop pre [true] := by
  simp [prevPermLoop]

theorem prevPermLoop_true_true (pre suf : List Bool) :
    prevPermLoop (true :: pre) (true :: suf) = prevPermLoop pre (true :: true :: suf) := by
  simp [prevPermLoop]

theorem replicate_append_cons {β : Type} (n : Nat) (x : β) (l : List β) :
    List.replicate n x ++ x :: l = x :: (List.replicate n x ++ l) := by
  induction n with
  | zero => rfl
  | succ n ih => simp [List.replicate_succ, ih]

theorem prevPermLoop_trues (pre : List Bool) :
    ∀ (b c : Nat), prevPermLoop (List.replicate b true ++ pre) (List.replicate c true) =
      prevPermLoop pre (List.replicate (b + c) true)
  | 0, c => by simp
  | b + 1, 0 => by
    have h := prevPermLoop_trues pre b 1
    simp only [List.replicate_succ, List.cons_append, prevPermLoop_true_nil, List.replicate_zero]
    simpa [List.replicate_succ, Nat.add_comm] using h
  | b + 1, c + 1 => by
    have h := prevPermLoop_trues pre b (c + 2)
    simp only [List.replicate_succ, List.cons_append, prevPermLoop_true_true]
    have e : b + 1 + (c + 1) = b + (c + 2) := by omega
    rw [e]
    simpa [List.replicate_succ] using h

theorem prevPermLoop_falses (pre suf : List Bool) :
    ∀ (a : Nat), prevPermLoop (List.replicate a false ++ pre) suf =
      prevPermLoop pre (List.replicate a false ++ suf)
  | 0 => by simp
  | a + 1 => by
    rw [List.replicate_succ, List.cons_append, prevPermLoop_false, prevPermLoop_falses pre _ a,
      replicate_append_cons]
    rfl

theorem swapWithLastSmaller_trues (rest : List Bool) :
    ∀ (b : Nat), swapWithLastSmaller true (List.replicate b true ++ false :: rest) =
      (false, List.replicate (b + 1) true ++ rest)
  | 0 => by simp [swapWithLastSmaller]
  | b + 1 => by
    rw [List.replicate_succ, List.cons_append, swapWithLastSmaller,
      swapWithLastSmaller_trues rest b]
    simp [List.replicate_succ]

theorem prevPermLoop_pivot (pre : List Bool) (a b : Nat) :
    prevPermLoop (true :: pre) (List.replicate (a + 1) false ++ List.replicate b true) =
      (true, pre.reverse ++ false :: (List.replicate (b + 1) true ++ List.replicate a false)) := by
  have hrev : (false :: (List.replicate a false ++ List.replicate b true)).reverse =
      List.replicate b true ++ false :: List.replicate a false := by
    simp [List.reverse_cons, replicate_append_cons]
  rw [List.replicate_succ, List.cons_append, prevPermLoop]
  simp only [Bool.false_lt_true, if_true, hrev, swapWithLastSmaller_trues]

theorem prev_permutation_ascending (a b : Nat) :
    prev_permutation (List.replicate a false ++ List.replicate b true) =
      (false, List.replicate b true ++ List.replicate a false) := by
  have h := prevPermLoop_trues (List.replicate a false ++ []) b 0
  rw [prev_permutation, List.reverse_append, List.reverse_replicate, List.reverse_replicate]
  simp only [List.replicate_zero, List.append_nil, Nat.add_zero] at h
  rw [h]
  have h2 := prevPermLoop_falses [] (List.replicate b true) a
  simp only [List.append_nil] at h2
  rw [h2, prevPermLoop]
  simp [List.reverse_append]

theorem prev_permutation_pivot (p : List Bool) (a b : Nat) :
    prev_permutation (p ++ true :: (List.replicate (a + 1) false ++ List.replicate b true)) =
      (true, p ++ false :: (List.replicate (b + 1) true ++ List.replicate a false)) := by
  rw [prev_permutation]
  have hrev : (p ++ true :: (List.replicate (a + 1) false ++ List.replicate b true)).reverse =
      List.replicate b true ++ (List.replicate (a + 1) false ++ true :: p.reverse) := by
    simp [List.reverse_append, List.reverse_cons]
  rw [hrev]
  have h := prevPermLoop_trues (List.replicate (a + 1) false ++ true :: p.reverse) b 0
  simp only [List.replicate_zero, Nat.add_zero] at h
  rw [h, prevPermLoop_falses, prevPermLoop_pivot, List.reverse_reverse]

theorem flagVectors_eq_nil : ∀ (n k : Nat), n < k → flagVectors n k = []
  | 0, 0, h => by omega
  | 0, _ + 1, _ => rfl
  | n + 1, 0, h => by omega
  | n + 1, k + 1, h => by
    rw [flagVectors, flagVectors_eq_nil n k (by omega), flagVectors_eq_nil n (k + 1) (by omega)]
    rfl

theorem flagVectors_head : ∀ (n k : Nat), k ≤ n →
    (flagVectors n k).head? = some (List.replicate k true ++ List.replicate (n - k) false)
  | 0, 0, _ => rfl
  | 0, _ + 1, h => by omega
  | n + 1, 0, _ => by
    have ih := flagVectors_head n 0 (Nat.zero_le _)
    rw [flagVectors, List.head?_map, ih]
    simp [List.replicate_succ]
  | n + 1, k + 1, h => by
    have ih := flagVectors_head n k (by omega)
    have hne : flagVectors n k ≠ [] := by
      intro h0; rw [h0] at ih; simp at ih
    rw [flagVectors, List.head?_append_of_ne_nil _ (by simpa using hne), List.head?_map, ih]
    simp [List.replicate_succ]

theorem flagVectors_getLast : ∀ (n k : Nat), k ≤ n →
    (flagVectors n k).getLast? = some (List.replicate (n - k) false ++ List.replicate k true)
  | 0, 0, _ => rfl
  | 0, _ + 1, h => by omega
  | n + 1, 0, _ => by
    have ih := flagVectors_getLast n 0 (Nat.zero_le _)
    rw [flagVectors, List.getLast?_map, ih]
    simp [List.replicate_succ]
  | n + 1, k + 1, h => by
    by_cases hk : k + 1 ≤ n
    · have ih := flagVectors_getLast n (k + 1) hk
      have hne : flagVectors n (k + 1) ≠ [] := by
        intro h0; rw [h0] at ih; simp at ih
      rw [flagVectors, List.getLast?_append_of_ne_nil _ (by simpa using hne),
        List.getLast?_map, ih]
      have e : n + 1 - (k + 1) = (n - (k + 1)) + 1 := by omega
      simp [e, List.replicate_succ]
    · have hkn : k = n := by omega
      subst hkn
      have ih := flagVectors_getLast k k (Nat.le_refl _)
      rw [flagVectors, flagVectors_eq_nil k (k + 1) (by omega), List.map_nil, List.append_nil,
        List.getLast?_map, ih]
      simp [List.replicate_succ]

theorem flagVectors_chain : ∀ (n k : Nat) (p : List Bool),
    List.Chain' (fun u w => prev_permutation (p ++ u) = (true, p ++ w)) (flagVectors n k)
  | 0, 0, _ => by simp [flagVectors]
  | 0, _ + 1, _ => by simp [flagVectors]
  | n + 1, 0, p => by
    rw [flagVectors, List.chain'_map]
    have ih := flagVectors_chain n 0 (p ++ [false])
    simpa using ih
  | n + 1, k + 1, p => by
    rw [flagVectors]
    refine List.Chain'.append ?_ ?_ ?_
    · rw [List.chain'_map]
      simpa using flagVectors_chain n k (p ++ [true])
    · rw [List.chain'_map]
      simpa using flagVectors_chain n (k + 1) (p ++ [false])
    · intro x hx y hy
      by_cases hk : k + 1 ≤ n
      · rw [List.getLast?_map, flagVectors_getLast n k (by omega)] at hx
        rw [List.head?_map, flagVectors_head n (k + 1) hk] at hy
        simp only [Option.map_some', Option.mem_def, Option.some.injEq] at hx hy
        subst hx; subst hy
        have e : n - k = (n - (k + 1)) + 1 := by omega
        rw [e]
        exact prev_permutation_pivot p (n - (k + 1)) k
      · rw [flagVectors_eq_nil n (k + 1) (by omega)] at hy
        simp at hy

theorem fillCombination_eq :
    ∀ (v : List Bool) (cand : List String) (fill : Nat) (comb : List String),
      fill + (chosen v cand).length ≤ comb.length →
      fillCombination v cand fill comb =
        some (comb.take fill ++ chosen v cand ++ comb.drop (fill + (chosen v cand).length))
  | [], _, fill, comb, _ => by simp [fillCombination, chosen]
  | _ :: _, [], fill, comb, _ => by simp [fillCombination, chosen]
  | true :: v, c :: cand, fill, comb, h => by
    simp only [chosen, if_true, List.length_cons] at h ⊢
    have hf : fill < comb.length := by omega
    have ih := fillCombination_eq v cand (fill + 1) (comb.set fill c)
      (by rw [List.length_set]; omega)
    simp only [fillCombination, if_true, hf, ih]
    congr 1
    rw [List.set_eq_take_append_cons_drop, if_pos hf]
    have e1 : (List.take fill comb ++ c :: List.drop (fill + 1) comb).take (fill + 1) =
        List.take fill comb ++ [c] := by
      rw [List.take_append_eq_append_take]
      simp [List.length_take, Nat.min_eq_left (Nat.le_of_lt hf)]
    have e2 : (List.take fill comb ++ c :: List.drop (fill + 1) comb).drop
        (fill + 1 + (chosen v cand).length) =
        List.drop (fill + ((chosen v cand).length + 1)) comb := by
      rw [List.drop_append_eq_append_drop]
      simp only [List.length_take, Nat.min_eq_left (Nat.le_of_lt hf)]
      have e3 : fill + 1 + (chosen v cand).length - fill = (chosen v cand).length + 1 := by omega
      rw [List.drop_eq_nil_of_le (by simp; omega), e3, List.nil_append, List.drop_succ_cons,
        List.drop_drop]
      congr 1
      omega
    rw [e1, e2]
    simp
  | false :: v, c :: cand, fill, comb, h => by
    simp only [chosen] at h ⊢
    simp only [fillCombination, Bool.false_eq_true, if_false]
    exact fillCombination_eq v cand fill comb h

theorem fillCombination_padded (v : List Bool) (cand : List String) (comb : List String)
    (k N : Nat) (hk : (chosen v cand).length = k) (hkN : k ≤ N) (hl : comb.length = N)
    (hd : comb.drop k = List.replicate (N - k) "I") :
    fillCombination v cand 0 comb = some (padded N (chosen v cand)) := by
  rw [fillCombination_eq v cand 0 comb (by omega)]
  simp [padded, hk, hd]

theorem findValueOfContents_withMemory (wm : WorkingMemory α) (best : List String × α)
    (c : List String) : (withMemory wm best).findValueOfContents c = wm.findValueOfContents c :=
  rfl

theorem findValueOfContents_eq_score (wm : WorkingMemory α) (hwf : WellFormed wm)
    (hs : wm.hrrengine.explode wm.state '+' ≠ []) (c : List String) (hc : c ≠ []) :
    wm.findValueOfContents c = some (score wm c) := by
  obtain ⟨v, hv⟩ := findValueOfContents_eq_some wm hwf hs c hc
  simp [score, hv]

theorem flagVectors_length_le : ∀ (n k : Nat), (flagVectors n k).length ≤ 2 ^ n
  | 0, 0 => by simp [flagVectors]
  | 0, _ + 1 => by simp [flagVectors]
  | n + 1, 0 => by
    have := flagVectors_length_le n 0
    simp only [flagVectors, List.length_map]
    rw [Nat.pow_succ]; omega
  | n + 1, k + 1 => by
    have h1 := flagVectors_length_le n k
    have h2 := flagVectors_length_le n (k + 1)
    simp only [flagVectors, List.length_append, List.length_map]
    rw [Nat.pow_succ]; omega

theorem map_chosen_flagVectors : ∀ (cand : List String) (k : Nat),
    (flagVectors cand.length k).map (fun v => chosen v cand) = combinations k cand
  | [], 0 => rfl
  | [], _ + 1 => rfl
  | c :: cand, 0 => by
    have ih := map_chosen_flagVectors cand 0
    simp only [List.length_cons, flagVectors, List.map_map, combinations] at ih ⊢
    rw [← ih]
    simp [Function.comp_def, chosen]
  | c :: cand, k + 1 => by
    have ih1 := map_chosen_flagVectors cand k
    have ih2 := map_chosen_flagVectors cand (k + 1)
    simp only [List.length_cons, flagVectors, List.map_append, List.map_map, combinations]
    rw [← ih1, ← ih2]
    simp [Function.comp_def, chosen]

theorem combinations_length : ∀ (k : Nat) (cand l : List String),
    l ∈ combinations k cand → l.length = k
  | 0, _, l, h => by
    simp only [combinations, List.mem_singleton] at h
    simp [h]
  | _ + 1, [], l, h => by simp [combinations] at h
  | k + 1, c :: cand, l, h => by
    simp only [combinations, List.mem_append, List.mem_map] at h
    rcases h with ⟨l1, h1, rfl⟩ | h
    · simp [combinations_length k cand l1 h1]
    · exact combinations_length (k + 1) cand l h

theorem padded_length (N : Nat) (l : List String) (h : l.length ≤ N) :
    (padded N l).length = N := by
  simp [padded]; omega

theorem padded_drop (N : Nat) (l : List String) :
    (padded N l).drop l.length = List.replicate (N - l.length) "I" := by
  simp [padded]

theorem padded_ne_nil (N : Nat) (l : List String) (h : l ≠ []) : padded N l ≠ [] := by
  simp [padded, h]

theorem combinationLoop_eq (wm : WorkingMemory α) (hwf : WellFormed wm)
    (hs : wm.hrrengine.explode wm.state '+' ≠ []) (cand : List String) (k N : Nat)
    (hk : 0 < k) (hkN : k ≤ N) :
    ∀ (L : List (List Bool)) (v : List Bool) (fuel : Nat) (best : List String × α)
      (comb : List String),
      List.Chain' (fun u w => prev_permutation u = (true, w)) (v :: L) →
      (∀ w, (v :: L).getLast? = some w → (prev_permutation w).1 = false) →
      L.length < fuel →
      (∀ w ∈ v :: L, (chosen w cand).length = k) →
      comb.length = N → comb.drop k = List.replicate (N - k) "I" →
      ∃ comb', combinationLoop cand fuel v (withMemory wm best, comb) =
          some (withMemory wm
            (((v :: L).map (fun w => padded N (chosen w cand))).foldl (pick (score wm)) best),
            comb') ∧
        comb'.length = N ∧ comb'.drop k = List.replicate (N - k) "I"
  | L, v, 0, _, _, _, _, hf, _, _, _ => by omega
  | L, v, fuel + 1, best, comb, hch, hlast, hf, hlen, hcl, hcd => by
    have hvk : (chosen v cand).length = k := hlen v (List.mem_cons_self _ _)
    have hfill := fillCombination_padded v cand comb k N hvk hkN hcl hcd
    have hne : padded N (chosen v cand) ≠ [] := by
      apply padded_ne_nil
      intro h0
      rw [h0] at hvk
      simp at hvk
      omega
    have hval := findValueOfContents_eq_score wm hwf hs _ hne
    have hpl : (padded N (chosen v cand)).length = N := padded_length N _ (by omega)
    have hpd : (padded N (chosen v cand)).drop k = List.replicate (N - k) "I" := by
      have := padded_drop N (chosen v cand)
      rwa [hvk] at this
    have hupd : (if score wm (padded N (chosen v cand)) > (withMemory wm best).currentChunkValue
        then { withMemory wm best with
          workingMemoryChunks := padded N (chosen v cand)
          currentChunkValue := score wm (padded N (chosen v cand)) }
        else withMemory wm best) =
        withMemory wm (pick (score wm) best (padded N (chosen v cand))) := by
      unfold pick
      by_cases hgt : score wm (padded N (chosen v cand)) > best.2
      · rw [if_pos hgt, if_pos (show score wm (padded N (chosen v cand)) >
          (withMemory wm best).currentChunkValue from hgt)]
        rfl
      · rw [if_neg hgt, if_neg (show ¬ score wm (padded N (chosen v cand)) >
          (withMemory wm best).currentChunkValue from hgt)]
    simp only [combinationLoop, hfill, Option.some_bind, findValueOfContents_withMemory, hval,
      hupd]
    cases L with
    | nil =>
      have hl := hlast v rfl
      cases hpp : prev_permutation v with
      | mk b v1 =>
        rw [hpp] at hl
        simp only at hl
        subst hl
        exact ⟨_, rfl, hpl, hpd⟩
    | cons w L =>
      have hvw : prev_permutation v = (true, w) := (List.chain'_cons.mp hch).1
      rw [hvw]
      simp only
      have ih := combinationLoop_eq wm hwf hs cand k N hk hkN L w fuel
        (pick (score wm) best (padded N (chosen v cand))) (padded N (chosen v cand))
        (List.chain'_cons.mp hch).2
        (fun u hu => hlast u (by simpa [List.getLast?_cons_cons] using hu))
        (by simp at hf; omega)
        (fun u hu => hlen u (List.mem_cons_of_mem _ hu)) hpl hpd
      simpa [List.map_cons, List.foldl_cons] using ih

theorem chosen_length_of_mem (cand : List String) (k : Nat) (w : List Bool)
    (hw : w ∈ flagVectors cand.length k) : (chosen w cand).length = k := by
  apply combinations_length k cand
  rw [← map_chosen_flagVectors cand k]
  exact List.mem_map_of_mem _ hw

theorem phase_eq (wm : WorkingMemory α) (hwf : WellFormed wm)
    (hs : wm.hrrengine.explode wm.state '+' ≠ []) (cand : List String) (k N : Nat)
    (hk : 0 < k) (hkN : k ≤ N) (hkn : k ≤ cand.length) (best : List String × α)
    (comb : List String) (hcl : comb.length = N)
    (hcd : comb.drop k = List.replicate (N - k) "I") :
    ∃ comb', combinationLoop cand (2 ^ cand.length)
        (List.replicate k true ++ List.replicate (cand.length - k) false)
        (withMemory wm best, comb) =
          some (withMemory wm
            (((combinations k cand).map (padded N)).foldl (pick (score wm)) best), comb') ∧
        comb'.length = N ∧ comb'.drop k = List.replicate (N - k) "I" := by
  have hhead := flagVectors_head cand.length k hkn
  cases hfv : flagVectors cand.length k with
  | nil => rw [hfv] at hhead; simp at hhead
  | cons v L =>
    rw [hfv] at hhead
    simp only [List.head?_cons, Option.some.injEq] at hhead
    have hchain := flagVectors_chain cand.length k []
    rw [hfv] at hchain
    simp only [List.nil_append] at hchain
    have hlast : ∀ w, (v :: L).getLast? = some w → (prev_permutation w).1 = false := by
      intro w hw
      rw [← hfv, flagVectors_getLast cand.length k hkn] at hw
      simp only [Option.some.injEq] at hw
      rw [← hw, prev_permutation_ascending]
    have hfuel : L.length < 2 ^ cand.length := by
      have := flagVectors_length_le cand.length k
      rw [hfv] at this
      simp at this
      omega
    have hlen : ∀ w ∈ v :: L, (chosen w cand).length = k := by
      intro w hw
      rw [← hfv] at hw
      exact chosen_length_of_mem cand k w hw
    obtain ⟨comb', h1, h2, h3⟩ := combinationLoop_eq wm hwf hs cand k N hk hkN L v
      (2 ^ cand.length) best comb hchain hlast hfuel hlen hcl hcd
    refine ⟨comb', ?_, h2, h3⟩
    rw [← hhead, h1, ← map_chosen_flagVectors cand k, hfv, List.map_map]
    rfl

theorem sizeLoop_eq (wm : WorkingMemory α) (hwf : WellFormed wm)
    (hs : wm.hrrengine.explode wm.state '+' ≠ []) (cand : List String) (N : Nat) :
    ∀ (count x : Nat) (best : List String × α) (comb : List String),
      0 < x → x + count ≤ min N cand.length + 1 → comb.length = N →
      comb.drop x = List.replicate (N - x) "I" →
      ∃ comb', sizeLoop cand count x (withMemory wm best, comb) =
        some (withMemory wm
          ((configurationsFrom N cand count x).foldl (pick (score wm)) best), comb')
  | 0, x, best, comb, _, _, _, _ => ⟨comb, rfl⟩
  | count + 1, x, best, comb, hx, hb, hcl, hcd => by
    have hxN : x ≤ N := by
      have := Nat.min_le_left N cand.length
      omega
    have hxn : x ≤ cand.length := by
      have := Nat.min_le_right N cand.length
      omega
    obtain ⟨comb1, h1, h2, h3⟩ := phase_eq wm hwf hs cand x N hx hxN hxn best comb hcl hcd
    have hd1 : comb1.drop (x + 1) = List.replicate (N - (x + 1)) "I" := by
      have e : comb1.drop (x + 1) = (comb1.drop x).drop 1 := by
        rw [List.drop_drop]
      rw [e, h3, List.drop_replicate, Nat.sub_sub]
    obtain ⟨comb2, h4⟩ := sizeLoop_eq wm hwf hs cand N count (x + 1)
      (((combinations x cand).map (padded N)).foldl (pick (score wm)) best) comb1 (by omega)
      (by omega) h2 hd1
    refine ⟨comb2, ?_⟩
    simp only [sizeLoop, h1, Option.some_bind, h4, configurationsFrom, List.foldl_append]

theorem findMostValuableChunks_eq (wm : WorkingMemory α) (hwf : WellFormed wm)
    (hs : wm.hrrengine.explode wm.state '+' ≠ []) (cand : List String) :
    wm.findMostValuableChunks cand = some (withMemory wm
      ((configurationsFrom wm.workingMemoryChunks.length cand
          (min wm.workingMemoryChunks.length cand.length) 1).foldl (pick (score wm))
        (List.replicate wm.workingMemoryChunks.length "I",
          score wm (List.replicate wm.workingMemoryChunks.length "I")))) := by
  have hN : 0 < wm.workingMemoryChunks.length := List.length_pos.mpr hwf.slots
  have hne : List.replicate wm.workingMemoryChunks.length "I" ≠ [] := by
    intro h0
    have := congrArg List.length h0
    simp only [List.length_replicate, List.length_nil] at this
    omega
  have hval := findValueOfContents_eq_score wm hwf hs _ hne
  have hr : (if wm.workingMemoryChunks.length > cand.length then cand.length
      else wm.workingMemoryChunks.length) = min wm.workingMemoryChunks.length cand.length := by
    split_ifs with h
    · rw [Nat.min_eq_right (Nat.le_of_lt h)]
    · rw [Nat.min_eq_left (by omega)]
  obtain ⟨comb', h⟩ := sizeLoop_eq wm hwf hs cand wm.workingMemoryChunks.length
    (min wm.workingMemoryChunks.length cand.length) 1
    (List.replicate wm.workingMemoryChunks.length "I",
      score wm (List.replicate wm.workingMemoryChunks.length "I"))
    (List.replicate wm.workingMemoryChunks.length "I") (by omega) (by omega) (by simp)
    (by rw [List.drop_replicate])
  unfold findMostValuableChunks
  simp only [hr]
  have e1 : (withMemory wm (List.replicate wm.workingMemoryChunks.length "I",
      wm.currentChunkValue)).findValueOfContents
      (List.replicate wm.workingMemoryChunks.length "I") =
      some (score wm (List.replicate wm.workingMemoryChunks.length "I")) := hval
  have e2 := congrArg (Option.map (fun st : WorkingMemory α × List String => st.1)) h
  exact (congrArg (fun o : Option α => o.bind _) e1).trans e2

theorem foldl_pick_spec {ι β : Type} [LinearOrder β] (f : ι → β) :
    ∀ (l : List ι) (best : ι × β),
      (l.foldl (pick f) best = best ∧ ∀ x ∈ l, f x ≤ best.2) ∨
      ∃ l1 x l2, l = l1 ++ x :: l2 ∧ l.foldl (pick f) best = (x, f x) ∧ best.2 < f x ∧
        (∀ y ∈ l1, f y < f x) ∧ ∀ y ∈ l2, f y ≤ f x
  | [], best => Or.inl ⟨rfl, by simp⟩
  | a :: l, best => by
    by_cases hgt : f a > best.2
    · have hp : pick f best a = (a, f a) := by simp [pick, hgt]
      rcases foldl_pick_spec f l (a, f a) with ⟨h1, h2⟩ | ⟨l1, x, l2, h1, h2, h3, h4, h5⟩
      · refine Or.inr ⟨[], a, l, rfl, ?_, hgt, by simp, h2⟩
        rw [List.foldl_cons, hp, h1]
      · refine Or.inr ⟨a :: l1, x, l2, by rw [h1]; rfl, ?_, lt_trans hgt h3, ?_, h5⟩
        · rw [List.foldl_cons, hp, h2]
        · intro y hy
          rcases List.mem_cons.mp hy with rfl | hy
          · exact h3
          · exact h4 y hy
    · have hp : pick f best a = best := by simp [pick, hgt]
      have hle : f a ≤ best.2 := not_lt.mp hgt
      rcases foldl_pick_spec f l best with ⟨h1, h2⟩ | ⟨l1, x, l2, h1, h2, h3, h4, h5⟩
      · refine Or.inl ⟨by rw [List.foldl_cons, hp, h1], ?_⟩
        intro y hy
        rcases List.mem_cons.mp hy with rfl | hy
        · exact hle
        · exact h2 y hy
      · refine Or.inr ⟨a :: l1, x, l2, by rw [h1]; rfl, ?_, h3, ?_, h5⟩
        · rw [List.foldl_cons, hp, h2]
        · intro y hy
          rcases List.mem_cons.mp hy with rfl | hy
          · exact lt_of_le_of_lt hle h3
          · exact h4 y hy

/-- The running maximum started at `(c, f c)` ends at the first element of `c :: l` that
attains the maximum of `f` over `c :: l`. -/
theorem foldl_pick_first_max {ι β : Type} [LinearOrder β] (f : ι → β) (c : ι) (l : List ι) :
    ∃ l1 x l2, c :: l = l1 ++ x :: l2 ∧ l.foldl (pick f) (c, f c) = (x, f x) ∧
      (∀ y ∈ l1, f y < f x) ∧ ∀ y ∈ l2, f y ≤ f x := by
  rcases foldl_pick_spec f l (c, f c) with ⟨h1, h2⟩ | ⟨l1, x, l2, h1, h2, h3, h4, h5⟩
  · exact ⟨[], c, l, rfl, h1, by simp, h2⟩
  · refine ⟨c :: l1, x, l2, by rw [h1]; rfl, h2, ?_, h5⟩
    intro y hy
    rcases List.mem_cons.mp hy with rfl | hy
    · exact h3
    · exact h4 y hy

theorem mem_combinations_of_sublist : ∀ (cand sub : List String), sub.Sublist cand →
    sub ∈ combinations sub.length cand
  | [], sub, h => by
    have : sub = [] := List.sublist_nil.mp h
    subst this
    simp [combinations]
  | c :: cand, [], _ => by simp [combinations]
  | c :: cand, s :: sub, h => by
    simp only [List.length_cons, combinations, List.mem_append, List.mem_map]
    cases h with
    | cons _ h1 => exact Or.inr (mem_combinations_of_sublist cand (s :: sub) h1)
    | cons₂ _ h1 => exact Or.inl ⟨sub, mem_combinations_of_sublist cand sub h1, rfl⟩

theorem sublist_of_mem_combinations : ∀ (k : Nat) (cand l : List String),
    l ∈ combinations k cand → l.Sublist cand
  | 0, _, l, h => by
    simp only [combinations, List.mem_singleton] at h
    subst h
    exact List.nil_sublist _
  | _ + 1, [], l, h => by simp [combinations] at h
  | k + 1, c :: cand, l, h => by
    simp only [combinations, List.mem_append, List.mem_map] at h
    rcases h with ⟨l1, h1, rfl⟩ | h
    · exact (sublist_of_mem_combinations k cand l1 h1).cons₂ c
    · exact (sublist_of_mem_combinations (k + 1) cand l h).cons c

theorem mem_configurationsFrom (N : Nat) (cand : List String) :
    ∀ (count x : Nat) (c : List String),
      c ∈ configurationsFrom N cand count x ↔
        ∃ sub, sub ∈ combinations sub.length cand ∧ x ≤ sub.length ∧ sub.length < x + count ∧
          c = padded N sub
  | 0, x, c => by
    simp only [configurationsFrom, List.not_mem_nil, false_iff]
    rintro ⟨sub, -, h1, h2, -⟩
    omega
  | count + 1, x, c => by
    simp only [configurationsFrom, List.mem_append, List.mem_map,
      mem_configurationsFrom N cand count (x + 1) c]
    constructor
    · rintro (⟨sub, h1, rfl⟩ | ⟨sub, h1, h2, h3, rfl⟩)
      · have hl := combinations_length x cand sub h1
        exact ⟨sub, by rw [hl]; exact h1, by omega, by omega, rfl⟩
      · exact ⟨sub, h1, by omega, by omega, rfl⟩
    · rintro ⟨sub, h1, h2, h3, rfl⟩
      by_cases hx : sub.length = x
      · exact Or.inl ⟨sub, by rw [← hx]; exact h1, rfl⟩
      · exact Or.inr ⟨sub, h1, by omega, by omega, rfl⟩

end SearchLemmas

/-! ## Auxiliary facts about whole calls -/

section CallLemmas

open WorkingMemory

variable {α : Type} [LinearOrderedField α]

theorem WellFormed.with_state {wm : WorkingMemory α} (hwf : WellFormed wm) (state : String) :
    WellFormed { wm with state := state } :=
  ⟨hwf.slots, ⟨hwf.sized.weights_len, hwf.sized.actionWeights_len, hwf.sized.trace_len,
    hwf.sized.actionTrace_len⟩, hwf.perm_len, hwf.perm_lt, hwf.query_len, hwf.conv_len⟩

theorem WellFormed.with_traces {wm : WorkingMemory α} (hwf : WellFormed wm)
    (hi : EpisodeInitialised wm) (sqrt2 : α) :
    WellFormed { wm with
      eligibilityTrace := decayedTrace wm.critic.lambda sqrt2 wm.eligibilityTrace
        wm.previousStateWorkingMemory
      actionEligibilityTrace := decayedTrace wm.critic.lambda sqrt2 wm.actionEligibilityTrace
        wm.previousStateWorkingMemoryAction } := by
  have h1 : (decayedTrace wm.critic.lambda sqrt2 wm.eligibilityTrace
      wm.previousStateWorkingMemory).length = wm.vectorSize := by
    rw [decayedTrace_length _ _ _ _ (by rw [hwf.sized.trace_len]; exact hi.previous_len),
      hwf.sized.trace_len]
  have h2 : (decayedTrace wm.critic.lambda sqrt2 wm.actionEligibilityTrace
      wm.previousStateWorkingMemoryAction).length = wm.vectorSize := by
    rw [decayedTrace_length _ _ _ _
      (by rw [hwf.sized.actionTrace_len]; exact hi.previousAction_len),
      hwf.sized.actionTrace_len]
  exact ⟨hwf.slots, ⟨hwf.sized.weights_len, hwf.sized.actionWeights_len, h1, h2⟩, hwf.perm_len,
    hwf.perm_lt, hwf.query_len, hwf.conv_len⟩

/-- What `step` returns once its selection phase has produced `wm1`. -/
theorem step_spec (sqrt2 : α) (wm wm1 : WorkingMemory α) (state : String)
    (possibleActions : List String) (reward u : α) (draws : List Int)
    (hwf : WellFormed wm) (hstate : wm.hrrengine.explode state '+' ≠ [])
    (hsel : stepSelect sqrt2 wm state u draws = some wm1) :
    ∃ rep act, wm1.stateAndWorkingMemoryRepresentation = some rep ∧
      wm1.findMostValuableAction possibleActions = some act ∧
      wm1.eligibilityTrace = decayedTrace wm.critic.lambda sqrt2 wm.eligibilityTrace
        wm.previousStateWorkingMemory ∧
      wm1.actionEligibilityTrace = decayedTrace wm.critic.lambda sqrt2
        wm.actionEligibilityTrace wm.previousStateWorkingMemoryAction ∧
      step sqrt2 wm state possibleActions reward u draws = some (act.1, { wm1 with
        weights := tdUpdate wm.critic.alpha
          (wm.critic.TDError wm.previousReward (wm.critic.V rep wm.weights) wm.previousValue)
          wm.weights
          (decayedTrace wm.critic.lambda sqrt2 wm.eligibilityTrace
            wm.previousStateWorkingMemory)
        actionWeights := tdUpdate wm.critic.alpha
          (wm.critic.TDError wm.previousReward (wm.critic.V act.2 wm.actionWeights)
            wm.previousQValue) wm.actionWeights
          (decayedTrace wm.critic.lambda sqrt2 wm.actionEligibilityTrace
            wm.previousStateWorkingMemoryAction)
        previousStateWorkingMemory := rep
        previousValue := wm.critic.V rep wm.weights
        previousReward := reward
        previousStateWorkingMemoryAction := act.2
        previousQValue := wm.critic.V act.2 wm.actionWeights }) := by
  obtain ⟨hi, hsame⟩ := stepSelect_shape sqrt2 wm wm1 state u draws hwf.sized hsel
  have hwf1 : WellFormed wm1 := ((hwf.with_traces hi sqrt2).with_state state).of_same hsame
  obtain ⟨chunks, cur, rfl, -⟩ := hsame
  obtain ⟨rep, act, hrep, hact, hfin⟩ := stepFinish_eq _ hwf1 hstate possibleActions reward
  exact ⟨rep, act, hrep, hact, rfl, rfl,
    (step_eq_stepFinish sqrt2 wm _ state possibleActions reward u draws hsel).trans hfin⟩

/-- On the greedy branch the selection phase of `step` always produces
contents. -/
theorem stepSelect_greedy (sqrt2 : α) (wm : WorkingMemory α) (state : String) (u : α)
    (draws : List Int) (hwf : WellFormed wm) (hi : EpisodeInitialised wm)
    (hstate : wm.hrrengine.explode state '+' ≠ []) (hu : ¬ u < wm.critic.epsilon) :
    ∃ wm1, stepSelect sqrt2 wm state u draws = some wm1 := by
  have hwf0 := (hwf.with_traces hi sqrt2).with_state state
  simp only [stepSelect, updateTraces_eq sqrt2 wm hwf.sized hi, Option.some_bind, if_neg hu]
  exact ⟨_, findMostValuableChunks_eq _ hwf0 hstate _⟩

theorem initializeEpisodeSelect_shape (wm wm1 : WorkingMemory α) (state : String) (u : α)
    (draws : List Int) (h : initializeEpisodeSelect wm state u draws = some wm1) :
    SameExceptMemory { wm with state := state } wm1 := by
  have key : SameExceptMemory { wm with
      state := state
      workingMemoryChunks := List.replicate wm.workingMemoryChunks.length "I" } wm1 := by
    simp only [initializeEpisodeSelect] at h
    split_ifs at h
    · simp only [Option.map_eq_some'] at h
      obtain ⟨r, hr, rfl⟩ := h
      exact chooseRandom_frame _ _ _ r hr
    · exact findMostValuableChunks_frame _ _ _ h
  obtain ⟨chunks, value, rfl, hl⟩ := key
  exact ⟨chunks, value, rfl, by simpa using hl⟩

/-- On the greedy branch the selection phase of `initializeEpisode` always
produces contents. -/
theorem initializeEpisodeSelect_greedy (wm : WorkingMemory α) (state : String) (u : α)
    (draws : List Int) (hwf : WellFormed wm)
    (hstate : wm.hrrengine.explode state '+' ≠ []) (hu : ¬ u < wm.critic.epsilon) :
    ∃ wm1, initializeEpisodeSelect wm state u draws = some wm1 := by
  have hN : 0 < wm.workingMemoryChunks.length := List.length_pos.mpr hwf.slots
  have hwf0 : WellFormed { wm with
      state := state
      workingMemoryChunks := List.replicate wm.workingMemoryChunks.length "I" } := by
    refine ⟨?_, ⟨hwf.sized.weights_len, hwf.sized.actionWeights_len, hwf.sized.trace_len,
      hwf.sized.actionTrace_len⟩, hwf.perm_len, hwf.perm_lt, hwf.query_len, hwf.conv_len⟩
    intro h0
    have := congrArg List.length h0
    simp only [List.length_replicate, List.length_nil] at this
    omega
  simp only [initializeEpisodeSelect, if_neg hu]
  exact ⟨_, findMostValuableChunks_eq _ hwf0 hstate _⟩

theorem initializeEpisodeFinish_eq (wm : WorkingMemory α) (hwf : WellFormed wm)
    (hs : wm.hrrengine.explode wm.state '+' ≠ []) (actions : List String) (reward : α) :
    ∃ rep act, wm.stateAndWorkingMemoryRepresentation = some rep ∧
      wm.findMostValuableAction actions = some act ∧
      wm.initializeEpisodeFinish actions reward = some (act.1, { wm with
        previousStateWorkingMemory := rep
        previousValue := wm.critic.V rep wm.weights
        previousReward := reward
        previousStateWorkingMemoryAction := act.2
        previousQValue := wm.critic.V act.2 wm.actionWeights
        eligibilityTrace := List.replicate wm.eligibilityTrace.length 0
        actionEligibilityTrace := List.replicate wm.actionEligibilityTrace.length 0 }) := by
  obtain ⟨rep, hrep, hact⟩ := findMostValuableAction_eq_some wm hwf hs actions
  refine ⟨rep, _, hrep, hact, ?_⟩
  simp only [initializeEpisodeFinish, hrep, hact, Option.some_bind, Option.map_some']

theorem initializeEpisode_eq_finish (wm wm1 : WorkingMemory α) (state : String)
    (possibleActions : List String) (reward u : α) (draws : List Int)
    (h : initializeEpisodeSelect wm state u draws = some wm1) :
    initializeEpisode wm state possibleActions reward u draws =
      wm1.initializeEpisodeFinish possibleActions reward := by
  simp only [initializeEpisode, h, Option.some_bind]

theorem findMostValuableAction_nil (wm : WorkingMemory α) (rep : HRR α)
    (hrep : wm.stateAndWorkingMemoryRepresentation = some rep) :
    wm.findMostValuableAction [] = some ("", []) := by
  simp [findMostValuableAction, hrep]

theorem validDraws_zero (slots : Nat) (draws : List Int) : validDraws slots 0 draws = true := by
  cases slots <;> rfl

theorem chooseRandomLoop_eq_some :
    ∀ (count i : Nat) (chunks cands : List String) (draws : List Int),
      validDraws count cands.length draws = true →
      ∃ r, chooseRandomLoop count i chunks cands draws = some r
  | 0, _, chunks, _, draws, _ => ⟨_, rfl⟩
  | count + 1, i, chunks, cands, draws, hv => by
    unfold chooseRandomLoop
    by_cases h0 : cands.length = 0
    · rw [if_pos h0]
      exact chooseRandomLoop_eq_some count _ _ cands draws
        (by rw [h0]; exact validDraws_zero _ _)
    · rw [if_neg h0]
      obtain ⟨n, hn⟩ : ∃ n, cands.length = n + 1 := ⟨cands.length - 1, by omega⟩
      rw [hn] at hv
      cases draws with
      | nil => simp [validDraws] at hv
      | cons d draws =>
        simp only [validDraws, Bool.and_eq_true, decide_eq_true_eq] at hv
        obtain ⟨⟨h1, h2⟩, h3⟩ := hv
        simp only
        by_cases hd : d > 0
        · rw [if_pos hd]
          have hlt : d.toNat < cands.length := by omega
          rw [List.getElem?_eq_getElem hlt]
          simp only
          have hd' : 0 < d := hd
          rw [if_pos hd'] at h3
          exact chooseRandomLoop_eq_some count _ _ _ draws
            (by rw [List.length_eraseIdx, if_pos hlt, hn]; exact h3)
        · rw [if_neg hd]
          exact chooseRandomLoop_eq_some count _ _ [] draws (validDraws_zero _ _)

theorem chooseRandom_eq_some (wm : WorkingMemory α) (cands : List String) (draws : List Int)
    (hv : validDraws wm.workingMemoryChunks.length cands.length draws = true) :
    ∃ r, wm.chooseRandomWorkingMemoryContents cands draws = some r := by
  obtain ⟨r, hr⟩ := chooseRandomLoop_eq_some wm.workingMemoryChunks.length 0
    wm.workingMemoryChunks cands draws hv
  simp only [chooseRandomWorkingMemoryContents, hr, Option.map_some']
  exact ⟨_, rfl⟩

/-- On the random branch the selection phase of `step` produces contents when the draws suit
the candidate list. -/
theorem stepSelect_random (sqrt2 : α) (wm : WorkingMemory α) (state : String) (u : α)
    (draws : List Int) (hs : Sized wm) (hi : EpisodeInitialised wm)
    (hu : u < wm.critic.epsilon)
    (hv : validDraws wm.workingMemoryChunks.length (withState wm state).stepCandidates.length
      draws = true) :
    ∃ wm1, stepSelect sqrt2 wm state u draws = some wm1 := by
  simp only [stepSelect, updateTraces_eq sqrt2 wm hs hi, Option.some_bind, if_pos hu]
  obtain ⟨r, hr⟩ := chooseRandom_eq_some { wm with
      eligibilityTrace := decayedTrace wm.critic.lambda sqrt2 wm.eligibilityTrace
        wm.previousStateWorkingMemory
      actionEligibilityTrace := decayedTrace wm.critic.lambda sqrt2 wm.actionEligibilityTrace
        wm.previousStateWorkingMemoryAction
      state := state } (withState wm state).stepCandidates draws hv
  exact ⟨r.1, congrArg (Option.map (fun r : WorkingMemory α × List Int => r.1)) hr⟩

/-- The selection phase of `step` produces contents on the greedy branch, and on the random
branch when the draws suit the candidate list. -/
theorem stepSelect_returns (sqrt2 : α) (wm : WorkingMemory α) (state : String) (u : α)
    (draws : List Int) (hwf : WellFormed wm) (hi : EpisodeInitialised wm)
    (hstate : wm.hrrengine.explode state '+' ≠ [])
    (h : ¬ u < wm.critic.epsilon ∨
      validDraws wm.workingMemoryChunks.length (withState wm state).stepCandidates.length
        draws = true) :
    ∃ wm1, stepSelect sqrt2 wm state u draws = some wm1 := by
  by_cases hu : u < wm.critic.epsilon
  · rcases h with h | h
    · exact absurd hu h
    · exact stepSelect_random sqrt2 wm state u draws hwf.sized hi hu h
  · exact stepSelect_greedy sqrt2 wm state u draws hwf hi hstate hu

end CallLemmas

/-! ## Auxiliary facts about what whole calls leave unchanged -/

section ShapeLemmas

open WorkingMemory

variable {α : Type} [LinearOrderedField α]

theorem updateEach_length {β : Type} (f : β → β → β) :
    ∀ (n : Nat) (a b r : List β), updateEach f n a b = some r → r.length = a.length
  | 0, a, _, r, h => by
    simp only [updateEach, Option.some.injEq] at h
    rw [h]
  | n + 1, [], _, _, h => by simp [updateEach] at h
  | n + 1, _ :: _, [], _, h => by simp [updateEach] at h
  | n + 1, u :: a, v :: b, r, h => by
    simp only [updateEach, Option.map_eq_some'] at h
    obtain ⟨r1, h1, rfl⟩ := h
    simp [updateEach_length f n a b r1 h1]

theorem absorbReward_shape (sqrt2 : α) (wm wm' : WorkingMemory α) (reward : α)
    (h : absorbReward sqrt2 wm reward = some wm') :
    ∃ trace actionTrace weights actionWeights,
      wm' = { wm with
        eligibilityTrace := trace
        actionEligibilityTrace := actionTrace
        weights := weights
        actionWeights := actionWeights } ∧
      trace.length = wm.eligibilityTrace.length ∧
      actionTrace.length = wm.actionEligibilityTrace.length ∧
      weights.length = wm.weights.length ∧
      actionWeights.length = wm.actionWeights.length := by
  simp only [absorbReward, updateTraces, Option.bind_eq_some, Option.map_eq_some'] at h
  obtain ⟨wm0, ⟨t, ht, t2, ht2, rfl⟩, w, hw, w2, hw2, rfl⟩ := h
  exact ⟨t, t2, w, w2, rfl, updateEach_length _ _ _ _ _ ht, updateEach_length _ _ _ _ _ ht2,
    updateEach_length _ _ _ _ _ hw, updateEach_length _ _ _ _ _ hw2⟩

theorem stepFinish_shape (wm : WorkingMemory α) (actions : List String) (reward : α)
    (r : String × WorkingMemory α) (h : wm.stepFinish actions reward = some r) :
    ∃ weights actionWeights rep value act qValue,
      r.2 = { wm with
        weights := weights
        actionWeights := actionWeights
        previousStateWorkingMemory := rep
        previousValue := value
        previousReward := reward
        previousStateWorkingMemoryAction := act
        previousQValue := qValue } ∧
      weights.length = wm.weights.length ∧
      actionWeights.length = wm.actionWeights.length := by
  simp only [stepFinish, Option.bind_eq_some, Option.map_eq_some'] at h
  obtain ⟨rep, -, act, -, w, hw, w2, hw2, rfl⟩ := h
  exact ⟨w, w2, rep, _, act.2, _, rfl, updateEach_length _ _ _ _ _ hw,
    updateEach_length _ _ _ _ _ hw2⟩

theorem initializeEpisodeFinish_shape (wm : WorkingMemory α) (actions : List String)
    (reward : α) (r : String × WorkingMemory α)
    (h : wm.initializeEpisodeFinish actions reward = some r) :
    ∃ rep value act qValue,
      r.2 = { wm with
        previousStateWorkingMemory := rep
        previousValue := value
        previousReward := reward
        previousStateWorkingMemoryAction := act
        previousQValue := qValue
        eligibilityTrace := List.replicate wm.eligibilityTrace.length 0
        actionEligibilityTrace := List.replicate wm.actionEligibilityTrace.length 0 } := by
  simp only [initializeEpisodeFinish, Option.bind_eq_some, Option.map_eq_some'] at h
  obtain ⟨rep, -, act, -, rfl⟩ := h
  exact ⟨rep, _, act.2, _, rfl⟩

/-- What `initializeEpisode` leaves when it returns: the state is stored, the contents are
replaced, both traces are zeroed and the "previous" members are overwritten; nothing else
changes. -/
theorem initializeEpisode_shape (wm : WorkingMemory α) (state : String)
    (actions : List String) (reward u : α) (draws : List Int) (r : String × WorkingMemory α)
    (h : initializeEpisode wm state actions reward u draws = some r) :
    ∃ chunks cur rep value act qValue,
      r.2 = { wm with
        state := state
        workingMemoryChunks := chunks
        currentChunkValue := cur
        previousStateWorkingMemory := rep
        previousValue := value
        previousReward := reward
        previousStateWorkingMemoryAction := act
        previousQValue := qValue
        eligibilityTrace := List.replicate wm.eligibilityTrace.length 0
        actionEligibilityTrace := List.replicate wm.actionEligibilityTrace.length 0 } ∧
      chunks.length = wm.workingMemoryChunks.length := by
  simp only [initializeEpisode, Option.bind_eq_some] at h
  obtain ⟨wm1, hsel, hfin⟩ := h
  obtain ⟨chunks, cur, rfl, hl⟩ := initializeEpisodeSelect_shape wm wm1 state u draws hsel
  obtain ⟨rep, value, act, qValue, hr⟩ := initializeEpisodeFinish_shape _ actions reward r hfin
  exact ⟨chunks, cur, rep, value, act, qValue, hr, hl⟩

/-- What `step` leaves when it returns. -/
theorem step_shape (sqrt2 : α) (wm : WorkingMemory α) (hs : Sized wm) (state : String)
    (actions : List String) (reward u : α) (draws : List Int) (r : String × WorkingMemory α)
    (h : step sqrt2 wm state actions reward u draws = some r) :
    ∃ chunks cur weights actionWeights rep value act qValue,
      r.2 = { wm with
        state := state
        workingMemoryChunks := chunks
        currentChunkValue := cur
        eligibilityTrace := decayedTrace wm.critic.lambda sqrt2 wm.eligibilityTrace
          wm.previousStateWorkingMemory
        actionEligibilityTrace := decayedTrace wm.critic.lambda sqrt2
          wm.actionEligibilityTrace wm.previousStateWorkingMemoryAction
        weights := weights
        actionWeights := actionWeights
        previousStateWorkingMemory := rep
        previousValue := value
        previousReward := reward
        previousStateWorkingMemoryAction := act
        previousQValue := qValue } ∧
      chunks.length = wm.workingMemoryChunks.length ∧
      weights.length = wm.weights.length ∧
      actionWeights.length = wm.actionWeights.length ∧ EpisodeInitialised wm := by
  simp only [step, Option.bind_eq_some] at h
  obtain ⟨wm1, hsel, hfin⟩ := h
  obtain ⟨hi, chunks, cur, rfl, hl⟩ := stepSelect_shape sqrt2 wm wm1 state u draws hs hsel
  obtain ⟨w, w2, rep, value, act, qValue, hr, hw, hw2⟩ := stepFinish_shape _ actions reward r hfin
  exact ⟨chunks, cur, w, w2, rep, value, act, qValue, hr, hl, hw, hw2, hi⟩

theorem decayedTrace_zero (lambda sqrt2 : α) :
    ∀ (n : Nat) (previous : List α),
      decayedTrace lambda sqrt2 (List.replicate n 0) previous =
        (previous.take n).map (fun p => p / sqrt2)
  | 0, previous => by simp [decayedTrace]
  | n + 1, [] => by simp [decayedTrace]
  | n + 1, p :: previous => by
    have ih := decayedTrace_zero lambda sqrt2 n previous
    simp only [decayedTrace] at ih
    simp [decayedTrace, List.replicate_succ, ih]

/-- The selection phase of `initializeEpisode` produces contents on the greedy branch, and on
the random branch when the draws suit the candidate list. -/
theorem initializeEpisodeSelect_returns (wm : WorkingMemory α) (state : String) (u : α)
    (draws : List Int) (hwf : WellFormed wm)
    (hstate : wm.hrrengine.explode state '+' ≠ [])
    (h : ¬ u < wm.critic.epsilon ∨
      validDraws wm.workingMemoryChunks.length
        (sortStrings (cleared wm state).getCandidateChunksFromState).length draws = true) :
    ∃ wm1, initializeEpisodeSelect wm state u draws = some wm1 := by
  by_cases hu : u < wm.critic.epsilon
  · rcases h with h | h
    · exact absurd hu h
    · have hv : validDraws (cleared wm state).workingMemoryChunks.length
          (sortStrings (cleared wm state).getCandidateChunksFromState).length draws = true := by
        simpa [cleared] using h
      obtain ⟨r, hr⟩ := chooseRandom_eq_some (cleared wm state)
        (sortStrings (cleared wm state).getCandidateChunksFromState) draws hv
      simp only [initializeEpisodeSelect, if_pos hu]
      exact ⟨r.1, congrArg (Option.map (fun r : WorkingMemory α × List Int => r.1)) hr⟩
  · exact initializeEpisodeSelect_greedy wm state u draws hwf hstate hu

/-- The call `initializeEpisode` returns on the greedy branch, and on the random branch when
the draws suit the candidate list. -/
theorem initializeEpisode_returns (wm : WorkingMemory α) (state : String)
    (actions : List String) (reward u : α) (draws : List Int) (hwf : WellFormed wm)
    (hstate : wm.hrrengine.explode state '+' ≠ [])
    (h : ¬ u < wm.critic.epsilon ∨
      validDraws wm.workingMemoryChunks.length
        (sortStrings (cleared wm state).getCandidateChunksFromState).length draws = true) :
    ∃ r, initializeEpisode wm state actions reward u draws = some r := by
  obtain ⟨wm1, hsel⟩ := initializeEpisodeSelect_returns wm state u draws hwf hstate h
  have hsame := initializeEpisodeSelect_shape wm wm1 state u draws hsel
  have hwf1 : WellFormed wm1 := (hwf.with_state state).of_same hsame
  obtain ⟨chunks, cur, rfl, -⟩ := hsame
  obtain ⟨rep, act, -, -, hfin⟩ := initializeEpisodeFinish_eq _ hwf1 hstate actions reward
  exact ⟨_, (initializeEpisode_eq_finish wm _ state actions reward u draws hsel).trans hfin⟩

/-- The call `step` returns, with an episode initialised, on the greedy branch, and on the
random branch when the draws suit the candidate list. -/
theorem step_returns (sqrt2 : α) (wm : WorkingMemory α) (state : String)
    (actions : List String) (reward u : α) (draws : List Int) (hwf : WellFormed wm)
    (hi : EpisodeInitialised wm) (hstate : wm.hrrengine.explode state '+' ≠ [])
    (h : ¬ u < wm.critic.epsilon ∨
      validDraws wm.workingMemoryChunks.length (withState wm state).stepCandidates.length
        draws = true) :
    ∃ r, step sqrt2 wm state actions reward u draws = some r := by
  obtain ⟨wm1, hsel⟩ := stepSelect_returns sqrt2 wm state u draws hwf hi hstate h
  obtain ⟨rep, act, -, -, -, -, hstep⟩ :=
    step_spec sqrt2 wm wm1 state actions reward u draws hwf hstate hsel
  exact ⟨_, hstep⟩

end ShapeLemmas

/-! ## Auxiliary facts about the random selection loop -/

section RandomLemmas

open WorkingMemory

theorem set_eq_take_cons_drop {β : Type} (l : List β) (i : Nat) (x : β) (h : i < l.length) :
    l.set i x = l.take i ++ x :: l.drop (i + 1) := by
  rw [List.set_eq_take_append_cons_drop, if_pos h]

theorem take_append_cons_exact {β : Type} (a b : List β) (x : β) (i : Nat)
    (h : a.length = i) : (a ++ x :: b).take (i + 1) = a ++ [x] := by
  have e : a ++ x :: b = (a ++ [x]) ++ b := by simp
  rw [e]
  exact List.take_left' (by simp [h])

theorem sorted_slot_chunks (chunks : List String) (i : Nat) (c : String)
    (h : i < chunks.length) :
    sortStrings ((chunks.set i c).take i) ++ (chunks.set i c).drop i =
      sortStrings (chunks.take i) ++ c :: chunks.drop (i + 1) := by
  rw [set_eq_take_cons_drop chunks i c h]
  have hl : (chunks.take i).length = i := by
    rw [List.length_take]; omega
  have e1 : (chunks.take i ++ c :: chunks.drop (i + 1)).take i = chunks.take i :=
    List.take_left' hl
  have e2 : (chunks.take i ++ c :: chunks.drop (i + 1)).drop i = c :: chunks.drop (i + 1) :=
    List.drop_left' hl
  rw [e1, e2]

theorem chooseRandomLoop_empty :
    ∀ (count i : Nat) (chunks : List String) (draws : List Int),
      chunks.length = i + count →
      chooseRandomLoop count i chunks [] draws =
        some (chunks.take i ++ List.replicate count "I", draws)
  | 0, i, chunks, draws, h => by
    simp only [chooseRandomLoop, List.replicate_zero, List.append_nil]
    rw [List.take_of_length_le (by omega)]
  | count + 1, i, chunks, draws, h => by
    have hi : i < chunks.length := by omega
    unfold chooseRandomLoop
    rw [if_pos (by rfl : ([] : List String).length = 0),
      chooseRandomLoop_empty count (i + 1) _ draws (by rw [List.length_set]; omega)]
    rw [set_eq_take_cons_drop chunks i "I" hi,
      take_append_cons_exact _ _ _ i (by rw [List.length_take]; omega)]
    simp [List.replicate_succ]

theorem getElem_not_mem_eraseIdx {β : Type} :
    ∀ (l : List β) (i : Nat) (h : i < l.length), l.Nodup → l[i] ∉ l.eraseIdx i
  | [], _, h, _ => by simp at h
  | a :: t, 0, _, hn => by
    simpa using (List.nodup_cons.mp hn).1
  | a :: t, i + 1, h, hn => by
    have hi : i < t.length := by simpa using h
    have ih := getElem_not_mem_eraseIdx t i hi (List.nodup_cons.mp hn).2
    have hne : t[i] ≠ a := by
      intro h0
      exact (List.nodup_cons.mp hn).1 (h0 ▸ List.getElem_mem _)
    simp only [List.getElem_cons_succ, List.eraseIdx_cons_succ, List.mem_cons, not_or]
    exact ⟨hne, ih⟩

theorem chooseRandomLoop_spec :
    ∀ (count i : Nat) (chunks cands : List String) (draws : List Int),
      chunks.length = i + count → cands.Nodup →
      validDraws count cands.length draws = true →
      ∃ (picked arranged : List String) (rest : List Int),
        chooseRandomLoop count i chunks cands draws =
          some (arranged ++ List.replicate (count - picked.length) "I", rest) ∧
        arranged.Perm (chunks.take i ++ picked) ∧
        picked.length ≤ count ∧ picked.Nodup ∧ (∀ c ∈ picked, c ∈ cands) ∧
        (∀ j, j < picked.length → ∃ d, draws[j]? = some d ∧ 0 < d) ∧
        (picked.length < count → picked.length < cands.length →
          ∃ d, draws[picked.length]? = some d ∧ d ≤ 0 ∧
            rest = draws.drop (picked.length + 1)) ∧
        ((picked.length = count ∨ picked.length = cands.length) →
          rest = draws.drop picked.length)
  | 0, i, chunks, cands, draws, hl, _, _ => by
    refine ⟨[], chunks, draws, ?_, ?_, by simp, List.nodup_nil, by simp, by simp, by simp,
      by simp⟩
    · simp [chooseRandomLoop]
    · rw [List.take_of_length_le (by omega)]
      simp
  | count + 1, i, chunks, cands, draws, hl, hnd, hv => by
    have hi : i < chunks.length := by omega
    by_cases h0 : cands.length = 0
    · have hc : cands = [] := List.length_eq_zero.mp h0
      subst hc
      refine ⟨[], chunks.take i, draws, ?_, by simp, by simp, List.nodup_nil, by simp, by simp,
        by simp, by simp⟩
      rw [chooseRandomLoop_empty (count + 1) i chunks draws hl]
      simp
    · obtain ⟨n, hn⟩ : ∃ n, cands.length = n + 1 := ⟨cands.length - 1, by omega⟩
      rw [hn] at hv
      cases draws with
      | nil => simp [validDraws] at hv
      | cons d ds =>
        simp only [validDraws, Bool.and_eq_true, decide_eq_true_eq] at hv
        obtain ⟨⟨h1, h2⟩, h3⟩ := hv
        by_cases hd : d > 0
        · have hlt : d.toNat < cands.length := by omega
          have hd' : 0 < d := hd
          rw [if_pos hd'] at h3
          have hlen2 : (sortStrings (chunks.take i) ++
              cands[d.toNat] :: chunks.drop (i + 1)).length = i + 1 + count := by
            simp only [List.length_append, sortStrings_length, List.length_take,
              List.length_cons, List.length_drop]
            omega
          obtain ⟨picked, arranged, rest, hres, hperm, hle, hnodup, hmem, hpos, hstop, hend⟩ :=
            chooseRandomLoop_spec count (i + 1)
              (sortStrings (chunks.take i) ++ cands[d.toNat] :: chunks.drop (i + 1))
              (cands.eraseIdx d.toNat) ds hlen2
              (hnd.sublist (List.eraseIdx_sublist _ _))
              (by rw [List.length_eraseIdx, if_pos hlt, hn]; exact h3)
          have hsub : ∀ c ∈ cands.eraseIdx d.toNat, c ∈ cands :=
            fun c hc => (List.eraseIdx_sublist cands d.toNat).subset hc
          have hel : (cands.eraseIdx d.toNat).length = n := by
            rw [List.length_eraseIdx, if_pos hlt, hn]; rfl
          refine ⟨cands[d.toNat] :: picked, arranged, rest, ?_, ?_, ?_, ?_, ?_, ?_, ?_, ?_⟩
          · unfold chooseRandomLoop
            rw [if_neg h0]
            simp only [if_pos hd, List.getElem?_eq_getElem hlt]
            rw [sorted_slot_chunks chunks i _ hi, hres]
            simp
          · have ht : (sortStrings (chunks.take i) ++
                cands[d.toNat] :: chunks.drop (i + 1)).take (i + 1) =
                sortStrings (chunks.take i) ++ [cands[d.toNat]] :=
              take_append_cons_exact _ _ _ i (by
                rw [sortStrings_length, List.length_take]; omega)
            rw [ht] at hperm
            refine hperm.trans ?_
            have hp : (sortStrings (chunks.take i)).Perm (chunks.take i) :=
              List.perm_insertionSort _ _
            have := (hp.append_right [cands[d.toNat]]).append_right picked
            simpa using this
          · simp only [List.length_cons]; omega
          · refine List.nodup_cons.mpr ⟨?_, hnodup⟩
            intro hc
            exact getElem_not_mem_eraseIdx cands d.toNat hlt hnd (hmem _ hc)
          · intro c hc
            rcases List.mem_cons.mp hc with rfl | hc
            · exact List.getElem_mem _
            · exact hsub c (hmem c hc)
          · intro j hj
            cases j with
            | zero => exact ⟨d, by simp, hd'⟩
            | succ j =>
              obtain ⟨e, he, hep⟩ := hpos j (by simpa using hj)
              exact ⟨e, by simpa using he, hep⟩
          · intro hk1 hk2
            simp only [List.length_cons] at hk1 hk2 ⊢
            obtain ⟨e, he, hel0, hr⟩ := hstop (by omega) (by omega)
            exact ⟨e, by simpa using he, hel0, by simpa using hr⟩
          · intro hk
            simp only [List.length_cons] at hk ⊢
            have := hend (by omega)
            simpa using this
        · refine ⟨[], chunks.take i, ds, ?_, by simp, by simp, List.nodup_nil, by simp, by simp,
            ?_, ?_⟩
          · unfold chooseRandomLoop
            rw [if_neg h0]
            simp only [if_neg hd]
            rw [chooseRandomLoop_empty count (i + 1) _ ds (by rw [List.length_set]; omega),
              set_eq_take_cons_drop chunks i "I" hi,
              take_append_cons_exact _ _ _ i (by rw [List.length_take]; omega)]
            simp [List.replicate_succ]
          · intro _ _
            exact ⟨d, by simp, not_lt.mp hd, by simp⟩
          · intro hk
            simp only [List.length_nil] at hk
            omega

end RandomLemmas

/-! ## Facts about the concrete controller -/

section DemoFacts

theorem demo_sized : Sized demo :=
  ⟨rfl, rfl, rfl, rfl⟩

theorem demo_contract : CriticContract demo.critic :=
  ⟨fun _ _ _ => rfl, fun _ _ => rfl⟩

theorem demo_initialised : EpisodeInitialised demo :=
  ⟨by decide, by decide⟩

theorem demo_wellFormed : WellFormed demo := by
  refine ⟨by decide, demo_sized, rfl, by decide, ?_, ?_⟩
  · intro s
    show (demoQuery s).length = 2
    unfold demoQuery
    split_ifs <;> rfl
  · intro a b ha _
    have hlen : (circularConvolution a b).length = a.length := by
      simp [circularConvolution]
    exact hlen.trans ha

theorem demo_select_isSome :
    (WorkingMemory.stepSelect demoSqrt2 demo "a+b" (1 / 2) []).isSome = true := by
  decide!

end DemoFacts

/-! ## The temporal-difference updates -/

section Updates

open WorkingMemory

variable {α : Type} [LinearOrderedField α]

/-- C3. With an episode initialised and a critic that meets its documented
contract, `absorbReward(finalReward)` returns and changes the weights by the
terminal TD update: the state weights become
`weights + alpha * (finalReward - previousValue) * trace'` and the action
weights `actionWeights + alpha * (finalReward - previousQValue) * actionTrace'`,
entry by entry, where `trace'` is the trace after this call's decay and
increment; no discounted next-value term occurs. -/
theorem absorbReward_terminal_update (sqrt2 : α) (wm : WorkingMemory α) (finalReward : α)
    (hc : CriticContract wm.critic) (hs : Sized wm) (hi : EpisodeInitialised wm) :
    ∃ wm', absorbReward sqrt2 wm finalReward = some wm' ∧
      wm'.weights = tdUpdate wm.critic.alpha (finalReward - wm.previousValue) wm.weights
        (decayedTrace wm.critic.lambda sqrt2 wm.eligibilityTrace
          wm.previousStateWorkingMemory) ∧
      wm'.actionWeights = tdUpdate wm.critic.alpha (finalReward - wm.previousQValue)
        wm.actionWeights
        (decayedTrace wm.critic.lambda sqrt2 wm.actionEligibilityTrace
          wm.previousStateWorkingMemoryAction) ∧
      wm'.weights.length = wm.vectorSize ∧ wm'.actionWeights.length = wm.vectorSize := by
  refine ⟨_, absorbReward_eq sqrt2 wm finalReward hs hi, ?_, ?_, ?_, ?_⟩
  · show tdUpdate _ (wm.critic.TDErrorGoal _ _) _ _ = _
    rw [hc.tdErrorGoal]
  · show tdUpdate _ (wm.critic.TDErrorGoal _ _) _ _ = _
    rw [hc.tdErrorGoal]
  · simp [tdUpdate, decayedTrace, hs.weights_len, hs.trace_len, hi.previous_len]
  · simp [tdUpdate, decayedTrace, hs.actionWeights_len, hs.actionTrace_len,
      hi.previousAction_len]

/-- The terminal update on the concrete controller `demo` with final reward `5`. -/
theorem absorbReward_terminal_update_witness :
    ∃ wm', absorbReward demoSqrt2 demo 5 = some wm' ∧
      wm'.weights = tdUpdate demo.critic.alpha (5 - demo.previousValue) demo.weights
        (decayedTrace demo.critic.lambda demoSqrt2 demo.eligibilityTrace
          demo.previousStateWorkingMemory) ∧
      wm'.actionWeights = tdUpdate demo.critic.alpha (5 - demo.previousQValue)
        demo.actionWeights
        (decayedTrace demo.critic.lambda demoSqrt2 demo.actionEligibilityTrace
          demo.previousStateWorkingMemoryAction) ∧
      wm'.weights.length = demo.vectorSize ∧ wm'.actionWeights.length = demo.vectorSize :=
  absorbReward_terminal_update demoSqrt2 demo 5 demo_contract demo_sized demo_initialised

/-- C2. With an episode initialised and a critic that meets its documented
contract, `step(state, actions, reward)` updates the weights entry by entry as
`weights + alpha * (previousReward + discount * value - previousValue) * trace'`
and
`actionWeights + alpha * (previousReward + discount * qValue - previousQValue) * actionTrace'`,
where `value` and `qValue` are the values, under the weights before the
update, of the state+WM vector and of the chosen action's vector composed for
the newly chosen contents, `previousReward` is the stored reward (not the
argument `reward`), and `trace'` is the trace after this step's decay and
increment.  The selection phase produces contents `wm1` on the greedy branch
always and on the random branch whenever the draws suit the candidate list,
and for the contents it produces `step` returns with the weights so
updated. -/
theorem step_td_update (sqrt2 : α) (wm : WorkingMemory α) (state : String)
    (possibleActions : List String) (reward u : α) (draws : List Int)
    (hc : CriticContract wm.critic) (hwf : WellFormed wm) (hi : EpisodeInitialised wm)
    (hstate : wm.hrrengine.explode state '+' ≠ []) :
    ((¬ u < wm.critic.epsilon ∨
        validDraws wm.workingMemoryChunks.length (withState wm state).stepCandidates.length
          draws = true) →
      ∃ wm1, stepSelect sqrt2 wm state u draws = some wm1) ∧
    ∀ wm1, stepSelect sqrt2 wm state u draws = some wm1 →
      ∃ action wm' representation actionVector value qValue,
        step sqrt2 wm state possibleActions reward u draws = some (action, wm') ∧
        wm1.stateAndWorkingMemoryRepresentation = some representation ∧
        wm1.findMostValuableAction possibleActions = some (action, actionVector) ∧
        value = wm.critic.V representation wm.weights ∧
        qValue = wm.critic.V actionVector wm.actionWeights ∧
        wm'.weights = tdUpdate wm.critic.alpha
          (wm.previousReward + wm.critic.discount * value - wm.previousValue) wm.weights
          (decayedTrace wm.critic.lambda sqrt2 wm.eligibilityTrace
            wm.previousStateWorkingMemory) ∧
        wm'.actionWeights = tdUpdate wm.critic.alpha
          (wm.previousReward + wm.critic.discount * qValue - wm.previousQValue)
          wm.actionWeights
          (decayedTrace wm.critic.lambda sqrt2 wm.actionEligibilityTrace
            wm.previousStateWorkingMemoryAction) := by
  refine ⟨stepSelect_returns sqrt2 wm state u draws hwf hi hstate, ?_⟩
  intro wm1 hsel
  obtain ⟨rep, act, hrep, hact, -, -, hstep⟩ :=
    step_spec sqrt2 wm wm1 state possibleActions reward u draws hwf hstate hsel
  refine ⟨_, _, rep, act.2, _, _, hstep, hrep, hact, rfl, rfl, ?_, ?_⟩
  · show tdUpdate _ (wm.critic.TDError _ _ _) _ _ = _
    rw [hc.tdError]
  · show tdUpdate _ (wm.critic.TDError _ _ _) _ _ = _
    rw [hc.tdError]

/-- The update of `step` on the concrete controller `demo`, greedy branch. -/
theorem step_td_update_witness :
    ∃ wm1, stepSelect demoSqrt2 demo "a+b" (1 / 2) [] = some wm1 ∧
    ∃ action wm' representation actionVector value qValue,
      step demoSqrt2 demo "a+b" ["x", "a"] 5 (1 / 2) [] = some (action, wm') ∧
      wm1.stateAndWorkingMemoryRepresentation = some representation ∧
      wm1.findMostValuableAction ["x", "a"] = some (action, actionVector) ∧
      value = demo.critic.V representation demo.weights ∧
      qValue = demo.critic.V actionVector demo.actionWeights ∧
      wm'.weights = tdUpdate demo.critic.alpha
        (demo.previousReward + demo.critic.discount * value - demo.previousValue)
        demo.weights
        (decayedTrace demo.critic.lambda demoSqrt2 demo.eligibilityTrace
          demo.previousStateWorkingMemory) ∧
      wm'.actionWeights = tdUpdate demo.critic.alpha
        (demo.previousReward + demo.critic.discount * qValue - demo.previousQValue)
        demo.actionWeights
        (decayedTrace demo.critic.lambda demoSqrt2 demo.actionEligibilityTrace
          demo.previousStateWorkingMemoryAction) :=
  ⟨_, (Option.some_get demo_select_isSome).symm,
    (step_td_update demoSqrt2 demo "a+b" ["x", "a"] 5 (1 / 2) [] demo_contract demo_wellFormed
      demo_initialised (by decide)).2 _ (Option.some_get demo_select_isSome).symm⟩

/-- C4. With an episode initialised, after `absorbReward` each eligibility
trace is `lambda * old_trace + previous_vector / sqrt(2)` at every index
below `vectorSize`, the state trace with the stored previous state+WM vector
and the action trace with the stored previous state+WM+action vector; the
same holds in `step`, both right after its two trace loops (in the controller
`wm1` handed to the rest of the call, which exists on the greedy branch and,
for suitable draws, on the random branch) and when it returns. -/
theorem trace_decay_and_increment (sqrt2 : α) (wm : WorkingMemory α) (hs : Sized wm)
    (hi : EpisodeInitialised wm) :
    (∀ reward, ∃ wm', absorbReward sqrt2 wm reward = some wm' ∧
      wm'.eligibilityTrace = decayedTrace wm.critic.lambda sqrt2 wm.eligibilityTrace
        wm.previousStateWorkingMemory ∧
      wm'.actionEligibilityTrace = decayedTrace wm.critic.lambda sqrt2
        wm.actionEligibilityTrace wm.previousStateWorkingMemoryAction ∧
      wm'.eligibilityTrace.length = wm.vectorSize ∧
      wm'.actionEligibilityTrace.length = wm.vectorSize) ∧
    (WellFormed wm → ∀ state possibleActions reward u draws,
      wm.hrrengine.explode state '+' ≠ [] →
      ((¬ u < wm.critic.epsilon ∨
          validDraws wm.workingMemoryChunks.length (withState wm state).stepCandidates.length
            draws = true) →
        ∃ wm1, stepSelect sqrt2 wm state u draws = some wm1) ∧
      ∀ wm1, stepSelect sqrt2 wm state u draws = some wm1 →
        ∃ action wm',
          step sqrt2 wm state possibleActions reward u draws = some (action, wm') ∧
          wm1.eligibilityTrace = decayedTrace wm.critic.lambda sqrt2 wm.eligibilityTrace
            wm.previousStateWorkingMemory ∧
          wm1.actionEligibilityTrace = decayedTrace wm.critic.lambda sqrt2
            wm.actionEligibilityTrace wm.previousStateWorkingMemoryAction ∧
          wm'.eligibilityTrace = wm1.eligibilityTrace ∧
          wm'.actionEligibilityTrace = wm1.actionEligibilityTrace) := by
  have h1 : (decayedTrace wm.critic.lambda sqrt2 wm.eligibilityTrace
      wm.previousStateWorkingMemory).length = wm.vectorSize := by
    rw [decayedTrace_length _ _ _ _ (by rw [hs.trace_len]; exact hi.previous_len), hs.trace_len]
  have h2 : (decayedTrace wm.critic.lambda sqrt2 wm.actionEligibilityTrace
      wm.previousStateWorkingMemoryAction).length = wm.vectorSize := by
    rw [decayedTrace_length _ _ _ _ (by rw [hs.actionTrace_len]; exact hi.previousAction_len),
      hs.actionTrace_len]
  refine ⟨fun reward => ⟨_, absorbReward_eq sqrt2 wm reward hs hi, rfl, rfl, h1, h2⟩, ?_⟩
  intro hwf state possibleActions reward u draws hstate
  refine ⟨stepSelect_returns sqrt2 wm state u draws hwf hi hstate, ?_⟩
  intro wm1 hsel
  obtain ⟨rep, act, -, -, ht, hat, hstep⟩ :=
    step_spec sqrt2 wm wm1 state possibleActions reward u draws hwf hstate hsel
  exact ⟨_, _, hstep, ht, hat, rfl, rfl⟩

/-- The trace update on the concrete controller `demo`, for `absorbReward(5)` and for a
greedy `step`. -/
theorem trace_decay_and_increment_witness :
    (∃ wm', absorbReward demoSqrt2 demo 5 = some wm' ∧
      wm'.eligibilityTrace = decayedTrace demo.critic.lambda demoSqrt2 demo.eligibilityTrace
        demo.previousStateWorkingMemory ∧
      wm'.actionEligibilityTrace = decayedTrace demo.critic.lambda demoSqrt2
        demo.actionEligibilityTrace demo.previousStateWorkingMemoryAction ∧
      wm'.eligibilityTrace.length = demo.vectorSize ∧
      wm'.actionEligibilityTrace.length = demo.vectorSize) ∧
    ∃ wm1, stepSelect demoSqrt2 demo "a+b" (1 / 2) [] = some wm1 ∧
      ∃ action wm',
        step demoSqrt2 demo "a+b" ["x", "a"] 5 (1 / 2) [] = some (action, wm') ∧
        wm1.eligibilityTrace = decayedTrace demo.critic.lambda demoSqrt2
          demo.eligibilityTrace demo.previousStateWorkingMemory ∧
        wm1.actionEligibilityTrace = decayedTrace demo.critic.lambda demoSqrt2
          demo.actionEligibilityTrace demo.previousStateWorkingMemoryAction ∧
        wm'.eligibilityTrace = wm1.eligibilityTrace ∧
        wm'.actionEligibilityTrace = wm1.actionEligibilityTrace :=
  ⟨(trace_decay_and_increment demoSqrt2 demo demo_sized demo_initialised).1 5,
    _, (Option.some_get demo_select_isSome).symm,
    ((trace_decay_and_increment demoSqrt2 demo demo_sized demo_initialised).2 demo_wellFormed
      "a+b" ["x", "a"] 5 (1 / 2) [] (by decide)).2 _
      (Option.some_get demo_select_isSome).symm⟩

end Updates

/-! ## The exhaustive search for the most valuable chunks -/

section Search

open WorkingMemory

variable {α : Type} [LinearOrderedField α]

theorem enumeration_score (wm : WorkingMemory α) (hwf : WellFormed wm)
    (hs : wm.hrrengine.explode wm.state '+' ≠ []) (cand : List String) (c : List String)
    (hc : c ∈ enumeration wm.workingMemoryChunks.length cand) :
    wm.findValueOfContents c = some (score wm c) := by
  have hN : 0 < wm.workingMemoryChunks.length := List.length_pos.mpr hwf.slots
  apply findValueOfContents_eq_score wm hwf hs
  intro h0
  rcases List.mem_cons.mp hc with h | h
  · rw [h0] at h
    have := congrArg List.length h
    simp only [List.length_replicate, List.length_nil] at this
    omega
  · obtain ⟨sub, -, h1, h2, h3⟩ := (mem_configurationsFrom _ cand _ 1 c).mp h
    have hle : sub.length ≤ wm.workingMemoryChunks.length := by
      have := Nat.min_le_left wm.workingMemoryChunks.length cand.length
      omega
    have := padded_length _ sub hle
    rw [← h3, h0] at this
    simp only [List.length_nil] at this
    omega

theorem findMostValuableChunks_first_max (wm : WorkingMemory α) (hwf : WellFormed wm)
    (hs : wm.hrrengine.explode wm.state '+' ≠ []) (cand : List String) :
    ∃ before best after,
      enumeration wm.workingMemoryChunks.length cand = before ++ best :: after ∧
      wm.findMostValuableChunks cand = some (withMemory wm (best, score wm best)) ∧
      (∀ c ∈ before, score wm c < score wm best) ∧ ∀ c ∈ after, score wm c ≤ score wm best := by
  obtain ⟨l1, x, l2, h1, h2, h3, h4⟩ := foldl_pick_first_max (score wm)
    (List.replicate wm.workingMemoryChunks.length "I")
    (configurationsFrom wm.workingMemoryChunks.length cand
      (min wm.workingMemoryChunks.length cand.length) 1)
  refine ⟨l1, x, l2, h1, ?_, h3, h4⟩
  rw [findMostValuableChunks_eq wm hwf hs cand, h2]

/-- C5. For every candidate list (in particular every sorted, duplicate-free
one) and a working memory of `N >= 1` slots, `findMostValuableChunks` returns
and the configuration it leaves is the all-empty one or a selection of
`1 .. min N n` candidates in candidate order padded with `"I"`; its score
(`findValueOfContents`) is at least the score of the all-empty configuration
and of every such padded selection: the search returns a maximum over all of
them. -/
theorem search_is_exhaustive (wm : WorkingMemory α) (hwf : WellFormed wm)
    (hs : wm.hrrengine.explode wm.state '+' ≠ []) (cand : List String) :
    ∃ wm' best, wm.findMostValuableChunks cand = some wm' ∧
      wm'.findValueOfContents wm'.workingMemoryChunks = some best ∧
      (wm'.workingMemoryChunks = List.replicate wm.workingMemoryChunks.length "I" ∨
        ∃ sub, sub.Sublist cand ∧ 1 ≤ sub.length ∧
          sub.length ≤ min wm.workingMemoryChunks.length cand.length ∧
          wm'.workingMemoryChunks = padded wm.workingMemoryChunks.length sub) ∧
      (∃ base, wm'.findValueOfContents (List.replicate wm.workingMemoryChunks.length "I") =
          some base ∧ base ≤ best) ∧
      ∀ sub, sub.Sublist cand → 1 ≤ sub.length →
        sub.length ≤ min wm.workingMemoryChunks.length cand.length →
        ∃ v, wm'.findValueOfContents (padded wm.workingMemoryChunks.length sub) = some v ∧
          v ≤ best := by
  obtain ⟨before, best, after, henum, hres, hlt, hle⟩ :=
    findMostValuableChunks_first_max wm hwf hs cand
  have hmemBest : best ∈ enumeration wm.workingMemoryChunks.length cand := by
    rw [henum]; simp
  have hmax : ∀ c ∈ enumeration wm.workingMemoryChunks.length cand,
      score wm c ≤ score wm best := by
    intro c hc
    rw [henum] at hc
    rcases List.mem_append.mp hc with h | h
    · exact le_of_lt (hlt c h)
    · rcases List.mem_cons.mp h with h | h
      · rw [h]
      · exact hle c h
  refine ⟨_, score wm best, hres, enumeration_score wm hwf hs cand best hmemBest, ?_, ?_, ?_⟩
  · rcases List.mem_cons.mp hmemBest with h | h
    · exact Or.inl h
    · obtain ⟨sub, h0, h1, h2, h3⟩ := (mem_configurationsFrom _ cand _ 1 best).mp h
      exact Or.inr ⟨sub, sublist_of_mem_combinations _ cand sub h0, h1, by omega, h3⟩
  · have hmem : List.replicate wm.workingMemoryChunks.length "I" ∈
        enumeration wm.workingMemoryChunks.length cand := List.mem_cons_self _ _
    exact ⟨_, enumeration_score wm hwf hs cand _ hmem, hmax _ hmem⟩
  · intro sub hsub h1 h2
    have hmem : padded wm.workingMemoryChunks.length sub ∈
        enumeration wm.workingMemoryChunks.length cand := by
      refine List.mem_cons_of_mem _ ((mem_configurationsFrom _ cand _ 1 _).mpr ?_)
      exact ⟨sub, mem_combinations_of_sublist cand sub hsub, h1, by omega, rfl⟩
    exact ⟨_, enumeration_score wm hwf hs cand _ hmem, hmax _ hmem⟩

/-- The exhaustive search on the concrete controller `demo` with three candidates. -/
theorem search_is_exhaustive_witness :
    ∃ wm' best, demo.findMostValuableChunks ["a", "b", "c"] = some wm' ∧
      wm'.findValueOfContents wm'.workingMemoryChunks = some best ∧
      (wm'.workingMemoryChunks = List.replicate demo.workingMemoryChunks.length "I" ∨
        ∃ sub, sub.Sublist ["a", "b", "c"] ∧ 1 ≤ sub.length ∧
          sub.length ≤ min demo.workingMemoryChunks.length ["a", "b", "c"].length ∧
          wm'.workingMemoryChunks = padded demo.workingMemoryChunks.length sub) ∧
      (∃ base, wm'.findValueOfContents (List.replicate demo.workingMemoryChunks.length "I") =
          some base ∧ base ≤ best) ∧
      ∀ sub, sub.Sublist ["a", "b", "c"] → 1 ≤ sub.length →
        sub.length ≤ min demo.workingMemoryChunks.length ["a", "b", "c"].length →
        ∃ v, wm'.findValueOfContents (padded demo.workingMemoryChunks.length sub) = some v ∧
          v ≤ best :=
  search_is_exhaustive demo demo_wellFormed (by decide) ["a", "b", "c"]

/-- C6. For every candidate list and every weight vector,
`findMostValuableChunks` returns and never leaves a configuration whose score
is less than the score of the all-empty configuration; the weights it scores
with are left as they were. -/
theorem search_not_below_baseline (wm : WorkingMemory α) (hwf : WellFormed wm)
    (hs : wm.hrrengine.explode wm.state '+' ≠ []) (cand : List String) :
    ∃ wm' best base, wm.findMostValuableChunks cand = some wm' ∧
      wm'.weights = wm.weights ∧
      wm'.findValueOfContents wm'.workingMemoryChunks = some best ∧
      wm'.findValueOfContents (List.replicate wm'.workingMemoryChunks.length "I") =
        some base ∧
      base ≤ best := by
  obtain ⟨before, best, after, henum, hres, hlt, hle⟩ :=
    findMostValuableChunks_first_max wm hwf hs cand
  have hmemBest : best ∈ enumeration wm.workingMemoryChunks.length cand := by
    rw [henum]; simp
  have hmemBase : List.replicate wm.workingMemoryChunks.length "I" ∈
      enumeration wm.workingMemoryChunks.length cand := List.mem_cons_self _ _
  have hlen : best.length = wm.workingMemoryChunks.length := by
    have hframe := findMostValuableChunks_frame wm _ cand hres
    obtain ⟨chunks, value, heq, hl⟩ := hframe
    have : best = chunks := congrArg WorkingMemory.workingMemoryChunks heq
    rw [this, hl]
  refine ⟨_, score wm best, score wm (List.replicate wm.workingMemoryChunks.length "I"), hres,
    rfl, enumeration_score wm hwf hs cand best hmemBest, ?_, ?_⟩
  · show wm.findValueOfContents (List.replicate best.length "I") = _
    rw [hlen]
    exact enumeration_score wm hwf hs cand _ hmemBase
  · rw [henum] at hmemBase
    rcases List.mem_append.mp hmemBase with h | h
    · exact le_of_lt (hlt _ h)
    · rcases List.mem_cons.mp h with h | h
      · rw [h]
      · exact hle _ h

/-- The search on the concrete controller `demo` with two candidates. -/
theorem search_not_below_baseline_witness :
    ∃ wm' best base, demo.findMostValuableChunks ["a", "c"] = some wm' ∧
      wm'.weights = demo.weights ∧
      wm'.findValueOfContents wm'.workingMemoryChunks = some best ∧
      wm'.findValueOfContents (List.replicate wm'.workingMemoryChunks.length "I") =
        some base ∧
      base ≤ best :=
  search_not_below_baseline demo demo_wellFormed (by decide) ["a", "c"]

/-- C7. `findMostValuableChunks` resolves ties in favour of the earliest
enumerated configuration: in the enumeration order (all-empty configuration
first, then selections by increasing size, within one size in lexicographic
order of candidate positions) every configuration before the one it leaves
scores strictly less and every configuration after it scores at most as much;
in particular, when no configuration scores strictly more than the all-empty
one, the working memory is left all `"I"`. -/
theorem search_keeps_first_maximum (wm : WorkingMemory α) (hwf : WellFormed wm)
    (hs : wm.hrrengine.explode wm.state '+' ≠ []) (cand : List String) :
    ∃ wm' before after, wm.findMostValuableChunks cand = some wm' ∧
      enumeration wm.workingMemoryChunks.length cand =
        before ++ wm'.workingMemoryChunks :: after ∧
      (∀ c ∈ enumeration wm.workingMemoryChunks.length cand,
        wm'.findValueOfContents c = some (score wm c)) ∧
      (∀ c ∈ before, score wm c < score wm wm'.workingMemoryChunks) ∧
      (∀ c ∈ after, score wm c ≤ score wm wm'.workingMemoryChunks) ∧
      ((∀ c ∈ enumeration wm.workingMemoryChunks.length cand,
          score wm c ≤ score wm (List.replicate wm.workingMemoryChunks.length "I")) →
        wm'.workingMemoryChunks = List.replicate wm.workingMemoryChunks.length "I") := by
  obtain ⟨before, best, after, henum, hres, hlt, hle⟩ :=
    findMostValuableChunks_first_max wm hwf hs cand
  refine ⟨_, before, after, hres, henum,
    fun c hc => enumeration_score wm hwf hs cand c hc, hlt, hle, ?_⟩
  intro hall
  show best = _
  cases before with
  | nil =>
    have := henum
    simp only [enumeration, List.nil_append, List.cons.injEq] at this
    exact this.1.symm
  | cons b before =>
    have hb : b = List.replicate wm.workingMemoryChunks.length "I" := by
      have := henum
      simp only [enumeration, List.cons_append, List.cons.injEq] at this
      exact this.1.symm
    have h1 := hlt b (List.mem_cons_self _ _)
    have h2 := hall best (by rw [henum]; simp)
    rw [hb] at h1
    exact absurd h1 (not_lt.mpr h2)

/-- The tie rule on the concrete controller `demo` with two candidates. -/
theorem search_keeps_first_maximum_witness :
    ∃ wm' before after, demo.findMostValuableChunks ["a", "b"] = some wm' ∧
      enumeration demo.workingMemoryChunks.length ["a", "b"] =
        before ++ wm'.workingMemoryChunks :: after ∧
      (∀ c ∈ enumeration demo.workingMemoryChunks.length ["a", "b"],
        wm'.findValueOfContents c = some (score demo c)) ∧
      (∀ c ∈ before, score demo c < score demo wm'.workingMemoryChunks) ∧
      (∀ c ∈ after, score demo c ≤ score demo wm'.workingMemoryChunks) ∧
      ((∀ c ∈ enumeration demo.workingMemoryChunks.length ["a", "b"],
          score demo c ≤ score demo (List.replicate demo.workingMemoryChunks.length "I")) →
        wm'.workingMemoryChunks = List.replicate demo.workingMemoryChunks.length "I") :=
  search_keeps_first_maximum demo demo_wellFormed (by decide) ["a", "b"]

end Search

/-! ## Action selection -/

section Actions

open WorkingMemory

variable {α : Type} [LinearOrderedField α]

theorem foldl_actionStep (wm : WorkingMemory α) (rep : HRR α) :
    ∀ (l : List String) (best : String × HRR α × α),
      (l.foldl (wm.actionStep rep) best = best ∧
        l.foldl (pick (actionValue wm rep)) (best.1, best.2.2) = (best.1, best.2.2)) ∨
      ∃ a, l.foldl (wm.actionStep rep) best =
          (a, wm.hrrengine.convolveHRRs (wm.hrrengine.query a) rep, actionValue wm rep a) ∧
        l.foldl (pick (actionValue wm rep)) (best.1, best.2.2) = (a, actionValue wm rep a)
  | [], best => Or.inl ⟨rfl, rfl⟩
  | a :: l, best => by
    by_cases hgt : actionValue wm rep a > best.2.2
    · have h1 : wm.actionStep rep best a =
          (a, wm.hrrengine.convolveHRRs (wm.hrrengine.query a) rep, actionValue wm rep a) := by
        have hgt' := hgt
        unfold actionValue at hgt'
        simp only [actionStep, hgt', if_true]
        rfl
      have h2 : pick (actionValue wm rep) (best.1, best.2.2) a = (a, actionValue wm rep a) := by
        simp [pick, hgt]
      rw [List.foldl_cons, List.foldl_cons, h1, h2]
      rcases foldl_actionStep wm rep l
        (a, wm.hrrengine.convolveHRRs (wm.hrrengine.query a) rep, actionValue wm rep a) with
        ⟨h3, h4⟩ | ⟨b, h3, h4⟩
      · exact Or.inr ⟨a, h3, h4⟩
      · exact Or.inr ⟨b, h3, h4⟩
    · have h1 : wm.actionStep rep best a = best := by
        have hgt' := hgt
        unfold actionValue at hgt'
        simp only [actionStep, hgt', if_false]
      have h2 : pick (actionValue wm rep) (best.1, best.2.2) a = (best.1, best.2.2) := by
        simp [pick, hgt]
      rw [List.foldl_cons, List.foldl_cons, h1, h2]
      exact foldl_actionStep wm rep l best

/-- When some action is valued above the initial `bestValue = -999`, the
action returned is the first one of the list attaining the maximum value, and
the vector returned with it is that action's composed vector. -/
theorem findMostValuableAction_first_max (wm : WorkingMemory α) (rep : HRR α)
    (hrep : wm.stateAndWorkingMemoryRepresentation = some rep) (actions : List String)
    (hsome : ∃ a ∈ actions, -999 < actionValue wm rep a) :
    ∃ l1 a l2, actions = l1 ++ a :: l2 ∧
      wm.findMostValuableAction actions =
        some (a, wm.hrrengine.convolveHRRs (wm.hrrengine.query a) rep) ∧
      (∀ y ∈ l1, actionValue wm rep y < actionValue wm rep a) ∧
      ∀ y ∈ l2, actionValue wm rep y ≤ actionValue wm rep a := by
  rcases foldl_pick_spec (actionValue wm rep) actions ("", -999) with
    ⟨-, h2⟩ | ⟨l1, x, l2, h1, h2, h3, h4, h5⟩
  · obtain ⟨a, ha, hv⟩ := hsome
    exact absurd hv (not_lt.mpr (h2 a ha))
  · refine ⟨l1, x, l2, h1, ?_, h4, h5⟩
    rcases foldl_actionStep wm rep actions ("", [], -999) with ⟨-, h7⟩ | ⟨b, h6, h7⟩
    · rw [h2] at h7
      have := congrArg Prod.snd h7
      simp only at this
      rw [this] at h3
      exact absurd h3 (lt_irrefl _)
    · rw [h2] at h7
      have hb : x = b := congrArg Prod.fst h7
      subst hb
      simp only [findMostValuableAction, hrep, Option.map_some', h6]

/-- C1 (failing input). With action weights `[-1000, 0]` the only action
`"x"` has value `-2000`, which is not above the initial `bestValue = -999`:
`findMostValuableAction(["x"])` returns the empty name and the empty vector,
although the list is not empty.  The same happens through the public calls
alone: after `initializeEpisode`, `absorbReward(-5000)` and a second
`initializeEpisode` on a freshly constructed controller, the action returned
is `""`, which is not an element of `["x"]`. -/
theorem action_below_initial_best_value :
    actionValue demoLearned [1, 1] "x" = -2000 ∧
    demoLearned.stateAndWorkingMemoryRepresentation = some [1, 1] ∧
    demoLearned.findMostValuableAction ["x"] = some ("", []) ∧
    (((initializeEpisode demoFresh "s" ["x"] 0 (1 / 2) []).bind fun r =>
        absorbReward demoSqrt2 r.2 (-5000)).bind fun wm =>
        (initializeEpisode wm "s" ["x"] 0 (1 / 2) []).map fun r =>
          (r.1, r.2.previousStateWorkingMemoryAction)) = some ("", []) := by
  decide!

end Actions

/-! ## Episode protocol, empty action lists and the epsilon-soft choice -/

section Protocol

open WorkingMemory

variable {α : Type} [LinearOrderedField α]

/-- C10. One uniform draw `u` decides the selection in every
`initializeEpisode` and `step` call: when `u < epsilon` the call continues
with the contents of `chooseRandomWorkingMemoryContents`, otherwise with the
contents of `findMostValuableChunks`; consequently with `epsilon = 0` and a
draw `u >= 0` every call is greedy. -/
theorem epsilon_soft_selection (sqrt2 : α) (wm : WorkingMemory α) (state : String)
    (possibleActions : List String) (reward u : α) (draws : List Int) :
    (u < wm.critic.epsilon →
      initializeEpisode wm state possibleActions reward u draws =
        (((cleared wm state).chooseRandomWorkingMemoryContents
          (sortStrings (cleared wm state).getCandidateChunksFromState) draws).bind fun r =>
            r.1.initializeEpisodeFinish possibleActions reward) ∧
      step sqrt2 wm state possibleActions reward u draws =
        ((updateTraces sqrt2 wm).bind fun w =>
          ((withState w state).chooseRandomWorkingMemoryContents
            (withState w state).stepCandidates draws).bind fun r =>
              r.1.stepFinish possibleActions reward)) ∧
    (¬ u < wm.critic.epsilon →
      initializeEpisode wm state possibleActions reward u draws =
        (((cleared wm state).findMostValuableChunks
          (sortStrings (cleared wm state).getCandidateChunksFromState)).bind fun w =>
            w.initializeEpisodeFinish possibleActions reward) ∧
      step sqrt2 wm state possibleActions reward u draws =
        ((updateTraces sqrt2 wm).bind fun w =>
          ((withState w state).findMostValuableChunks
            (withState w state).stepCandidates).bind fun w =>
              w.stepFinish possibleActions reward)) ∧
    (wm.critic.epsilon = 0 → 0 ≤ u →
      initializeEpisode wm state possibleActions reward u draws =
        (((cleared wm state).findMostValuableChunks
          (sortStrings (cleared wm state).getCandidateChunksFromState)).bind fun w =>
            w.initializeEpisodeFinish possibleActions reward) ∧
      step sqrt2 wm state possibleActions reward u draws =
        ((updateTraces sqrt2 wm).bind fun w =>
          ((withState w state).findMostValuableChunks
            (withState w state).stepCandidates).bind fun w =>
              w.stepFinish possibleActions reward)) := by
  have hcritic : ∀ w, updateTraces sqrt2 wm = some w → w.critic = wm.critic := by
    intro w hw
    simp only [updateTraces, Option.bind_eq_some, Option.map_eq_some'] at hw
    obtain ⟨t, -, t2, -, rfl⟩ := hw
    rfl
  have hgreedy : ¬ u < wm.critic.epsilon →
      initializeEpisode wm state possibleActions reward u draws =
        (((cleared wm state).findMostValuableChunks
          (sortStrings (cleared wm state).getCandidateChunksFromState)).bind fun w =>
            w.initializeEpisodeFinish possibleActions reward) ∧
      step sqrt2 wm state possibleActions reward u draws =
        ((updateTraces sqrt2 wm).bind fun w =>
          ((withState w state).findMostValuableChunks
            (withState w state).stepCandidates).bind fun w =>
              w.stepFinish possibleActions reward) := by
    intro hu
    constructor
    · simp only [initializeEpisode, initializeEpisodeSelect, if_neg hu, cleared]
    · simp only [step, stepSelect, withState]
      cases htr : updateTraces sqrt2 wm with
      | none => rfl
      | some w =>
        have hw : ¬ u < w.critic.epsilon := by rw [hcritic w htr]; exact hu
        simp only [Option.some_bind, if_neg hw]
  refine ⟨?_, hgreedy, ?_⟩
  · intro hu
    constructor
    · simp only [initializeEpisode, initializeEpisodeSelect, if_pos hu, cleared,
        Option.bind_map, Function.comp_def]
    · simp only [step, stepSelect, withState]
      cases htr : updateTraces sqrt2 wm with
      | none => rfl
      | some w =>
        have hw : u < w.critic.epsilon := by rw [hcritic w htr]; exact hu
        simp only [Option.some_bind, if_pos hw, Option.bind_map, Function.comp_def]
  · intro h0 hu
    exact hgreedy (by rw [h0]; exact not_lt.mpr hu)

theorem absorbReward_keeps_shape (sqrt2 : α) (wm : WorkingMemory α) (finalReward : α)
    (hwf : WellFormed wm) (hi : EpisodeInitialised wm) :
    ∃ wmA, absorbReward sqrt2 wm finalReward = some wmA ∧ WellFormed wmA ∧
      EpisodeInitialised wmA ∧ wmA.hrrengine = wm.hrrengine ∧ wmA.critic = wm.critic := by
  have hwt := hwf.with_traces hi sqrt2
  refine ⟨_, absorbReward_eq sqrt2 wm finalReward hwf.sized hi, ?_, ⟨hi.previous_len,
    hi.previousAction_len⟩, rfl, rfl⟩
  refine ⟨hwf.slots, ⟨?_, ?_, hwt.sized.trace_len, hwt.sized.actionTrace_len⟩, hwf.perm_len,
    hwf.perm_lt, hwf.query_len, hwf.conv_len⟩
  · have := hwt.sized.trace_len
    simp only at this
    simp [tdUpdate, hwf.sized.weights_len, this]
  · have := hwt.sized.actionTrace_len
    simp only at this
    simp [tdUpdate, hwf.sized.actionWeights_len, this]

/-- C8 (counterexample). A freshly constructed controller runs
`initializeEpisode`, then `absorbReward(1)`, then `step` with no intervening
`initializeEpisode`: the step is not rejected, it returns the action `"x"`
and changes the weights, the action weights, the eligibility trace and the
working memory. -/
theorem step_after_absorbReward_is_performed :
    ((initializeEpisode demoFresh "s" ["x"] 0 (1 / 2) []).bind fun r =>
      (absorbReward demoSqrt2 r.2 1).bind fun wmA =>
        (step demoSqrt2 wmA "s" ["x"] 0 (1 / 2) []).map fun r =>
          (r.1, decide (r.2.weights = wmA.weights),
            decide (r.2.actionWeights = wmA.actionWeights),
            decide (r.2.eligibilityTrace = wmA.eligibilityTrace),
            decide (r.2.workingMemoryChunks = wmA.workingMemoryChunks))) =
      some ("x", false, false, false, false) := by
  decide!

/-- C8 (amended). The controller keeps no record of the episode state and
`step` has no guard.  With an episode initialised (and a critic that meets
its documented contract), after `absorbReward(finalReward)` the controller is
still well formed with an episode initialised, and a `step` issued directly
afterwards is performed:
its selection phase produces contents on the greedy branch always and on the
random branch whenever the draws suit the candidate list, and for the
contents it produces `step` returns an action, applies the decay
and increment to both traces from the vectors stored before `absorbReward`,
and applies the TD update to both weight vectors. -/
theorem step_has_no_episode_guard (sqrt2 : α) (wm : WorkingMemory α) (finalReward : α)
    (hc : CriticContract wm.critic) (hwf : WellFormed wm) (hi : EpisodeInitialised wm) :
    ∃ wmA, absorbReward sqrt2 wm finalReward = some wmA ∧ WellFormed wmA ∧
      EpisodeInitialised wmA ∧
      ∀ state possibleActions reward u draws, wm.hrrengine.explode state '+' ≠ [] →
        ((¬ u < wm.critic.epsilon ∨
            validDraws wmA.workingMemoryChunks.length
              (withState wmA state).stepCandidates.length draws = true) →
          ∃ wm1, stepSelect sqrt2 wmA state u draws = some wm1) ∧
        ∀ wm1, stepSelect sqrt2 wmA state u draws = some wm1 →
          ∃ action wm',
            step sqrt2 wmA state possibleActions reward u draws = some (action, wm') ∧
            wm'.eligibilityTrace = decayedTrace wmA.critic.lambda sqrt2 wmA.eligibilityTrace
              wm.previousStateWorkingMemory ∧
            wm'.actionEligibilityTrace = decayedTrace wmA.critic.lambda sqrt2
              wmA.actionEligibilityTrace wm.previousStateWorkingMemoryAction ∧
            wm'.weights = tdUpdate wmA.critic.alpha
              (wmA.previousReward +
                wmA.critic.discount * wmA.critic.V wm'.previousStateWorkingMemory wmA.weights -
                wmA.previousValue) wmA.weights wm'.eligibilityTrace ∧
            wm'.actionWeights = tdUpdate wmA.critic.alpha
              (wmA.previousReward +
                wmA.critic.discount *
                  wmA.critic.V wm'.previousStateWorkingMemoryAction wmA.actionWeights -
                wmA.previousQValue) wmA.actionWeights wm'.actionEligibilityTrace := by
  obtain ⟨wmA, hA, hwfA, hiA, hengine, hcritic⟩ :=
    absorbReward_keeps_shape sqrt2 wm finalReward hwf hi
  have hprev : wmA.previousStateWorkingMemory = wm.previousStateWorkingMemory ∧
      wmA.previousStateWorkingMemoryAction = wm.previousStateWorkingMemoryAction := by
    have h := absorbReward_eq sqrt2 wm finalReward hwf.sized hi
    rw [hA] at h
    have h' := Option.some.inj h
    rw [h']
    exact ⟨rfl, rfl⟩
  refine ⟨wmA, hA, hwfA, hiA, ?_⟩
  intro state possibleActions reward u draws hstate
  have hstateA : wmA.hrrengine.explode state '+' ≠ [] := by rw [hengine]; exact hstate
  constructor
  · intro hu
    exact stepSelect_returns sqrt2 wmA state u draws hwfA hiA hstateA
      (by rw [hcritic]; exact hu)
  · intro wm1 hsel
    obtain ⟨rep, act, -, -, ht, hat, hstep⟩ :=
      step_spec sqrt2 wmA wm1 state possibleActions reward u draws hwfA hstateA hsel
    refine ⟨_, _, hstep, ?_, ?_, ?_, ?_⟩
    · show wm1.eligibilityTrace = _
      rw [ht, hprev.1]
    · show wm1.actionEligibilityTrace = _
      rw [hat, hprev.2]
    · show tdUpdate _ (wmA.critic.TDError _ _ _) _ _ = tdUpdate _ _ _ wm1.eligibilityTrace
      rw [ht, hcritic, hc.tdError]
    · show tdUpdate _ (wmA.critic.TDError _ _ _) _ _ =
        tdUpdate _ _ _ wm1.actionEligibilityTrace
      rw [hat, hcritic, hc.tdError]

/-- A greedy `step` right after `absorbReward(5)` on the concrete controller `demo`. -/
theorem step_has_no_episode_guard_witness :
    ∃ wmA, absorbReward demoSqrt2 demo 5 = some wmA ∧ WellFormed wmA ∧
      EpisodeInitialised wmA ∧
      ∃ wm1, stepSelect demoSqrt2 wmA "s" (1 / 2) [] = some wm1 ∧
        ∃ action wm',
          step demoSqrt2 wmA "s" ["x"] 0 (1 / 2) [] = some (action, wm') ∧
          wm'.eligibilityTrace = decayedTrace wmA.critic.lambda demoSqrt2
            wmA.eligibilityTrace demo.previousStateWorkingMemory ∧
          wm'.actionEligibilityTrace = decayedTrace wmA.critic.lambda demoSqrt2
            wmA.actionEligibilityTrace demo.previousStateWorkingMemoryAction ∧
          wm'.weights = tdUpdate wmA.critic.alpha
            (wmA.previousReward +
              wmA.critic.discount * wmA.critic.V wm'.previousStateWorkingMemory wmA.weights -
              wmA.previousValue) wmA.weights wm'.eligibilityTrace ∧
          wm'.actionWeights = tdUpdate wmA.critic.alpha
            (wmA.previousReward +
              wmA.critic.discount *
                wmA.critic.V wm'.previousStateWorkingMemoryAction wmA.actionWeights -
              wmA.previousQValue) wmA.actionWeights wm'.actionEligibilityTrace := by
  obtain ⟨wmA, hA, hwfA, hiA, h⟩ :=
    step_has_no_episode_guard demoSqrt2 demo 5 demo_contract demo_wellFormed demo_initialised
  obtain ⟨hsome, hall⟩ := h "s" ["x"] 0 (1 / 2) [] (by decide)
  obtain ⟨wm1, hsel⟩ := hsome (Or.inl (by decide!))
  exact ⟨wmA, hA, hwfA, hiA, wm1, hsel, hall wm1 hsel⟩

/-- C9 (counterexample). With an empty list of possible actions nothing
fails: `findMostValuableAction`, `initializeEpisode` and `step` all return,
with the empty name `""` as action and the empty vector as action vector. -/
theorem empty_action_list_does_not_fail :
    demo.findMostValuableAction [] = some ("", []) ∧
    ((initializeEpisode demo "s" [] 0 (1 / 2) []).map fun r =>
      (r.1, r.2.previousStateWorkingMemoryAction)) = some ("", []) ∧
    ((step demoSqrt2 demo "s" [] 0 (1 / 2) []).map fun r =>
      (r.1, r.2.previousStateWorkingMemoryAction)) = some ("", []) := by
  decide!

/-- C9 (amended). When the list of possible actions is empty, action
selection does not fail: `findMostValuableAction` returns the
default-constructed pair, the empty name `""` with the empty vector, and
`initializeEpisode` and `step` return `""` and store the empty vector as the
previous state+WM+action vector. -/
theorem empty_action_list_returns_default (wm : WorkingMemory α) (hwf : WellFormed wm)
    (hs : wm.hrrengine.explode wm.state '+' ≠ []) :
    wm.findMostValuableAction [] = some ("", []) ∧
    (∀ state reward u draws wm1, wm.hrrengine.explode state '+' ≠ [] →
      initializeEpisodeSelect wm state u draws = some wm1 →
      ∃ wm', initializeEpisode wm state [] reward u draws = some ("", wm') ∧
        wm'.previousStateWorkingMemoryAction = []) ∧
    (∀ sqrt2 state reward u draws wm1, wm.hrrengine.explode state '+' ≠ [] →
      stepSelect sqrt2 wm state u draws = some wm1 →
      ∃ wm', step sqrt2 wm state [] reward u draws = some ("", wm') ∧
        wm'.previousStateWorkingMemoryAction = []) := by
  refine ⟨?_, ?_, ?_⟩
  · obtain ⟨rep, hrep⟩ := stateAndWorkingMemoryRepresentation_eq_some wm hwf hs
    exact findMostValuableAction_nil wm rep hrep
  · intro state reward u draws wm1 hstate hsel
    have hsame := initializeEpisodeSelect_shape wm wm1 state u draws hsel
    have hwf1 : WellFormed wm1 := (hwf.with_state state).of_same hsame
    obtain ⟨chunks, cur, rfl, -⟩ := hsame
    obtain ⟨rep, act, hrep, hact, hfin⟩ := initializeEpisodeFinish_eq _ hwf1 hstate [] reward
    rw [findMostValuableAction_nil _ rep hrep] at hact
    have hact' := Option.some.inj hact
    subst hact'
    exact ⟨_, (initializeEpisode_eq_finish wm _ state [] reward u draws hsel).trans hfin, rfl⟩
  · intro sqrt2 state reward u draws wm1 hstate hsel
    obtain ⟨rep, act, hrep, hact, -, -, hstep⟩ :=
      step_spec sqrt2 wm wm1 state [] reward u draws hwf hstate hsel
    rw [findMostValuableAction_nil _ rep hrep] at hact
    have hact' := Option.some.inj hact
    subst hact'
    exact ⟨_, hstep, rfl⟩

/-- The empty action list on the concrete controller `demo`. -/
theorem empty_action_list_returns_default_witness :
    demo.findMostValuableAction [] = some ("", []) ∧
    (∃ wm1, initializeEpisodeSelect demo "s" (1 / 2) [] = some wm1 ∧
      ∃ wm', initializeEpisode demo "s" [] 0 (1 / 2) [] = some ("", wm') ∧
        wm'.previousStateWorkingMemoryAction = []) ∧
    (∃ wm1, stepSelect demoSqrt2 demo "s" (1 / 2) [] = some wm1 ∧
      ∃ wm', step demoSqrt2 demo "s" [] 0 (1 / 2) [] = some ("", wm') ∧
        wm'.previousStateWorkingMemoryAction = []) := by
  have h := empty_action_list_returns_default demo demo_wellFormed (by decide)
  obtain ⟨w1, h1⟩ := initializeEpisodeSelect_greedy demo "s" (1 / 2) [] demo_wellFormed
    (by decide) (by decide!)
  obtain ⟨w2, h2⟩ := stepSelect_greedy demoSqrt2 demo "s" (1 / 2) [] demo_wellFormed
    demo_initialised (by decide) (by decide!)
  exact ⟨h.1, ⟨w1, h1, h.2.1 "s" 0 (1 / 2) [] w1 (by decide) h1⟩,
    ⟨w2, h2, h.2.2 demoSqrt2 "s" 0 (1 / 2) [] w2 (by decide) h2⟩⟩

end Protocol

/-! ## Shape invariant and frame conditions of the three calls -/

section Frames

open WorkingMemory

variable {α : Type} [LinearOrderedField α]

theorem Shape.sized {N n : Nat} {wm : WorkingMemory α} (h : Shape N n wm) : Sized wm :=
  ⟨h.weights_len.trans h.size.symm, h.actionWeights_len.trans h.size.symm,
    h.trace_len.trans h.size.symm, h.actionTrace_len.trans h.size.symm⟩

/-- C11. A controller constructed with `numberOfChunks = N` and vector size
`n` has exactly `N` working-memory slots and weight vectors and eligibility
traces of exactly `n` entries, and every `initializeEpisode`, `step` and
`absorbReward` that returns, on the greedy or the random branch, leaves a
controller of the same shape.  The calls do return: `initializeEpisode` on a
well-formed controller, `step` and `absorbReward` with an episode
initialised (on the random branch, when the draws suit the candidate
list). -/
theorem shape_invariant (critic : CriticNetwork α) (hrrengine : HRREngine α)
    (learningRate discount lambda epsilon : α) (n N : Nat) (draw : Nat → α)
    (shuffle : List Nat → List Nat) (indeterminate : α) :
    Shape N n (construct critic hrrengine learningRate discount lambda epsilon n N draw shuffle
      indeterminate) ∧
    ∀ wm : WorkingMemory α, Shape N n wm →
      (∀ state actions reward u draws r,
        initializeEpisode wm state actions reward u draws = some r → Shape N n r.2) ∧
      (∀ sqrt2 state actions reward u draws r,
        step sqrt2 wm state actions reward u draws = some r → Shape N n r.2) ∧
      (∀ sqrt2 reward wm', absorbReward sqrt2 wm reward = some wm' → Shape N n wm') ∧
      (WellFormed wm → ∀ state actions reward u draws,
        wm.hrrengine.explode state '+' ≠ [] →
        (¬ u < wm.critic.epsilon ∨
          validDraws wm.workingMemoryChunks.length
            (sortStrings (cleared wm state).getCandidateChunksFromState).length draws = true) →
        ∃ r, initializeEpisode wm state actions reward u draws = some r) ∧
      (WellFormed wm → EpisodeInitialised wm → ∀ sqrt2 state actions reward u draws,
        wm.hrrengine.explode state '+' ≠ [] →
        (¬ u < wm.critic.epsilon ∨
          validDraws wm.workingMemoryChunks.length (withState wm state).stepCandidates.length
            draws = true) →
        ∃ r, step sqrt2 wm state actions reward u draws = some r) ∧
      (EpisodeInitialised wm → ∀ sqrt2 reward, ∃ wm', absorbReward sqrt2 wm reward = some wm') := by
  refine ⟨⟨by simp [construct], rfl, by simp [construct], by simp [construct],
    by simp [construct], by simp [construct]⟩, ?_⟩
  intro wm hsh
  refine ⟨?_, ?_, ?_, ?_, ?_, ?_⟩
  · intro state actions reward u draws r h
    obtain ⟨chunks, cur, rep, value, act, qValue, hr, hl⟩ :=
      initializeEpisode_shape wm state actions reward u draws r h
    rw [hr]
    exact ⟨hl.trans hsh.slots, hsh.size, hsh.weights_len, hsh.actionWeights_len,
      by simp [hsh.trace_len], by simp [hsh.actionTrace_len]⟩
  · intro sqrt2 state actions reward u draws r h
    obtain ⟨chunks, cur, w, w2, rep, value, act, qValue, hr, hl, hw, hw2, hi⟩ :=
      step_shape sqrt2 wm hsh.sized state actions reward u draws r h
    rw [hr]
    refine ⟨hl.trans hsh.slots, hsh.size, hw.trans hsh.weights_len,
      hw2.trans hsh.actionWeights_len, ?_, ?_⟩
    · show (decayedTrace _ _ _ _).length = n
      rw [decayedTrace_length _ _ _ _
        (by rw [hsh.trace_len, ← hsh.size]; exact hi.previous_len)]
      exact hsh.trace_len
    · show (decayedTrace _ _ _ _).length = n
      rw [decayedTrace_length _ _ _ _
        (by rw [hsh.actionTrace_len, ← hsh.size]; exact hi.previousAction_len)]
      exact hsh.actionTrace_len
  · intro sqrt2 reward wm' h
    obtain ⟨t, t2, w, w2, hr, ht, ht2, hw, hw2⟩ := absorbReward_shape sqrt2 wm wm' reward h
    rw [hr]
    exact ⟨hsh.slots, hsh.size, hw.trans hsh.weights_len, hw2.trans hsh.actionWeights_len,
      ht.trans hsh.trace_len, ht2.trans hsh.actionTrace_len⟩
  · intro hwf state actions reward u draws hstate hb
    exact initializeEpisode_returns wm state actions reward u draws hwf hstate hb
  · intro hwf hi sqrt2 state actions reward u draws hstate hb
    exact step_returns sqrt2 wm state actions reward u draws hwf hi hstate hb
  · intro hi sqrt2 reward
    exact ⟨_, absorbReward_eq sqrt2 wm reward hsh.sized hi⟩

/-- The shape along a run of the concrete constructor call: construction,
`initializeEpisode`, `step`, `absorbReward`. -/
theorem shape_invariant_witness :
    Shape 2 2 demoConstructed ∧
    ∃ r1, initializeEpisode demoConstructed "s" ["x"] 0 (1 / 2) [] = some r1 ∧
      Shape 2 2 r1.2 ∧
      ∃ r2, step demoSqrt2 r1.2 "a+b" ["x"] 1 (1 / 2) [] = some r2 ∧ Shape 2 2 r2.2 ∧
        ∃ wm3, absorbReward demoSqrt2 r2.2 1 = some wm3 ∧ Shape 2 2 wm3 := by
  have h := shape_invariant demoCritic demoEngine 1 1 (1 / 2) 0 2 2 demoDraw List.reverse 0
  have h1 : (initializeEpisode demoConstructed "s" ["x"] 0 (1 / 2) []).isSome = true := by
    decide!
  obtain ⟨r1, hr1⟩ := Option.isSome_iff_exists.mp h1
  have hs1 := (h.2 demoConstructed h.1).1 "s" ["x"] 0 (1 / 2) [] r1 hr1
  have h2 : ((initializeEpisode demoConstructed "s" ["x"] 0 (1 / 2) []).bind fun r =>
      step demoSqrt2 r.2 "a+b" ["x"] 1 (1 / 2) []).isSome = true := by
    decide!
  rw [hr1, Option.some_bind] at h2
  obtain ⟨r2, hr2⟩ := Option.isSome_iff_exists.mp h2
  have hs2 := (h.2 r1.2 hs1).2.1 demoSqrt2 "a+b" ["x"] 1 (1 / 2) [] r2 hr2
  have hi2 : EpisodeInitialised r2.2 := by
    have h3 : ((initializeEpisode demoConstructed "s" ["x"] 0 (1 / 2) []).bind fun r =>
        (step demoSqrt2 r.2 "a+b" ["x"] 1 (1 / 2) []).map fun r =>
          (decide (r.2.vectorSize ≤ r.2.previousStateWorkingMemory.length),
            decide (r.2.vectorSize ≤ r.2.previousStateWorkingMemoryAction.length))) =
        some (true, true) := by
      decide!
    rw [hr1, Option.some_bind, hr2, Option.map_some'] at h3
    simp only [Option.some.injEq, Prod.mk.injEq, decide_eq_true_eq] at h3
    exact ⟨h3.1, h3.2⟩
  obtain ⟨wm3, hr3⟩ := (h.2 r2.2 hs2).2.2.2.2.2 hi2 demoSqrt2 1
  exact ⟨h.1, r1, hr1, hs1, r2, hr2, hs2, wm3, hr3,
    (h.2 r2.2 hs2).2.2.1 demoSqrt2 1 wm3 hr3⟩

/-- C13. The call `absorbReward` performs no selection: whenever it returns,
the working-memory contents (also as `queryWorkingMemory` reports them), the
stored state text and all stored "previous" members are as before, and the
controller differs from the one before the call only in the two weight
vectors and the two eligibility traces.  With an episode initialised it does
return. -/
theorem absorbReward_frame (sqrt2 : α) (wm : WorkingMemory α) (reward : α) :
    (∀ wm', absorbReward sqrt2 wm reward = some wm' →
      wm'.workingMemoryChunks = wm.workingMemoryChunks ∧
      wm'.queryWorkingMemory = wm.queryWorkingMemory ∧
      wm'.state = wm.state ∧
      wm'.previousReward = wm.previousReward ∧
      wm'.previousValue = wm.previousValue ∧
      wm'.previousQValue = wm.previousQValue ∧
      wm'.previousStateWorkingMemory = wm.previousStateWorkingMemory ∧
      wm'.previousStateWorkingMemoryAction = wm.previousStateWorkingMemoryAction ∧
      wm' = { wm with
        weights := wm'.weights
        actionWeights := wm'.actionWeights
        eligibilityTrace := wm'.eligibilityTrace
        actionEligibilityTrace := wm'.actionEligibilityTrace }) ∧
    (Sized wm → EpisodeInitialised wm → ∃ wm', absorbReward sqrt2 wm reward = some wm') := by
  refine ⟨?_, fun hs hi => ⟨_, absorbReward_eq sqrt2 wm reward hs hi⟩⟩
  intro wm' h
  obtain ⟨t, t2, w, w2, rfl, -⟩ := absorbReward_shape sqrt2 wm wm' reward h
  exact ⟨rfl, rfl, rfl, rfl, rfl, rfl, rfl, rfl, rfl⟩

/-- The frame of `absorbReward(5)` on the concrete controller `demo`. -/
theorem absorbReward_frame_witness :
    ∃ wm', absorbReward demoSqrt2 demo 5 = some wm' ∧
      wm'.workingMemoryChunks = demo.workingMemoryChunks ∧
      wm'.queryWorkingMemory = demo.queryWorkingMemory ∧
      wm'.state = demo.state ∧
      wm'.previousReward = demo.previousReward ∧
      wm'.previousValue = demo.previousValue ∧
      wm'.previousQValue = demo.previousQValue ∧
      wm'.previousStateWorkingMemory = demo.previousStateWorkingMemory ∧
      wm'.previousStateWorkingMemoryAction = demo.previousStateWorkingMemoryAction ∧
      wm' = { demo with
        weights := wm'.weights
        actionWeights := wm'.actionWeights
        eligibilityTrace := wm'.eligibilityTrace
        actionEligibilityTrace := wm'.actionEligibilityTrace } := by
  obtain ⟨wm', h⟩ := (absorbReward_frame demoSqrt2 demo 5).2 demo_sized demo_initialised
  exact ⟨wm', h, (absorbReward_frame demoSqrt2 demo 5).1 wm' h⟩

/-- C14. The call `initializeEpisode` does not learn: whenever it returns,
for every state text, action list and initial reward and on either branch,
both weight vectors are exactly as before the call.  On a well-formed
controller it does return (on the random branch, when the draws suit the
candidate list). -/
theorem initializeEpisode_keeps_weights (wm : WorkingMemory α) (state : String)
    (actions : List String) (reward u : α) (draws : List Int) :
    (∀ r, initializeEpisode wm state actions reward u draws = some r →
      r.2.weights = wm.weights ∧ r.2.actionWeights = wm.actionWeights) ∧
    (WellFormed wm → wm.hrrengine.explode state '+' ≠ [] →
      (¬ u < wm.critic.epsilon ∨
        validDraws wm.workingMemoryChunks.length
          (sortStrings (cleared wm state).getCandidateChunksFromState).length draws = true) →
      ∃ r, initializeEpisode wm state actions reward u draws = some r) := by
  refine ⟨?_, fun hwf hstate hb =>
    initializeEpisode_returns wm state actions reward u draws hwf hstate hb⟩
  intro r h
  obtain ⟨chunks, cur, rep, value, act, qValue, hr, -⟩ :=
    initializeEpisode_shape wm state actions reward u draws r h
  rw [hr]
  exact ⟨rfl, rfl⟩

/-- The weights of the concrete controller `demo` across a greedy
`initializeEpisode`. -/
theorem initializeEpisode_keeps_weights_witness :
    ∃ r, initializeEpisode demo "a+b" ["x", "a"] 0 (1 / 2) [] = some r ∧
      r.2.weights = demo.weights ∧ r.2.actionWeights = demo.actionWeights := by
  have h := initializeEpisode_keeps_weights demo "a+b" ["x", "a"] 0 (1 / 2) []
  obtain ⟨r, hr⟩ := h.2 demo_wellFormed (by decide) (Or.inl (by decide!))
  exact ⟨r, hr, h.1 r hr⟩

/-- C15. Whatever the traces were before (also non-zero, in the middle of an
episode), after `initializeEpisode` both eligibility traces are the all-zero
vector of `vectorSize` entries, so that after the next `step` each trace is
the stored previous vector divided by `sqrt(2)`, entry by entry over the
indices below `vectorSize`.  On a well-formed controller `initializeEpisode`
does return (on the random branch, when the draws suit the candidate
list). -/
theorem initializeEpisode_zeroes_traces (wm : WorkingMemory α) (hs : Sized wm)
    (state : String) (actions : List String) (reward u : α) (draws : List Int) :
    (∀ r, initializeEpisode wm state actions reward u draws = some r →
      r.2.eligibilityTrace = List.replicate wm.vectorSize 0 ∧
      r.2.actionEligibilityTrace = List.replicate wm.vectorSize 0 ∧
      ∀ sqrt2 state' actions' reward' u' draws' r',
        step sqrt2 r.2 state' actions' reward' u' draws' = some r' →
        r'.2.eligibilityTrace =
          (r.2.previousStateWorkingMemory.take wm.vectorSize).map (fun p => p / sqrt2) ∧
        r'.2.actionEligibilityTrace =
          (r.2.previousStateWorkingMemoryAction.take wm.vectorSize).map
            (fun p => p / sqrt2)) ∧
    (WellFormed wm → wm.hrrengine.explode state '+' ≠ [] →
      (¬ u < wm.critic.epsilon ∨
        validDraws wm.workingMemoryChunks.length
          (sortStrings (cleared wm state).getCandidateChunksFromState).length draws = true) →
      ∃ r, initializeEpisode wm state actions reward u draws = some r) := by
  refine ⟨?_, fun hwf hstate hb =>
    initializeEpisode_returns wm state actions reward u draws hwf hstate hb⟩
  intro r h
  obtain ⟨chunks, cur, rep, value, act, qValue, hr, -⟩ :=
    initializeEpisode_shape wm state actions reward u draws r h
  have ht : r.2.eligibilityTrace = List.replicate wm.vectorSize 0 := by
    rw [hr, ← hs.trace_len]
  have hat : r.2.actionEligibilityTrace = List.replicate wm.vectorSize 0 := by
    rw [hr, ← hs.actionTrace_len]
  have hsr : Sized r.2 := by
    refine ⟨?_, ?_, ?_, ?_⟩
    · rw [hr]; exact hs.weights_len
    · rw [hr]; exact hs.actionWeights_len
    · rw [ht, hr]; simp
    · rw [hat, hr]; simp
  refine ⟨ht, hat, ?_⟩
  intro sqrt2 state' actions' reward' u' draws' r' h'
  obtain ⟨chunks', cur', w, w2, rep', value', act', qValue', hr', -⟩ :=
    step_shape sqrt2 r.2 hsr state' actions' reward' u' draws' r' h'
  rw [hr']
  constructor
  · show decayedTrace _ _ r.2.eligibilityTrace _ = _
    rw [ht, decayedTrace_zero]
  · show decayedTrace _ _ r.2.actionEligibilityTrace _ = _
    rw [hat, decayedTrace_zero]

/-- The traces of the concrete controller `demo`, which are not zero, across
a greedy `initializeEpisode` and the `step` after it. -/
theorem initializeEpisode_zeroes_traces_witness :
    demo.eligibilityTrace = [1, 0] ∧
    ∃ r, initializeEpisode demo "a+b" ["x", "a"] 0 (1 / 2) [] = some r ∧
      r.2.eligibilityTrace = List.replicate demo.vectorSize 0 ∧
      r.2.actionEligibilityTrace = List.replicate demo.vectorSize 0 ∧
      ∃ r', step demoSqrt2 r.2 "a" ["x"] 0 (1 / 2) [] = some r' ∧
        r'.2.eligibilityTrace =
          (r.2.previousStateWorkingMemory.take demo.vectorSize).map
            (fun p => p / demoSqrt2) ∧
        r'.2.actionEligibilityTrace =
          (r.2.previousStateWorkingMemoryAction.take demo.vectorSize).map
            (fun p => p / demoSqrt2) := by
  have h := initializeEpisode_zeroes_traces demo demo_sized "a+b" ["x", "a"] 0 (1 / 2) []
  obtain ⟨r, hr⟩ := h.2 demo_wellFormed (by decide) (Or.inl (by decide!))
  obtain ⟨h1, h2, h3⟩ := h.1 r hr
  have hsome : ((initializeEpisode demo "a+b" ["x", "a"] 0 (1 / 2) []).bind fun r =>
      step demoSqrt2 r.2 "a" ["x"] 0 (1 / 2) []).isSome = true := by
    decide!
  rw [hr, Option.some_bind] at hsome
  obtain ⟨r', hr'⟩ := Option.isSome_iff_exists.mp hsome
  exact ⟨rfl, r, hr, h1, h2, r', hr', h3 demoSqrt2 "a" ["x"] 0 (1 / 2) [] r' hr'⟩

end Frames

/-! ## Working-memory contents and the index permutation -/

section Contents

open WorkingMemory

/-- C12 (failing input). Right after construction every working-memory slot
returned by `queryWorkingMemory` holds the empty string, which is neither
`"I"` nor a concept name; and after `initializeEpisode` with the state text
a+a on the greedy branch the first slot holds the empty string that
`getCandidateChunksFromState` left among the candidates. -/
theorem slots_hold_empty_string :
    demoConstructed.queryWorkingMemory = ["", ""] ∧
    demoConstructed.queryWorkingMemoryAt 0 = some "" ∧
    (initializeEpisode demoConstructed "a+a" ["x"] 0 (1 / 2) []).map
      (fun r => r.2.queryWorkingMemory) = some ["", "I"] := by
  decide!

/-- C16 (failing input). With vector size 2 and the permutation 1, 0 the
vector 1, 2 is permuted to 0, 1 (entry 0 is never assigned, where
`v[permutation[0]]` is 2), and `inversePermute` of that gives 1, 0 instead
of 1, 2; `inversePermute` alone maps 5, 7 to 7, 0. -/
theorem permutation_skips_index_zero :
    demo.vectorSize = 2 ∧ demo.permutation = [1, 0] ∧
    demo.permute [1, 2] = some [0, 1] ∧
    (demo.permute [1, 2]).bind demo.inversePermute = some [1, 0] ∧
    demo.inversePermute [5, 7] = some [7, 0] := by
  decide!

end Contents

/-! ## Candidate lists and the random selection -/

section Selection

open WorkingMemory

variable {α : Type} [LinearOrderedField α]

/-- C17 (failing input). With the state text a+a, whose two terms unpack to
the same sorted duplicate-free list, `getCandidateChunksFromState` returns
the candidate a followed by an empty string: the vector is resized to the
sum of the two sizes and the entry `set_union` does not write stays.  The
list `initializeEpisode` sorts therefore starts with the empty string,
which is not in the union of the unpacked terms. -/
theorem candidates_keep_resize_padding :
    demoEngine.explode "a+a" '+' = ["a", "a"] ∧
    demoEngine.unpackSimple "a" = ["a"] ∧
    set_union ["a"] ["a"] = ["a"] ∧
    (cleared demoConstructed "a+a").getCandidateChunksFromState = ["a", ""] ∧
    sortStrings (cleared demoConstructed "a+a").getCandidateChunksFromState = ["", "a"] ∧
    (cleared demoConstructed "a+b+a").getCandidateChunksFromState = ["a", "b", ""] := by
  decide!

theorem sortStrings_sorted (l : List String) : (sortStrings l).Sorted (fun a b => a ≤ b) :=
  List.sorted_insertionSort _ l

theorem sortStrings_perm (l : List String) : (sortStrings l).Perm l :=
  List.perm_insertionSort _ l

theorem retained_fold :
    ∀ (chunks base : List String),
      ∃ added : List String,
        chunks.foldl (fun candidateChunks chunk =>
          if chunk ≠ "I" ∧ chunk ∉ candidateChunks then candidateChunks ++ [chunk]
          else candidateChunks) base = base ++ added ∧
        added.Nodup ∧ "I" ∉ added ∧ (∀ c ∈ added, c ∈ chunks ∧ c ∉ base) ∧
        (∀ c ∈ chunks, c ≠ "I" → c ∈ base ++ added)
  | [], base => ⟨[], by simp⟩
  | ch :: t, base => by
    by_cases hc : ch ≠ "I" ∧ ch ∉ base
    · obtain ⟨added, he, hn, hI, hm, hall⟩ := retained_fold t (base ++ [ch])
      refine ⟨ch :: added, ?_, ?_, ?_, ?_, ?_⟩
      · simp only [List.foldl_cons, if_pos hc, he, List.append_assoc, List.singleton_append]
      · refine List.nodup_cons.mpr ⟨fun h => (hm ch h).2 (by simp), hn⟩
      · intro h
        rcases List.mem_cons.mp h with h | h
        · exact hc.1 h.symm
        · exact hI h
      · intro c h
        rcases List.mem_cons.mp h with rfl | h
        · exact ⟨List.mem_cons_self _ _, hc.2⟩
        · exact ⟨List.mem_cons_of_mem _ (hm c h).1, fun hb => (hm c h).2 (by simp [hb])⟩
      · intro c h hne
        rcases List.mem_cons.mp h with rfl | h
        · simp
        · have := hall c h hne
          simpa using this
    · obtain ⟨added, he, hn, hI, hm, hall⟩ := retained_fold t base
      refine ⟨added, ?_, hn, hI, fun c h => ⟨List.mem_cons_of_mem _ (hm c h).1, (hm c h).2⟩, ?_⟩
      · simp only [List.foldl_cons, if_neg hc, he]
      · intro c h hne
        rcases List.mem_cons.mp h with rfl | h
        · have : c ∈ base := by
            by_contra hb
            exact hc ⟨hne, hb⟩
          simp [this]
        · exact hall c h hne

theorem updateTraces_stepCandidates (sqrt2 : α) (wm t : WorkingMemory α) (state : String)
    (h : updateTraces sqrt2 wm = some t) :
    (withState t state).stepCandidates = (withState wm state).stepCandidates := by
  simp only [updateTraces, Option.bind_eq_some, Option.map_eq_some'] at h
  obtain ⟨a, -, b, -, rfl⟩ := h
  rfl

/-- C18. In `step` the candidate list handed to the selection routine is
sorted; it is a rearrangement of the candidates derived from the new state
followed by the chunks `added` from the working memory as it was before the
call, so it contains every candidate derived from the new state and every
chunk other than `"I"` that was in working memory; the added chunks are
pairwise distinct and none was among the derived candidates (each is added
at most once), and `"I"` is never added.  This list, built from the
working memory before the call, is the one `step` passes to the random
selection and to the exhaustive search. -/
theorem step_candidates_keep_memory (wm : WorkingMemory α) (state : String) :
    (∃ added : List String,
      (withState wm state).stepCandidates.Perm
        ((withState wm state).getCandidateChunksFromState ++ added) ∧
      added.Nodup ∧ "I" ∉ added ∧
      (∀ c ∈ added, c ∈ wm.workingMemoryChunks ∧
        c ∉ (withState wm state).getCandidateChunksFromState)) ∧
    (withState wm state).stepCandidates.Sorted (fun a b => a ≤ b) ∧
    (∀ c ∈ wm.workingMemoryChunks, c ≠ "I" → c ∈ (withState wm state).stepCandidates) ∧
    (∀ c ∈ (withState wm state).getCandidateChunksFromState,
      c ∈ (withState wm state).stepCandidates) ∧
    (∀ sqrt2 t u draws, updateTraces sqrt2 wm = some t →
      stepSelect sqrt2 wm state u draws =
        if u < wm.critic.epsilon then
          ((withState t state).chooseRandomWorkingMemoryContents
            (withState wm state).stepCandidates draws).map (fun r => r.1)
        else (withState t state).findMostValuableChunks (withState wm state).stepCandidates) := by
  obtain ⟨added, he, hn, hI, hm, hall⟩ :=
    retained_fold wm.workingMemoryChunks (withState wm state).getCandidateChunksFromState
  have hs : (withState wm state).stepCandidates =
      sortStrings ((withState wm state).getCandidateChunksFromState ++ added) := by
    rw [← he]; rfl
  refine ⟨⟨added, ?_, hn, hI, hm⟩, ?_, ?_, ?_, ?_⟩
  · rw [hs]; exact sortStrings_perm _
  · rw [hs]; exact sortStrings_sorted _
  · intro c hc hne
    rw [hs]
    exact (sortStrings_perm _).mem_iff.mpr (hall c hc hne)
  · intro c hc
    rw [hs]
    exact (sortStrings_perm _).mem_iff.mpr (List.mem_append_left _ hc)
  · intro sqrt2 t u draws ht
    have hupd : t.critic = wm.critic := by
      simp only [updateTraces, Option.bind_eq_some, Option.map_eq_some'] at ht
      obtain ⟨a, -, b, -, rfl⟩ := ht
      rfl
    simp only [stepSelect, ht, Option.some_bind]
    rw [← updateTraces_stepCandidates sqrt2 wm t state ht, ← hupd]
    rfl

/-- The candidates of a `step` on the concrete controller holding b, with
the new state a: the retained chunk b competes with the derived candidate
a. -/
theorem step_candidates_keep_memory_witness :
    (withState (withMemory demo (["b", "I"], 0)) "a").stepCandidates = ["a", "b"] ∧
    (∀ c ∈ (withMemory demo (["b", "I"], 0)).workingMemoryChunks, c ≠ "I" →
      c ∈ (withState (withMemory demo (["b", "I"], 0)) "a").stepCandidates) :=
  ⟨by decide!, (step_candidates_keep_memory (withMemory demo (["b", "I"], 0)) "a").2.2.1⟩

/-- C19 (failing input). With two slots, the sorted duplicate-free
candidates a, b, c and the draws 2, 1 (each within its range), the random
selection leaves working memory as c, b, which is not in non-decreasing
order: the sort after filling slot `i` covers the slots before `i` only.
With three slots, the candidates a, b, c, d and the draws 3, 2, 1 it
leaves d, c, b after the second slot and c, d, b at the end. -/
theorem random_selection_leaves_unsorted :
    validDraws 2 3 [2, 1] = true ∧
    (demo.chooseRandomWorkingMemoryContents ["a", "b", "c"] [2, 1]).map
        (fun r => (r.1.workingMemoryChunks, r.2)) = some (["c", "b"], []) ∧
    ¬ (["c", "b"] : List String).Sorted (fun a b => a ≤ b) ∧
    validDraws 3 4 [3, 2, 1] = true ∧
    chooseRandomLoop 3 0 ["I", "I", "I"] ["a", "b", "c", "d"] [3, 2, 1] =
      some (["c", "d", "b"], []) ∧
    ¬ (["c", "d", "b"] : List String).Sorted (fun a b => a ≤ b) := by
  decide!

/-- C20. Random selection stopping rule.  For a duplicate-free candidate list
and draws that suit it (each in `[-1, remaining - 1]`),
`chooseRandomWorkingMemoryContents` returns and has assigned every slot:
with `picked` the candidates drawn, the first `picked.length` slots hold a
rearrangement of `picked`, which are pairwise distinct members of the
candidate list, each drawn by a positive draw, and slot `picked.length` and
every slot after it hold `"I"`.  If slots and candidates were both left,
the draw for slot `picked.length` was `<= 0` and it was the last draw made;
if the slots or the pool ran out, only the `picked.length` positive draws
were made (with an empty pool the slots are `"I"` without any draw). -/
theorem random_selection_stopping_rule (wm : WorkingMemory α) (cands : List String)
    (draws : List Int) (hnd : cands.Nodup)
    (hv : validDraws wm.workingMemoryChunks.length cands.length draws = true) :
    ∃ (picked arranged : List String) (rest : List Int),
      wm.chooseRandomWorkingMemoryContents cands draws =
        some (withMemory wm
          (arranged ++ List.replicate (wm.workingMemoryChunks.length - picked.length) "I",
            wm.currentChunkValue), rest) ∧
      arranged.Perm picked ∧ arranged.length = picked.length ∧
      picked.length ≤ wm.workingMemoryChunks.length ∧
      picked.Nodup ∧ (∀ c ∈ picked, c ∈ cands) ∧
      (∀ j, j < picked.length → ∃ d, draws[j]? = some d ∧ 0 < d) ∧
      (picked.length < wm.workingMemoryChunks.length → picked.length < cands.length →
        ∃ d, draws[picked.length]? = some d ∧ d ≤ 0 ∧
          rest = draws.drop (picked.length + 1)) ∧
      ((picked.length = wm.workingMemoryChunks.length ∨ picked.length = cands.length) →
        rest = draws.drop picked.length) := by
  obtain ⟨picked, arranged, rest, hres, hperm, hle, hnodup, hmem, hpos, hstop, hend⟩ :=
    chooseRandomLoop_spec wm.workingMemoryChunks.length 0 wm.workingMemoryChunks cands draws
      (by simp) hnd hv
  have hp : arranged.Perm picked := by simpa using hperm
  refine ⟨picked, arranged, rest, ?_, hp, hp.length_eq, hle, hnodup, hmem, hpos, hstop, hend⟩
  simp only [chooseRandomWorkingMemoryContents, hres, Option.map_some', withMemory]

/-- A run of the random selection on the concrete controller (two slots):
from the candidates a, b, c the draws 2, 0 pick c and then stop. -/
theorem random_selection_stopping_rule_witness :
    (demo.chooseRandomWorkingMemoryContents ["a", "b", "c"] [2, 0]).map
        (fun r => (r.1.workingMemoryChunks, r.2)) = some (["c", "I"], []) ∧
    ∃ (picked arranged : List String) (rest : List Int),
      demo.chooseRandomWorkingMemoryContents ["a", "b", "c"] [2, 0] =
        some (withMemory demo
          (arranged ++ List.replicate (demo.workingMemoryChunks.length - picked.length) "I",
            demo.currentChunkValue), rest) ∧
      arranged.Perm picked ∧ arranged.length = picked.length ∧
      picked.length ≤ demo.workingMemoryChunks.length ∧
      picked.Nodup ∧ (∀ c ∈ picked, c ∈ ["a", "b", "c"]) ∧
      (∀ j, j < picked.length → ∃ d, ([2, 0] : List Int)[j]? = some d ∧ 0 < d) ∧
      (picked.length < demo.workingMemoryChunks.length →
        picked.length < ["a", "b", "c"].length →
        ∃ d, ([2, 0] : List Int)[picked.length]? = some d ∧ d ≤ 0 ∧
          rest = ([2, 0] : List Int).drop (picked.length + 1)) ∧
      ((picked.length = demo.workingMemoryChunks.length ∨
          picked.length = ["a", "b", "c"].length) →
        rest = ([2, 0] : List Int).drop picked.length) :=
  ⟨by decide!, random_selection_stopping_rule demo ["a", "b", "c"] [2, 0] (by decide)
    (by decide)⟩

end Selection

/-! ## Auxiliary facts about the representation, the bookkeeping and the weights -/

section RepresentationLemmas

open WorkingMemory

variable {α : Type} [LinearOrderedField α]

theorem foldl_identity (wm : WorkingMemory α)
    (hI : wm.hrrengine.convolveHRRs (wm.hrrengine.query "I") (wm.hrrengine.query "I") =
      wm.hrrengine.query "I") :
    ∀ rest : List String, (∀ s ∈ rest, s = "I") →
      rest.foldl (fun acc name => wm.hrrengine.convolveHRRs acc (wm.hrrengine.query name))
        (wm.hrrengine.query "I") = wm.hrrengine.query "I"
  | [], _ => rfl
  | s :: rest, h => by
    have hs : s = "I" := h s (List.mem_cons_self _ _)
    subst hs
    rw [List.foldl_cons, hI]
    exact foldl_identity wm hI rest (fun s hs => h s (List.mem_cons_of_mem _ hs))

theorem findValueOfContents_all_empty (wm : WorkingMemory α)
    (hI : wm.hrrengine.convolveHRRs (wm.hrrengine.query "I") (wm.hrrengine.query "I") =
      wm.hrrengine.query "I")
    (hdot : wm.hrrengine.dot (wm.hrrengine.query "I") (wm.hrrengine.query "I") = 1)
    (hst : ∀ st, wm.stateRepresentation = some st →
      wm.hrrengine.convolveHRRs (wm.hrrengine.query "I") st = st)
    (contents : List String) (hne : contents ≠ []) (hall : ∀ s ∈ contents, s = "I") :
    wm.findValueOfContents contents =
      wm.stateRepresentation.map fun st => wm.critic.V st wm.weights := by
  cases contents with
  | nil => exact absurd rfl hne
  | cons c rest =>
    have hc : c = "I" := hall c (List.mem_cons_self _ _)
    subst hc
    have hf := foldl_identity wm hI rest (fun s hs => hall s (List.mem_cons_of_mem _ hs))
    simp only [findValueOfContents, hf, hdot, ne_eq, not_true_eq_false, if_false,
      Option.some_bind]
    cases h : wm.stateRepresentation with
    | none => rfl
    | some st => simp [hst st h]

theorem stepSelect_frame (sqrt2 : α) (wm wm1 : WorkingMemory α) (state : String) (u : α)
    (draws : List Int) (h : stepSelect sqrt2 wm state u draws = some wm1) :
    ∃ chunks value trace actionTrace,
      wm1 = { wm with
        state := state
        workingMemoryChunks := chunks
        currentChunkValue := value
        eligibilityTrace := trace
        actionEligibilityTrace := actionTrace } := by
  simp only [stepSelect, updateTraces, Option.bind_eq_some, Option.map_eq_some'] at h
  obtain ⟨wm0, ⟨t, -, t2, -, rfl⟩, h⟩ := h
  have key : SameExceptMemory { wm with
      state := state, eligibilityTrace := t, actionEligibilityTrace := t2 } wm1 := by
    split_ifs at h
    · simp only [Option.map_eq_some'] at h
      obtain ⟨r, hr, rfl⟩ := h
      exact chooseRandom_frame _ _ _ r hr
    · exact findMostValuableChunks_frame _ _ _ h
  obtain ⟨chunks, value, rfl, -⟩ := key
  exact ⟨chunks, value, t, t2, rfl⟩

/-- What the second half of either call stores, in terms of the controller `wm1` the
selection left: the representation of `wm1`, its value under the weights of `wm1`, the pair
`findMostValuableAction` returns and the value of its vector under the action weights of
`wm1`. -/
theorem stepFinish_stores (wm1 : WorkingMemory α) (actions : List String) (reward : α)
    (r : String × WorkingMemory α) (h : wm1.stepFinish actions reward = some r) :
    ∃ weights actionWeights rep act,
      wm1.stateAndWorkingMemoryRepresentation = some rep ∧
      wm1.findMostValuableAction actions = some act ∧
      r = (act.1, { wm1 with
        weights := weights
        actionWeights := actionWeights
        previousStateWorkingMemory := rep
        previousValue := wm1.critic.V rep wm1.weights
        previousReward := reward
        previousStateWorkingMemoryAction := act.2
        previousQValue := wm1.critic.V act.2 wm1.actionWeights }) := by
  simp only [stepFinish, Option.bind_eq_some, Option.map_eq_some'] at h
  obtain ⟨rep, hrep, act, hact, w, -, w2, -, rfl⟩ := h
  exact ⟨w, w2, rep, act, hrep, hact, rfl⟩

theorem initializeEpisodeFinish_stores (wm1 : WorkingMemory α) (actions : List String)
    (reward : α) (r : String × WorkingMemory α)
    (h : wm1.initializeEpisodeFinish actions reward = some r) :
    ∃ rep act,
      wm1.stateAndWorkingMemoryRepresentation = some rep ∧
      wm1.findMostValuableAction actions = some act ∧
      r = (act.1, { wm1 with
        previousStateWorkingMemory := rep
        previousValue := wm1.critic.V rep wm1.weights
        previousReward := reward
        previousStateWorkingMemoryAction := act.2
        previousQValue := wm1.critic.V act.2 wm1.actionWeights
        eligibilityTrace := List.replicate wm1.eligibilityTrace.length 0
        actionEligibilityTrace := List.replicate wm1.actionEligibilityTrace.length 0 }) := by
  simp only [initializeEpisodeFinish, Option.bind_eq_some, Option.map_eq_some'] at h
  obtain ⟨rep, hrep, act, hact, rfl⟩ := h
  exact ⟨rep, act, hrep, hact, rfl⟩

/-- The pair `findMostValuableAction` returns when some action is valued above `-999`: an
element of the list with its composed vector. -/
theorem findMostValuableAction_composed (wm : WorkingMemory α) (rep : HRR α)
    (hrep : wm.stateAndWorkingMemoryRepresentation = some rep) (actions : List String)
    (act : String × HRR α) (hact : wm.findMostValuableAction actions = some act)
    (hsome : ∃ a ∈ actions, -999 < actionValue wm rep a) :
    act.1 ∈ actions ∧ act.2 = wm.hrrengine.convolveHRRs (wm.hrrengine.query act.1) rep := by
  obtain ⟨l1, a, l2, hl, hfind, -, -⟩ := findMostValuableAction_first_max wm rep hrep actions hsome
  rw [hfind, Option.some.injEq] at hact
  subst hact
  exact ⟨by rw [hl]; simp, rfl⟩

theorem combinationLoop_value (cand : List String) :
    ∀ (fuel : Nat) (v : List Bool) (st st' : WorkingMemory α × List String),
      combinationLoop cand fuel v st = some st' →
      st.1.findValueOfContents st.1.workingMemoryChunks = some st.1.currentChunkValue →
      st'.1.findValueOfContents st'.1.workingMemoryChunks = some st'.1.currentChunkValue
  | 0, _, _, _, h, _ => by simp [combinationLoop] at h
  | fuel + 1, v, (w, comb), st', h, hinv => by
    simp only [combinationLoop, Option.bind_eq_some] at h
    obtain ⟨comb1, -, val, hval, h⟩ := h
    have hinv1 : (if val > w.currentChunkValue then
          { w with workingMemoryChunks := comb1, currentChunkValue := val } else w).findValueOfContents
        (if val > w.currentChunkValue then
          { w with workingMemoryChunks := comb1, currentChunkValue := val }
            else w).workingMemoryChunks =
        some (if val > w.currentChunkValue then
          { w with workingMemoryChunks := comb1, currentChunkValue := val }
            else w).currentChunkValue := by
      split_ifs
      · exact hval
      · exact hinv
    cases hpp : prev_permutation v with
    | mk b v1 =>
      cases b with
      | true =>
        simp only [hpp] at h
        exact combinationLoop_value cand fuel v1 _ st' h hinv1
      | false =>
        simp only [hpp, Option.some.injEq] at h
        subst h
        exact hinv1

theorem sizeLoop_value (cand : List String) :
    ∀ (count x : Nat) (st st' : WorkingMemory α × List String),
      sizeLoop cand count x st = some st' →
      st.1.findValueOfContents st.1.workingMemoryChunks = some st.1.currentChunkValue →
      st'.1.findValueOfContents st'.1.workingMemoryChunks = some st'.1.currentChunkValue
  | 0, _, st, st', h, hinv => by
    simp only [sizeLoop, Option.some.injEq] at h
    subst h
    exact hinv
  | count + 1, x, st, st', h, hinv => by
    simp only [sizeLoop, Option.bind_eq_some] at h
    obtain ⟨st1, h1, h2⟩ := h
    exact sizeLoop_value cand count (x + 1) st1 st' h2
      (combinationLoop_value cand _ _ st st1 h1 hinv)

/-- After the exhaustive search `currentChunkValue` is the score of the contents it left in
working memory. -/
theorem findMostValuableChunks_value (wm wm1 : WorkingMemory α) (cand : List String)
    (h : wm.findMostValuableChunks cand = some wm1) :
    wm1.findValueOfContents wm1.workingMemoryChunks = some wm1.currentChunkValue := by
  simp only [findMostValuableChunks, Option.bind_eq_some, Option.map_eq_some'] at h
  obtain ⟨val, hval, st, hst, rfl⟩ := h
  exact sizeLoop_value cand _ _ _ st hst hval

/-- The two functions compose the same vector: the score of the contents in working memory
is `V` of the state and working-memory representation. -/
theorem findValueOfContents_own (wm : WorkingMemory α) :
    wm.findValueOfContents wm.workingMemoryChunks =
      wm.stateAndWorkingMemoryRepresentation.map fun rep => wm.critic.V rep wm.weights := by
  unfold findValueOfContents stateAndWorkingMemoryRepresentation
  cases wm.workingMemoryChunks with
  | nil => rfl
  | cons c rest =>
    simp only [Option.map_bind]
    congr 1
    funext representation
    cases wm.stateRepresentation <;> rfl

theorem getElem_pos_mem_tail {β : Type} :
    ∀ (l : List β) (k : Nat) (h : k < l.length), 0 < k → l[k] ∈ l.tail
  | [], _, h, _ => by simp at h
  | _ :: _, 0, _, hk => by omega
  | a :: t, k + 1, h, _ => by
    simp only [List.getElem_cons_succ, List.tail_cons]
    exact List.getElem_mem _

theorem tail_eraseIdx_subset {β : Type} :
    ∀ (l : List β) (k : Nat), 0 < k → ∀ s ∈ (l.eraseIdx k).tail, s ∈ l.tail
  | [], _, _, s, hs => by simp at hs
  | _ :: _, 0, hk, _, _ => by omega
  | a :: t, k + 1, _, s, hs => by
    simp only [List.eraseIdx_cons_succ, List.tail_cons] at hs ⊢
    exact (List.eraseIdx_sublist t k).subset hs

theorem chooseRandomLoop_members :
    ∀ (count i : Nat) (chunks cands : List String) (draws : List Int)
      (r : List String × List Int),
      chunks.length = i + count →
      chooseRandomLoop count i chunks cands draws = some r →
      ∀ s ∈ r.1, s ∈ chunks.take i ∨ s = "I" ∨ s ∈ cands.tail
  | 0, i, chunks, cands, draws, r, hl, h => by
    simp only [chooseRandomLoop, Option.some.injEq] at h
    subst h
    intro s hs
    left
    rw [List.take_of_length_le (by omega)]
    exact hs
  | count + 1, i, chunks, cands, draws, r, hl, h => by
    have hi : i < chunks.length := by omega
    have hempty : ∀ ds, chooseRandomLoop count (i + 1) (chunks.set i "I") [] ds = some r →
        ∀ s ∈ r.1, s ∈ chunks.take i ∨ s = "I" ∨ s ∈ cands.tail := by
      intro ds h s hs
      rw [chooseRandomLoop_empty count (i + 1) _ ds (by rw [List.length_set]; omega),
        Option.some.injEq] at h
      subst h
      rw [set_eq_take_cons_drop chunks i "I" hi,
        take_append_cons_exact _ _ _ i (by rw [List.length_take]; omega)] at hs
      simp only [List.mem_append, List.mem_singleton, List.mem_replicate] at hs
      rcases hs with (hs | hs) | hs
      · exact Or.inl hs
      · exact Or.inr (Or.inl hs)
      · exact Or.inr (Or.inl hs.2)
    unfold chooseRandomLoop at h
    by_cases h0 : cands.length = 0
    · rw [if_pos h0] at h
      have hc : cands = [] := List.length_eq_zero.mp h0
      subst hc
      exact hempty draws h
    · rw [if_neg h0] at h
      cases draws with
      | nil => simp at h
      | cons d ds =>
        simp only at h
        by_cases hd : d > 0
        · rw [if_pos hd] at h
          cases hc : cands[d.toNat]? with
          | none => simp [hc] at h
          | some c =>
            simp only [hc] at h
            have hlt : d.toNat < cands.length := by
              by_contra hge
              rw [List.getElem?_eq_none (by omega)] at hc
              exact absurd hc (by simp)
            have hce : c = cands[d.toNat] := by
              rw [List.getElem?_eq_getElem hlt, Option.some.injEq] at hc
              exact hc.symm
            have hpos : 0 < d.toNat := by omega
            rw [sorted_slot_chunks chunks i c hi] at h
            have hlen2 : (sortStrings (chunks.take i) ++ c :: chunks.drop (i + 1)).length =
                i + 1 + count := by
              simp only [List.length_append, sortStrings_length, List.length_take,
                List.length_cons, List.length_drop]
              omega
            intro s hs
            have ih := chooseRandomLoop_members count (i + 1) _ _ ds r hlen2 h s hs
            rw [take_append_cons_exact _ _ _ i (by
              rw [sortStrings_length, List.length_take]; omega)] at ih
            simp only [List.mem_append, List.mem_singleton] at ih
            rcases ih with (ih | ih) | ih | ih
            · exact Or.inl ((List.perm_insertionSort _ _).mem_iff.mp ih)
            · right; right
              rw [ih, hce]
              exact getElem_pos_mem_tail cands d.toNat hlt hpos
            · exact Or.inr (Or.inl ih)
            · exact Or.inr (Or.inr (tail_eraseIdx_subset cands d.toNat hpos s ih))
        · rw [if_neg hd] at h
          exact hempty ds h

theorem not_mem_tail_of_nodup {β : Type} :
    ∀ (l : List β) (c : β), l.head? = some c → l.Nodup → c ∉ l.tail
  | [], _, h, _ => by simp at h
  | a :: t, c, h, hn => by
    simp only [List.head?_cons, Option.some.injEq] at h
    subst h
    exact (List.nodup_cons.mp hn).1

theorem resetWeightsLoop_eq (draw : Nat → α) :
    ∀ (count i : Nat) (weights : List α), i + count ≤ weights.length →
      resetWeightsLoop draw count i weights =
        some (weights.take i ++ (List.range' i count).map draw ++ weights.drop (i + count))
  | 0, i, weights, _ => by
    simp [resetWeightsLoop]
  | count + 1, i, weights, h => by
    have hi : i < weights.length := by omega
    unfold resetWeightsLoop
    rw [if_pos hi, resetWeightsLoop_eq draw count (i + 1) _ (by rw [List.length_set]; omega)]
    rw [set_eq_take_cons_drop weights i (draw i) hi,
      take_append_cons_exact _ _ _ i (by rw [List.length_take]; omega)]
    have hd : (weights.take i ++ draw i :: weights.drop (i + 1)).drop (i + 1 + count) =
        weights.drop (i + (count + 1)) := by
      have e : weights.take i ++ draw i :: weights.drop (i + 1) =
          (weights.take i ++ [draw i]) ++ weights.drop (i + 1) := by simp
      rw [e, List.drop_append_eq_append_drop]
      have hl : (weights.take i ++ [draw i]).length = i + 1 := by
        rw [List.length_append, List.length_take]; simp; omega
      rw [List.drop_of_length_le (by rw [hl]; omega), hl, List.nil_append, List.drop_drop]
      congr 1
      omega
    rw [hd]
    simp [List.range'_succ]

theorem resetWeightsLoop_length (draw : Nat → α) :
    ∀ (count i : Nat) (weights r : List α),
      resetWeightsLoop draw count i weights = some r → r.length = weights.length
  | 0, _, _, _, h => by
    simp only [resetWeightsLoop, Option.some.injEq] at h
    rw [← h]
  | count + 1, i, weights, r, h => by
    unfold resetWeightsLoop at h
    split_ifs at h
    rw [resetWeightsLoop_length draw count (i + 1) _ r h, List.length_set]

end RepresentationLemmas

/-! ## Degenerate cases: all-empty working memory and no candidates -/

section Degenerate

open WorkingMemory

variable {α : Type} [LinearOrderedField α]

/-- C21. With an engine whose identity concept satisfies `dot(I, I) = 1` and
`convolve(I, x) = x` (used at `x = I` and at the state representation), a
working memory of at least one slot whose slots all hold `"I"` is composed
without the permutation: `stateAndWorkingMemoryRepresentation` is the state
representation, the sum of the vectors of the `+`-separated state terms
(which exists as soon as the state has a term), and `findValueOfContents`
of such contents is `V` of that vector.  For contents whose convolved
product has a dot product with `I` other than `1`, both functions apply
`permute` to the product and convolve the result with the state
representation. -/
theorem all_empty_skips_permutation (wm : WorkingMemory α)
    (hI : wm.hrrengine.convolveHRRs (wm.hrrengine.query "I") (wm.hrrengine.query "I") =
      wm.hrrengine.query "I")
    (hdot : wm.hrrengine.dot (wm.hrrengine.query "I") (wm.hrrengine.query "I") = 1)
    (hst : ∀ st, wm.stateRepresentation = some st →
      wm.hrrengine.convolveHRRs (wm.hrrengine.query "I") st = st) :
    (wm.workingMemoryChunks ≠ [] → (∀ s ∈ wm.workingMemoryChunks, s = "I") →
      wm.stateAndWorkingMemoryRepresentation = wm.stateRepresentation) ∧
    (∀ contents : List String, contents ≠ [] → (∀ s ∈ contents, s = "I") →
      wm.findValueOfContents contents =
        wm.stateRepresentation.map fun st => wm.critic.V st wm.weights) ∧
    (∀ c rest, wm.hrrengine.explode wm.state '+' = c :: rest →
      wm.stateRepresentation =
        some (rest.foldl (fun acc name => addHRR acc (wm.hrrengine.query name))
          (wm.hrrengine.query c))) ∧
    (∀ c rest, wm.workingMemoryChunks = c :: rest →
      wm.hrrengine.dot (wm.hrrengine.query "I") (contentsProduct wm c rest) ≠ 1 →
      wm.stateAndWorkingMemoryRepresentation =
        (wm.permute (contentsProduct wm c rest)).bind fun permuted =>
          wm.stateRepresentation.map fun st => wm.hrrengine.convolveHRRs permuted st) ∧
    (∀ c rest, wm.hrrengine.dot (wm.hrrengine.query "I") (contentsProduct wm c rest) ≠ 1 →
      wm.findValueOfContents (c :: rest) =
        (wm.permute (contentsProduct wm c rest)).bind fun permuted =>
          wm.stateRepresentation.map fun st =>
            wm.critic.V (wm.hrrengine.convolveHRRs permuted st) wm.weights) := by
  refine ⟨?_, ?_, ?_, ?_, ?_⟩
  · intro hne hall
    cases hch : wm.workingMemoryChunks with
    | nil => exact absurd hch hne
    | cons c rest =>
      rw [hch] at hall
      have hc : c = "I" := hall c (List.mem_cons_self _ _)
      subst hc
      have hf := foldl_identity wm hI rest (fun s hs => hall s (List.mem_cons_of_mem _ hs))
      simp only [stateAndWorkingMemoryRepresentation, hch, hf, hdot, ne_eq, not_true_eq_false,
        if_false, Option.some_bind]
      cases h : wm.stateRepresentation with
      | none => rfl
      | some st => simp [hst st h]
  · intro contents hne hall
    exact findValueOfContents_all_empty wm hI hdot hst contents hne hall
  · intro c rest h
    simp only [stateRepresentation, h]
  · intro c rest hch hd
    simp only [stateAndWorkingMemoryRepresentation, hch]
    unfold contentsProduct at hd ⊢
    rw [if_pos hd]
  · intro c rest hd
    simp only [findValueOfContents]
    unfold contentsProduct at hd ⊢
    rw [if_pos hd]

/-- The concrete controller `demo`, whose two slots hold `"I"` and whose
engine has the identity concept: its state and working-memory representation
is the vector of its state; with the contents a, I the product is permuted
first. -/
theorem all_empty_skips_permutation_witness :
    demo.stateAndWorkingMemoryRepresentation = demo.stateRepresentation ∧
    demo.stateRepresentation = some [1, 1] ∧
    demo.hrrengine.dot (demo.hrrengine.query "I") (contentsProduct demo "a" ["I"]) = 0 ∧
    demo.findValueOfContents ["a", "I"] =
      (demo.permute (contentsProduct demo "a" ["I"])).bind fun permuted =>
        demo.stateRepresentation.map fun st =>
          demo.critic.V (demo.hrrengine.convolveHRRs permuted st) demo.weights := by
  have h := all_empty_skips_permutation demo (by decide!) (by decide!) (by
    intro st hs
    have h0 : demo.stateRepresentation = some [1, 1] := by decide!
    rw [h0, Option.some.injEq] at hs
    subst hs
    decide!)
  exact ⟨h.1 (by decide) (by decide), by decide!, by decide!,
    h.2.2.2.2 "a" ["I"] (by decide!)⟩

/-- C22. With an empty candidate list both selection routines end normally
with every slot `"I"`.  The random selection returns for every controller
and every sequence of draws and consumes none of them.  The exhaustive
search evaluates `findValueOfContents` on the all-`"I"` contents only: it
returns exactly when that evaluation does, with that value as
`currentChunkValue`, which is the case on a well-formed controller (at
least one slot) whose state has a term. -/
theorem zero_candidates_leave_all_empty (wm : WorkingMemory α) :
    (∀ draws, wm.chooseRandomWorkingMemoryContents [] draws =
      some (withMemory wm
        (List.replicate wm.workingMemoryChunks.length "I", wm.currentChunkValue), draws)) ∧
    wm.findMostValuableChunks [] =
      (wm.findValueOfContents (List.replicate wm.workingMemoryChunks.length "I")).map
        (fun value => withMemory wm (List.replicate wm.workingMemoryChunks.length "I", value)) ∧
    (WellFormed wm → wm.hrrengine.explode wm.state '+' ≠ [] →
      ∃ value, wm.findValueOfContents (List.replicate wm.workingMemoryChunks.length "I") =
          some value ∧
        wm.findMostValuableChunks [] =
          some (withMemory wm (List.replicate wm.workingMemoryChunks.length "I", value))) := by
  have hgreedy : wm.findMostValuableChunks [] =
      (wm.findValueOfContents (List.replicate wm.workingMemoryChunks.length "I")).map
        (fun value =>
          withMemory wm (List.replicate wm.workingMemoryChunks.length "I", value)) := by
    have hr : (if wm.workingMemoryChunks.length > ([] : List String).length then
        ([] : List String).length else wm.workingMemoryChunks.length) = 0 := by
      split_ifs with h
      · rfl
      · simp only [List.length_nil, gt_iff_lt, not_lt, Nat.le_zero] at h
        exact h
    simp only [findMostValuableChunks, hr, sizeLoop, Option.map_some']
    cases h : wm.findValueOfContents (List.replicate wm.workingMemoryChunks.length "I") with
    | none =>
      have h2 := h
      rw [← findValueOfContents_withMemory wm
        (List.replicate wm.workingMemoryChunks.length "I", wm.currentChunkValue)] at h2
      simp only [withMemory] at h2
      simp [h2]
    | some value =>
      have h2 := h
      rw [← findValueOfContents_withMemory wm
        (List.replicate wm.workingMemoryChunks.length "I", wm.currentChunkValue)] at h2
      simp only [withMemory] at h2
      simp [h2, withMemory]
  refine ⟨?_, hgreedy, ?_⟩
  · intro draws
    simp only [chooseRandomWorkingMemoryContents,
      chooseRandomLoop_empty wm.workingMemoryChunks.length 0 wm.workingMemoryChunks draws
        (by simp), Option.map_some', List.take_zero, List.nil_append, withMemory]
  · intro hwf hs
    have hne : List.replicate wm.workingMemoryChunks.length "I" ≠ [] := by
      intro h0
      have := congrArg List.length h0
      simp only [List.length_replicate, List.length_nil] at this
      exact hwf.slots (List.length_eq_zero.mp this)
    obtain ⟨value, hv⟩ := findValueOfContents_eq_some wm hwf hs _ hne
    exact ⟨value, hv, by rw [hgreedy, hv]; rfl⟩

/-- Both selection routines on the concrete controller, holding a and b, with
no candidates. -/
theorem zero_candidates_leave_all_empty_witness :
    (withMemory demo (["a", "b"], 0)).workingMemoryChunks = ["a", "b"] ∧
    ((withMemory demo (["a", "b"], 0)).chooseRandomWorkingMemoryContents [] [1, 1]).map
      (fun r => (r.1.workingMemoryChunks, r.2)) = some (["I", "I"], [1, 1]) ∧
    ((withMemory demo (["a", "b"], 0)).findMostValuableChunks []).map
      (fun r => (r.workingMemoryChunks, r.currentChunkValue)) = some (["I", "I"], 3) ∧
    ∃ value,
      (withMemory demo (["a", "b"], 0)).findValueOfContents
          (List.replicate (withMemory demo (["a", "b"], 0)).workingMemoryChunks.length "I") =
        some value ∧
      (withMemory demo (["a", "b"], 0)).findMostValuableChunks [] =
        some (withMemory (withMemory demo (["a", "b"], 0))
          (List.replicate (withMemory demo (["a", "b"], 0)).workingMemoryChunks.length "I",
            value)) :=
  ⟨rfl, by decide!, by decide!,
    (zero_candidates_leave_all_empty (withMemory demo (["a", "b"], 0))).2.2
      (WellFormed.of_same demo_wellFormed ⟨_, _, rfl, rfl⟩) (by decide)⟩

end Degenerate

/-! ## The bookkeeping handed to the next call -/

section Bookkeeping

open WorkingMemory

variable {α : Type} [LinearOrderedField α]

/-- C23. Bookkeeping hand-over.  Whenever `step(state, actions, reward)`
returns the action `r.1` and the controller `r.2`: the stored previous reward
is `reward`; the stored previous state+WM vector is the representation
composed from the working memory and the state of `r.2`, that is from the
newly chosen contents and the new state; the stored previous value is `V`
of that vector under the state weights from before the call; the stored
previous state+WM+action vector is the vector `findMostValuableAction`
returned with the action (when some action is valued above `-999`, the
action is in the list and the vector is `convolve(query(action), state+WM
vector)`); and the stored previous Q-value is `V` of that vector under the
action weights from before the call.  The same holds for
`initializeEpisode` with its initial reward.  Both calls do return on a
well-formed controller (`step` with an episode initialised; on the random
branch, when the draws suit the candidate list). -/
theorem bookkeeping_hand_over (wm : WorkingMemory α) (state : String) (actions : List String)
    (reward u : α) (draws : List Int) :
    (∀ sqrt2 r, step sqrt2 wm state actions reward u draws = some r →
      r.2.previousReward = reward ∧ r.2.state = state ∧
      r.2.stateAndWorkingMemoryRepresentation = some r.2.previousStateWorkingMemory ∧
      r.2.previousValue = wm.critic.V r.2.previousStateWorkingMemory wm.weights ∧
      r.2.previousQValue =
        wm.critic.V r.2.previousStateWorkingMemoryAction wm.actionWeights ∧
      (∃ wm1, stepSelect sqrt2 wm state u draws = some wm1 ∧
        wm1.workingMemoryChunks = r.2.workingMemoryChunks ∧
        wm1.findMostValuableAction actions =
          some (r.1, r.2.previousStateWorkingMemoryAction)) ∧
      ((∃ a ∈ actions, -999 < actionValue wm r.2.previousStateWorkingMemory a) →
        r.1 ∈ actions ∧
        r.2.previousStateWorkingMemoryAction =
          wm.hrrengine.convolveHRRs (wm.hrrengine.query r.1)
            r.2.previousStateWorkingMemory)) ∧
    (∀ r, initializeEpisode wm state actions reward u draws = some r →
      r.2.previousReward = reward ∧ r.2.state = state ∧
      r.2.stateAndWorkingMemoryRepresentation = some r.2.previousStateWorkingMemory ∧
      r.2.previousValue = wm.critic.V r.2.previousStateWorkingMemory wm.weights ∧
      r.2.previousQValue =
        wm.critic.V r.2.previousStateWorkingMemoryAction wm.actionWeights ∧
      (∃ wm1, initializeEpisodeSelect wm state u draws = some wm1 ∧
        wm1.workingMemoryChunks = r.2.workingMemoryChunks ∧
        wm1.findMostValuableAction actions =
          some (r.1, r.2.previousStateWorkingMemoryAction)) ∧
      ((∃ a ∈ actions, -999 < actionValue wm r.2.previousStateWorkingMemory a) →
        r.1 ∈ actions ∧
        r.2.previousStateWorkingMemoryAction =
          wm.hrrengine.convolveHRRs (wm.hrrengine.query r.1)
            r.2.previousStateWorkingMemory)) ∧
    (WellFormed wm → EpisodeInitialised wm → wm.hrrengine.explode state '+' ≠ [] →
      (¬ u < wm.critic.epsilon ∨
        validDraws wm.workingMemoryChunks.length (withState wm state).stepCandidates.length
          draws = true) →
      ∀ sqrt2, ∃ r, step sqrt2 wm state actions reward u draws = some r) ∧
    (WellFormed wm → wm.hrrengine.explode state '+' ≠ [] →
      (¬ u < wm.critic.epsilon ∨
        validDraws wm.workingMemoryChunks.length
          (sortStrings (cleared wm state).getCandidateChunksFromState).length draws = true) →
      ∃ r, initializeEpisode wm state actions reward u draws = some r) := by
  refine ⟨?_, ?_, ?_, ?_⟩
  · intro sqrt2 r h
    simp only [step, Option.bind_eq_some] at h
    obtain ⟨wm1, hsel, hfin⟩ := h
    obtain ⟨chunks, value, t, t2, rfl⟩ := stepSelect_frame sqrt2 wm wm1 state u draws hsel
    obtain ⟨w, w2, rep, act, hrep, hact, rfl⟩ := stepFinish_stores _ actions reward r hfin
    exact ⟨rfl, rfl, hrep, rfl, rfl, ⟨_, hsel, rfl, hact⟩,
      fun hs => findMostValuableAction_composed _ rep hrep actions act hact hs⟩
  · intro r h
    simp only [initializeEpisode, Option.bind_eq_some] at h
    obtain ⟨wm1, hsel, hfin⟩ := h
    obtain ⟨chunks, value, rfl, -⟩ := initializeEpisodeSelect_shape wm wm1 state u draws hsel
    obtain ⟨rep, act, hrep, hact, rfl⟩ := initializeEpisodeFinish_stores _ actions reward r hfin
    exact ⟨rfl, rfl, hrep, rfl, rfl, ⟨_, hsel, rfl, hact⟩,
      fun hs => findMostValuableAction_composed _ rep hrep actions act hact hs⟩
  · intro hwf hi hstate hb sqrt2
    exact step_returns sqrt2 wm state actions reward u draws hwf hi hstate hb
  · intro hwf hstate hb
    exact initializeEpisode_returns wm state actions reward u draws hwf hstate hb

/-- The members a greedy `step` with reward 7 stores on the concrete
controller `demo`. -/
theorem bookkeeping_hand_over_witness :
    (step demoSqrt2 demo "a+b" ["x", "a"] 7 (1 / 2) []).map
      (fun r => (r.1, r.2.previousReward, r.2.previousValue, r.2.previousQValue)) =
      some ("x", 7, 18, 48) ∧
    (step demoSqrt2 demo "a+b" ["x", "a"] 7 (1 / 2) []).map
      (fun r => (r.2.previousStateWorkingMemory, r.2.previousStateWorkingMemoryAction)) =
      some ([6, 6], [12, 12]) ∧
    ∃ r, step demoSqrt2 demo "a+b" ["x", "a"] 7 (1 / 2) [] = some r ∧
      r.2.previousReward = 7 ∧
      r.2.stateAndWorkingMemoryRepresentation = some r.2.previousStateWorkingMemory ∧
      r.2.previousValue = demo.critic.V r.2.previousStateWorkingMemory demo.weights ∧
      r.2.previousQValue =
        demo.critic.V r.2.previousStateWorkingMemoryAction demo.actionWeights := by
  have h := bookkeeping_hand_over demo "a+b" ["x", "a"] 7 (1 / 2) []
  obtain ⟨r, hr⟩ := h.2.2.1 demo_wellFormed demo_initialised (by decide)
    (Or.inl (by decide!)) demoSqrt2
  obtain ⟨h1, -, h3, h4, h5, -, -⟩ := h.1 demoSqrt2 r hr
  exact ⟨by decide!, by decide!, r, hr, h1, h3, h4, h5⟩

end Bookkeeping

/-! ## The candidate the random selection never reads -/

section FirstCandidate

open WorkingMemory

variable {α : Type} [LinearOrderedField α]

/-- C24 (counterexample). With the sorted candidates a, a and the draws 1, 0
(each within its range) the random selection stores the candidate of index
1, so that working memory holds the name at index 0 of the list.  Such a
list is reached through the calls: for the state text a+a+a the sorted
candidate list is the empty string twice followed by a, and
`initializeEpisode` on the random branch with the draws 1, 0 leaves the
empty string, the name at index 0, in the first slot. -/
theorem first_candidate_name_is_stored :
    (["a", "a"] : List String).Sorted (fun a b => a ≤ b) ∧
    (["a", "a"] : List String)[0]? = some "a" ∧
    validDraws 2 2 [1, 0] = true ∧
    (demo.chooseRandomWorkingMemoryContents ["a", "a"] [1, 0]).map
      (fun r => (r.1.workingMemoryChunks, r.2)) = some (["a", "I"], []) ∧
    sortStrings (cleared demoExploring "a+a+a").getCandidateChunksFromState = ["", "", "a"] ∧
    (initializeEpisode demoExploring "a+a+a" ["x"] 0 (1 / 2) [1, 0]).map
      (fun r => r.2.queryWorkingMemory) = some ["", "I"] := by
  decide!

/-- C24 (amended). The random selection never reads index 0 of the candidate
list: whenever `chooseRandomWorkingMemoryContents` returns, for every
candidate list and every sequence of draws, every working-memory slot holds
`"I"` or a candidate from an index `>= 1` of the list.  Hence the candidate
at index 0 of a duplicate-free list, when it is not `"I"` itself, is not in
working memory afterwards, and with exactly one candidate every slot is
`"I"`.  The call returns when the draws are within range. -/
theorem random_selection_never_reads_first (wm : WorkingMemory α) (cands : List String)
    (draws : List Int) :
    (∀ r, wm.chooseRandomWorkingMemoryContents cands draws = some r →
      (∀ s ∈ r.1.workingMemoryChunks, s = "I" ∨ s ∈ cands.tail) ∧
      (∀ c, cands.head? = some c → cands.Nodup → c ≠ "I" → c ∉ r.1.workingMemoryChunks) ∧
      (cands.length = 1 →
        r.1.workingMemoryChunks = List.replicate wm.workingMemoryChunks.length "I")) ∧
    (validDraws wm.workingMemoryChunks.length cands.length draws = true →
      ∃ r, wm.chooseRandomWorkingMemoryContents cands draws = some r) := by
  refine ⟨?_, fun hv => chooseRandom_eq_some wm cands draws hv⟩
  intro r h
  simp only [chooseRandomWorkingMemoryContents, Option.map_eq_some'] at h
  obtain ⟨q, hq, rfl⟩ := h
  have hmem : ∀ s ∈ q.1, s = "I" ∨ s ∈ cands.tail := by
    intro s hs
    rcases chooseRandomLoop_members _ 0 _ cands draws q (by simp) hq s hs with h | h | h
    · simp at h
    · exact Or.inl h
    · exact Or.inr h
  refine ⟨hmem, ?_, ?_⟩
  · intro c hc hn hne hin
    rcases hmem c hin with h | h
    · exact hne h
    · exact not_mem_tail_of_nodup cands c hc hn h
  · intro h1
    have hlen := chooseRandomLoop_length _ _ _ _ _ q hq
    show q.1 = _
    rw [List.eq_replicate_iff]
    refine ⟨hlen, ?_⟩
    intro s hs
    rcases hmem s hs with h | h
    · exact h
    · have ht : cands.tail = [] := by
        apply List.length_eq_zero.mp
        rw [List.length_tail, h1]
      rw [ht] at h
      simp at h

/-- The random selection on the concrete controller with the candidates a,
b, c and the draws 1, 1: the slots hold b and c, and a is not stored; with
the single candidate a the draw 0 leaves every slot `"I"`. -/
theorem random_selection_never_reads_first_witness :
    (demo.chooseRandomWorkingMemoryContents ["a", "b", "c"] [1, 1]).map
      (fun r => r.1.workingMemoryChunks) = some ["b", "c"] ∧
    (demo.chooseRandomWorkingMemoryContents ["a"] [0]).map
      (fun r => r.1.workingMemoryChunks) = some ["I", "I"] ∧
    ∃ r, demo.chooseRandomWorkingMemoryContents ["a", "b", "c"] [1, 1] = some r ∧
      (∀ s ∈ r.1.workingMemoryChunks, s = "I" ∨ s ∈ ["b", "c"]) ∧
      "a" ∉ r.1.workingMemoryChunks := by
  have h := random_selection_never_reads_first demo ["a", "b", "c"] [1, 1]
  obtain ⟨r, hr⟩ := h.2 (by decide)
  exact ⟨by decide!, by decide!, r, hr, (h.1 r hr).1,
    (h.1 r hr).2.1 "a" rfl (by decide) (by decide)⟩

end FirstCandidate

/-! ## The recorded state value and the best score of the search -/

section RecordedValue

open WorkingMemory

variable {α : Type} [LinearOrderedField α]

/-- C25. The functions `findValueOfContents`, applied to the contents in
working memory, and `stateAndWorkingMemoryRepresentation` compose the same
vector (a name resolves to the same vector on every query), and whenever
`findMostValuableChunks` returns, `V` of the state and working-memory
representation under the weights equals the `currentChunkValue` the search
left.  Hence on the greedy branch the state value `initializeEpisode` and
`step` record as previous value is the best score of the search.  On a
well-formed controller the greedy calls do return (`step` with an episode
initialised). -/
theorem recorded_value_agrees_with_search (wm : WorkingMemory α) :
    wm.findValueOfContents wm.workingMemoryChunks =
      (wm.stateAndWorkingMemoryRepresentation.map fun rep => wm.critic.V rep wm.weights) ∧
    (∀ cand wm1, wm.findMostValuableChunks cand = some wm1 →
      (wm1.stateAndWorkingMemoryRepresentation.map fun rep => wm1.critic.V rep wm1.weights) =
        some wm1.currentChunkValue ∧
      wm1.findValueOfContents wm1.workingMemoryChunks = some wm1.currentChunkValue) ∧
    (∀ state actions reward u draws r, ¬ u < wm.critic.epsilon →
      initializeEpisode wm state actions reward u draws = some r →
      r.2.previousValue = r.2.currentChunkValue) ∧
    (∀ sqrt2 state actions reward u draws r, ¬ u < wm.critic.epsilon →
      step sqrt2 wm state actions reward u draws = some r →
      r.2.previousValue = r.2.currentChunkValue) ∧
    (WellFormed wm → ∀ state actions reward u draws, ¬ u < wm.critic.epsilon →
      wm.hrrengine.explode state '+' ≠ [] →
      (∃ r, initializeEpisode wm state actions reward u draws = some r) ∧
      (EpisodeInitialised wm → ∀ sqrt2,
        ∃ r, step sqrt2 wm state actions reward u draws = some r)) := by
  refine ⟨findValueOfContents_own wm, ?_, ?_, ?_, ?_⟩
  · intro cand wm1 h
    have hv := findMostValuableChunks_value wm wm1 cand h
    exact ⟨by rw [← findValueOfContents_own]; exact hv, hv⟩
  · intro state actions reward u draws r hu h
    simp only [initializeEpisode, Option.bind_eq_some] at h
    obtain ⟨wm1, hsel, hfin⟩ := h
    simp only [initializeEpisodeSelect, if_neg hu] at hsel
    have hv := findMostValuableChunks_value _ wm1 _ hsel
    rw [findValueOfContents_own] at hv
    obtain ⟨rep, act, hrep, -, rfl⟩ := initializeEpisodeFinish_stores _ actions reward r hfin
    rw [hrep, Option.map_some', Option.some.injEq] at hv
    exact hv
  · intro sqrt2 state actions reward u draws r hu h
    simp only [step, Option.bind_eq_some] at h
    obtain ⟨wm1, hsel, hfin⟩ := h
    simp only [stepSelect, updateTraces, Option.bind_eq_some, Option.map_eq_some'] at hsel
    obtain ⟨wm0, ⟨t, -, t2, -, rfl⟩, hsel⟩ := hsel
    rw [if_neg hu] at hsel
    have hv := findMostValuableChunks_value _ wm1 _ hsel
    rw [findValueOfContents_own] at hv
    obtain ⟨w, w2, rep, act, hrep, -, rfl⟩ := stepFinish_stores _ actions reward r hfin
    rw [hrep, Option.map_some', Option.some.injEq] at hv
    exact hv
  · intro hwf state actions reward u draws hu hstate
    exact ⟨initializeEpisode_returns wm state actions reward u draws hwf hstate (Or.inl hu),
      fun hi sqrt2 =>
        step_returns sqrt2 wm state actions reward u draws hwf hi hstate (Or.inl hu)⟩

/-- The value a greedy `initializeEpisode` records on the concrete controller
`demo` and the best score of its search. -/
theorem recorded_value_agrees_with_search_witness :
    (initializeEpisode demo "a+b" ["x", "a"] 7 (1 / 2) []).map
      (fun r => (r.2.workingMemoryChunks, r.2.previousValue, r.2.currentChunkValue)) =
      some (["a", "b"], 18, 18) ∧
    ∃ r, initializeEpisode demo "a+b" ["x", "a"] 7 (1 / 2) [] = some r ∧
      r.2.previousValue = r.2.currentChunkValue := by
  have h := recorded_value_agrees_with_search demo
  obtain ⟨r, hr⟩ := (h.2.2.2.2 demo_wellFormed "a+b" ["x", "a"] 7 (1 / 2) [] (by decide!)
    (by decide)).1
  exact ⟨by decide!, r, hr, h.2.2.1 "a+b" ["x", "a"] 7 (1 / 2) [] r (by decide!) hr⟩

end RecordedValue

/-! ## Copying a controller and clearing its weights -/

section Maintenance

open WorkingMemory

variable {α : Type} [LinearOrderedField α]

/-- C26 (failing input). Assigning the concrete controller `demo` (working
memory I, I) to the constructed controller `demoConstructed` (two slots
holding the empty string) leaves the target with four slots: its own two
followed by the two of the source.  The copy constructor, which runs the
same statements on an object whose working memory starts empty, does give
the source's working memory. -/
theorem assignment_appends_working_memory :
    demo.queryWorkingMemory = ["I", "I"] ∧
    demoConstructed.queryWorkingMemory = ["", ""] ∧
    (assign demoConstructed demo).map (fun r => r.queryWorkingMemory) =
      some ["", "", "I", "I"] ∧
    (copyConstruct demo 0).map (fun r => r.queryWorkingMemory) = some ["I", "I"] := by
  decide!

/-- C27. The call `clearWeights` sets every entry of the state weight vector
to `0` and keeps its length (`vectorSize` for a controller whose weight
vector has `vectorSize` entries), and the controller is otherwise as
before: action weights, both eligibility traces, working memory and the
previous-step members are unchanged.  The call `resetWeights` likewise
changes the state weight vector only: whenever it returns, the controller
differs from the one before in `weights` alone, which keeps its length; on a
weight vector of at least `vectorSize` entries it returns, with entry `i`
below `vectorSize` the `i`-th value drawn. -/
theorem clearWeights_frame (wm : WorkingMemory α) :
    wm.clearWeights.weights = List.replicate wm.weights.length 0 ∧
    wm.clearWeights.weights.length = wm.weights.length ∧
    (wm.weights.length = wm.vectorSize →
      wm.clearWeights.weights = List.replicate wm.vectorSize 0) ∧
    wm.clearWeights = { wm with weights := wm.clearWeights.weights } ∧
    wm.clearWeights.actionWeights = wm.actionWeights ∧
    wm.clearWeights.eligibilityTrace = wm.eligibilityTrace ∧
    wm.clearWeights.actionEligibilityTrace = wm.actionEligibilityTrace ∧
    wm.clearWeights.workingMemoryChunks = wm.workingMemoryChunks ∧
    wm.clearWeights.previousReward = wm.previousReward ∧
    wm.clearWeights.previousValue = wm.previousValue ∧
    wm.clearWeights.previousQValue = wm.previousQValue ∧
    wm.clearWeights.previousStateWorkingMemory = wm.previousStateWorkingMemory ∧
    wm.clearWeights.previousStateWorkingMemoryAction = wm.previousStateWorkingMemoryAction ∧
    (∀ draw r, wm.resetWeights draw = some r →
      r = { wm with weights := r.weights } ∧ r.weights.length = wm.weights.length) ∧
    (∀ draw, wm.vectorSize ≤ wm.weights.length →
      wm.resetWeights draw = some { wm with
        weights := (List.range wm.vectorSize).map draw ++ wm.weights.drop wm.vectorSize }) := by
  refine ⟨rfl, by simp [clearWeights], fun h => by simp [clearWeights, h], rfl, rfl, rfl, rfl,
    rfl, rfl, rfl, rfl, rfl, rfl, ?_, ?_⟩
  · intro draw r h
    simp only [resetWeights, Option.map_eq_some'] at h
    obtain ⟨w, hw, rfl⟩ := h
    exact ⟨rfl, resetWeightsLoop_length draw _ _ _ w hw⟩
  · intro draw h
    simp only [resetWeights, resetWeightsLoop_eq draw wm.vectorSize 0 wm.weights (by omega),
      Option.map_some', List.take_zero, List.nil_append, Nat.zero_add, List.range_eq_range']

/-- The calls `clearWeights` and `resetWeights` on the concrete controller
`demo`, whose weights are 1, 2. -/
theorem clearWeights_frame_witness :
    demo.clearWeights.weights = [0, 0] ∧
    (demo.resetWeights (fun i => (i : ℚ) + 5)).map (fun r => r.weights) = some [5, 6] ∧
    demo.clearWeights = { demo with weights := demo.clearWeights.weights } ∧
    demo.resetWeights (fun i => (i : ℚ) + 5) = some { demo with
      weights := (List.range demo.vectorSize).map (fun i => (i : ℚ) + 5) ++
        demo.weights.drop demo.vectorSize } :=
  ⟨by decide!, by decide!, (clearWeights_frame demo).2.2.2.1,
    (clearWeights_frame demo).2.2.2.2.2.2.2.2.2.2.2.2.2.2 (fun i => (i : ℚ) + 5) (by decide)⟩

end Maintenance

end WMtk
